import Mathlib

/-!
# Verification of the tdt4260 prefetchers

A shallow embedding of the prediction data structures of the repository:

* `joseph97-with-grouped-history/grouped_history.hh` : the interval store `GroupedHistory<T>`,
* `joseph97-with-grouped-history/prefetcher.cc` : the delta-correlation prefetcher,
* `joseph97/prefetcher.cc` : the Markov miss-graph prefetcher,
* `baer91/prefetcher.cc` : the stride prefetcher (reference prediction table).

Machine integers are natural numbers / integers with explicit reduction modulo `2^64`.
`ADDR`/`Addr` is `uint64_t`, `TICK`/`Tick` and `DAddr` are `int64_t`.
-/

set_option autoImplicit false

/-! ## Machine arithmetic -/

/-- Conversion of a signed integer (`int`, `int64_t`) to `uint64_t`: reduction modulo `2^64`. -/
def toADDR (x : Int) : Nat := (x % (2 ^ 64 : Int)).toNat

/-- Conversion of a `uint64_t` to `int64_t` (two's complement). -/
def toInt64 (x : Nat) : Int :=
  if x % 2 ^ 64 < 2 ^ 63 then ((x % 2 ^ 64 : Nat) : Int) else ((x % 2 ^ 64 : Nat) : Int) - 2 ^ 64

/-- `a + b` on `uint64_t`. -/
def wadd (a b : Nat) : Nat := (a + b) % 2 ^ 64

/-- `a - b` on `uint64_t`. -/
def wsub (a b : Nat) : Nat := (a + (2 ^ 64 - b % 2 ^ 64)) % 2 ^ 64

/-- `a + b` on `uint64_t`, where `b` is a signed integer converted to `uint64_t` first. -/
def addrAdd (a : Nat) (b : Int) : Nat := wadd a (toADDR b)

/-- `a - b` on `uint64_t`, where `b` is a signed integer converted to `uint64_t` first. -/
def addrSub (a : Nat) (b : Int) : Nat := wsub a (toADDR b)

/-- `a & ~((Addr)(blockSize - 1))` on `uint64_t`. -/
def blockMask (a : Nat) (blockSize : Int) : Nat :=
  a &&& (2 ^ 64 - 1 - toADDR (blockSize - 1))

/-! ## `grouped_history.hh` -/

/-- The record `GroupedHistoryEntry<T>`. -/
structure GroupedHistoryEntry (T : Type) where
  FirstAddr : Nat
  LastAddr : Nat
  LastAccess : Int
  Data : T
deriving DecidableEq, Repr

/-- The ways a run of the model can fail to produce a store. -/
inductive Fault where
  /-- An iterator equal to `end()` is incremented or dereferenced. -/
  | undefinedBehaviour
  /-- The fuel given to the eviction loop ran out. -/
  | outOfFuel
deriving DecidableEq, Repr

/-- The class `GroupedHistory<T>`.

`mEntryByAddr` is the `std::map<ADDR, Entry*>`: the entries in ascending order of their key.
The key of an entry is its `FirstAddr` (the only insertion is `mEntryByAddr[firstAddr] = entry`
with `entry->FirstAddr = firstAddr`, and `FirstAddr` is never written again), so the list holds
the entries themselves.

`mEntryByTime` is the `std::multimap<TICK, Entry*>`: pairs of a key and a pointer, in ascending
key order, equal keys in insertion order. A pointer to an entry is represented by the
`FirstAddr` of the entry it points to: every live entry sits in `mEntryByAddr` under that key.

An iterator of either container is a position in the list; `end()` is the length. -/
structure GroupedHistory (T : Type) where
  mBlockSize : Int
  mCapacity : Int
  mEntryByTime : List (Int × Nat)
  mEntryByAddr : List (GroupedHistoryEntry T)
deriving DecidableEq, Repr

namespace GroupedHistory

variable {T : Type}

/-- The constructor: both indices empty. -/
def new (blockSize capacity : Int) : GroupedHistory T :=
  { mBlockSize := blockSize, mCapacity := capacity, mEntryByTime := [], mEntryByAddr := [] }

/-- Position given by `std::map::find(k)` (the length when there is no such key). -/
def addrFind : List (GroupedHistoryEntry T) → Nat → Nat
  | [], _ => 0
  | e :: es, k => if e.FirstAddr = k then 0 else addrFind es k + 1

/-- Position given by `std::map::upper_bound(k)`: the first key greater than `k`. -/
def addrUpperBound : List (GroupedHistoryEntry T) → Nat → Nat
  | [], _ => 0
  | e :: es, k => if k < e.FirstAddr then 0 else addrUpperBound es k + 1

/-- Insertion `m[e.FirstAddr] = e` into the address index. -/
def addrInsert (e : GroupedHistoryEntry T) : List (GroupedHistoryEntry T) → List (GroupedHistoryEntry T)
  | [] => [e]
  | x :: xs =>
    if e.FirstAddr < x.FirstAddr then e :: x :: xs
    else if e.FirstAddr = x.FirstAddr then e :: xs
    else x :: addrInsert e xs

/-- Insertion into the `std::multimap`: after every element whose key is not greater. -/
def timeInsert (p : Int × Nat) : List (Int × Nat) → List (Int × Nat)
  | [] => [p]
  | x :: xs => if p.1 < x.1 then p :: x :: xs else x :: timeInsert p xs

/-- Position of the first element of the time index equal to `p` (the length when there is
none): the scan of `FindEntryByTimeIterator` over the range of the key of `p`. -/
def timeFind : List (Int × Nat) → Int × Nat → Nat
  | [], _ => 0
  | x :: xs, p => if x = p then 0 else timeFind xs p + 1

/-- The write `entry->f = v` through a pointer: the entry of key `k` becomes `f entry`. -/
def addrModify (f : GroupedHistoryEntry T → GroupedHistoryEntry T) :
    List (GroupedHistoryEntry T) → Nat → List (GroupedHistoryEntry T)
  | [], _ => []
  | e :: es, k => if e.FirstAddr = k then f e :: es else e :: addrModify f es k

/-- The method `AddNewEntry`. -/
def AddNewEntry (h : GroupedHistory T) (firstAddr lastAddr : Nat) (lastAccess : Int) (data : T) :
    GroupedHistory T :=
  if firstAddr > lastAddr then h
  else if addrFind h.mEntryByAddr firstAddr ≠ h.mEntryByAddr.length then h
  else
    let entry : GroupedHistoryEntry T :=
      { FirstAddr := firstAddr, LastAddr := lastAddr, LastAccess := lastAccess, Data := data }
    { h with
      mEntryByTime := timeInsert (lastAccess, firstAddr) h.mEntryByTime
      mEntryByAddr := addrInsert entry h.mEntryByAddr }

/-- The method `FindEntryByTimeIterator`: the position of the first element of the time index
with key `entry->LastAccess` that points to `entry` (the length when there is none). -/
def FindEntryByTimeIterator (h : GroupedHistory T) (entry : GroupedHistoryEntry T) : Nat :=
  timeFind h.mEntryByTime (entry.LastAccess, entry.FirstAddr)

/-- The method `FindEntryByAddr`. -/
def FindEntryByAddr (h : GroupedHistory T) (addr : Nat) : Nat :=
  let it := addrUpperBound h.mEntryByAddr addr
  if h.mEntryByAddr.length > 0 ∧ it ≠ 0 then
    match h.mEntryByAddr[it - 1]? with
    | some e => if e.FirstAddr ≤ addr ∧ e.LastAddr ≥ addr then it - 1 else h.mEntryByAddr.length
    | none => h.mEntryByAddr.length
  else h.mEntryByAddr.length

/-- The method `UpdateLastAccess`. -/
def UpdateLastAccess (h : GroupedHistory T) (firstAddr : Nat) (lastAccess : Int) :
    GroupedHistory T :=
  match h.mEntryByAddr[addrFind h.mEntryByAddr firstAddr]? with
  | none => h
  | some entry =>
    let byTimeIt := FindEntryByTimeIterator h entry
    if byTimeIt = h.mEntryByTime.length then h
    else
      { h with
        mEntryByTime := timeInsert (lastAccess, entry.FirstAddr) (h.mEntryByTime.eraseIdx byTimeIt)
        mEntryByAddr :=
          addrModify (fun e => { e with LastAccess := lastAccess }) h.mEntryByAddr entry.FirstAddr }

/-- The method `RemoveEntry`. -/
def RemoveEntry (h : GroupedHistory T) (firstAddr : Nat) : GroupedHistory T :=
  let byAddrIt := addrFind h.mEntryByAddr firstAddr
  match h.mEntryByAddr[byAddrIt]? with
  | none => h
  | some entry =>
    let byTimeIt := FindEntryByTimeIterator h entry
    if byTimeIt = h.mEntryByTime.length then h
    else
      { h with
        mEntryByTime := h.mEntryByTime.eraseIdx byTimeIt
        mEntryByAddr := h.mEntryByAddr.eraseIdx byAddrIt }

/-- The write `entry->LastAddr = v` through a pointer to the entry of key `k`. -/
def setLastAddr (h : GroupedHistory T) (k : Nat) (v : Nat) : GroupedHistory T :=
  { h with mEntryByAddr := addrModify (fun e => { e with LastAddr := v }) h.mEntryByAddr k }

/-- Lines 85-114 of `Update`: the address lies inside an existing entry, which is refreshed
when it can merge with the new access and split around the address otherwise. -/
def UpdateSplit (CanMerge : GroupedHistoryEntry T → GroupedHistoryEntry T → Bool)
    (h : GroupedHistory T) (accessTime : Int) (addr : Nat) (data : T) : GroupedHistory T :=
  match h.mEntryByAddr[FindEntryByAddr h addr]? with
  | none => h
  | some prevEntry =>
    let newEntry : GroupedHistoryEntry T :=
      { FirstAddr := addr, LastAddr := addr, LastAccess := accessTime, Data := data }
    if CanMerge prevEntry newEntry then
      UpdateLastAccess h prevEntry.FirstAddr accessTime
    else
      let h1 :=
        if addrAdd addr h.mBlockSize ≤ prevEntry.LastAddr then
          AddNewEntry h (addrAdd addr h.mBlockSize) prevEntry.LastAddr prevEntry.LastAccess
            prevEntry.Data
        else h
      if prevEntry.FirstAddr ≤ addrSub addr h.mBlockSize then
        setLastAddr h1 prevEntry.FirstAddr (toADDR h.mBlockSize)
      else RemoveEntry h1 prevEntry.FirstAddr

/-- The merge of the entry at position `prevIt` with the entry at position `it`
(lines 130-135 and 145-150 of `Update`): the first absorbs the second. Dereferencing a
position that is `end()` is undefined behaviour. -/
def mergeAt (CanMerge : GroupedHistoryEntry T → GroupedHistoryEntry T → Bool)
    (h : GroupedHistory T) (accessTime : Int) (prevIt it : Nat) :
    Except Fault (GroupedHistory T) :=
  match h.mEntryByAddr[prevIt]?, h.mEntryByAddr[it]? with
  | some prev, some cur =>
    if CanMerge prev cur then
      let h1 := setLastAddr h prev.FirstAddr cur.LastAddr
      let h2 := UpdateLastAccess h1 prev.FirstAddr accessTime
      .ok (RemoveEntry h2 cur.FirstAddr)
    else .ok h
  | _, _ => .error Fault.undefinedBehaviour

/-- Lines 123-136 of `Update`: the new entry of key `addr` is merged into the entry before it,
when there is one and the predicate allows it. -/
def mergeWithPrevious (CanMerge : GroupedHistoryEntry T → GroupedHistoryEntry T → Bool)
    (h : GroupedHistory T) (accessTime : Int) (addr : Nat) : Except Fault (GroupedHistory T) :=
  let byAddrIt := addrFind h.mEntryByAddr addr
  if byAddrIt ≠ 0 then mergeAt CanMerge h accessTime (byAddrIt - 1) byAddrIt
  else .ok h

/-- Lines 139-151 of `Update`: the entry that covers `addr` absorbs the entry after it, when
there is one and the predicate allows it. Incrementing `end()` is undefined behaviour. -/
def mergeWithNext (CanMerge : GroupedHistoryEntry T → GroupedHistoryEntry T → Bool)
    (h : GroupedHistory T) (accessTime : Int) (addr : Nat) : Except Fault (GroupedHistory T) :=
  let byAddrPrevIt := FindEntryByAddr h addr
  if byAddrPrevIt = h.mEntryByAddr.length then .error Fault.undefinedBehaviour
  else if byAddrPrevIt + 1 ≠ h.mEntryByAddr.length then
    mergeAt CanMerge h accessTime byAddrPrevIt (byAddrPrevIt + 1)
  else .ok h

/-- Lines 116-152 of `Update`: when no entry covers the address, a singleton entry is added
and merged with the entry before it, then with the entry after it. -/
def UpdateInsert (CanMerge : GroupedHistoryEntry T → GroupedHistoryEntry T → Bool)
    (h : GroupedHistory T) (accessTime : Int) (addr : Nat) (data : T) :
    Except Fault (GroupedHistory T) :=
  if FindEntryByAddr h addr = h.mEntryByAddr.length then
    match mergeWithPrevious CanMerge (AddNewEntry h addr addr accessTime data) accessTime addr with
    | .error f => .error f
    | .ok h2 => mergeWithNext CanMerge h2 accessTime addr
  else .ok h

/-- Lines 154-158 of `Update`: the eviction loop. Each iteration consumes one unit of fuel. -/
def evictLoop : Nat → GroupedHistory T → Except Fault (GroupedHistory T)
  | fuel, h =>
    if h.mEntryByTime.length > toADDR h.mCapacity then
      match fuel with
      | 0 => .error Fault.outOfFuel
      | fuel + 1 =>
        match h.mEntryByTime with
        | [] => .error Fault.undefinedBehaviour
        | (_, p) :: _ => evictLoop fuel (RemoveEntry h p)
    else .ok h

/-- The part of `Update` before the eviction loop (lines 80-152). -/
def UpdateBody (CanMerge : GroupedHistoryEntry T → GroupedHistoryEntry T → Bool)
    (h : GroupedHistory T) (accessTime : Int) (addr : Nat) (data : T) :
    Except Fault (GroupedHistory T) :=
  UpdateInsert CanMerge (UpdateSplit CanMerge h accessTime addr data) accessTime addr data

/-- The method `Update`, the eviction loop running on `fuel`. -/
def Update (fuel : Nat) (CanMerge : GroupedHistoryEntry T → GroupedHistoryEntry T → Bool)
    (h : GroupedHistory T) (accessTime : Int) (addr : Nat) (data : T) :
    Except Fault (GroupedHistory T) :=
  match UpdateBody CanMerge h accessTime addr data with
  | .ok h1 => evictLoop fuel h1
  | .error f => .error f

/-- The method `Get`: the entry, or `none` for `NULL`. -/
def Get (h : GroupedHistory T) (addr : Nat) : Option (GroupedHistoryEntry T) :=
  let it := FindEntryByAddr h addr
  if it ≠ h.mEntryByAddr.length then h.mEntryByAddr[it]? else none

/-- Runs a sequence of `Update` calls `(accessTime, addr, data)`, each with `fuel` for its
eviction loop. -/
def UpdateSeq (fuel : Nat) (CanMerge : GroupedHistoryEntry T → GroupedHistoryEntry T → Bool)
    (h : GroupedHistory T) : List (Int × Nat × T) → Except Fault (GroupedHistory T)
  | [] => .ok h
  | (t, a, d) :: rest =>
    match Update fuel CanMerge h t a d with
    | .ok h1 => UpdateSeq fuel CanMerge h1 rest
    | .error f => .error f

/-- The entries read in address-index order are sorted by `FirstAddr`. -/
def SortedByFirstAddr (h : GroupedHistory T) : Prop :=
  h.mEntryByAddr.Pairwise (fun a b => a.FirstAddr < b.FirstAddr)

/-- Every entry has `FirstAddr ≤ LastAddr`. -/
def WellFormedIntervals (h : GroupedHistory T) : Prop :=
  ∀ e ∈ h.mEntryByAddr, e.FirstAddr ≤ e.LastAddr

/-- Every entry ends strictly below the start of the entries after it. -/
def DisjointIntervals (h : GroupedHistory T) : Prop :=
  h.mEntryByAddr.Pairwise (fun a b => a.LastAddr < b.FirstAddr)

/-- The partition invariant of the store: sorted, well-formed, pairwise disjoint intervals. -/
def PartitionInvariant (h : GroupedHistory T) : Prop :=
  SortedByFirstAddr h ∧ WellFormedIntervals h ∧ DisjointIntervals h

instance (h : GroupedHistory T) : Decidable (SortedByFirstAddr h) :=
  inferInstanceAs (Decidable (List.Pairwise
    (fun a b : GroupedHistoryEntry T => a.FirstAddr < b.FirstAddr) h.mEntryByAddr))

instance (h : GroupedHistory T) : Decidable (WellFormedIntervals h) :=
  inferInstanceAs (Decidable (∀ e ∈ h.mEntryByAddr, e.FirstAddr ≤ e.LastAddr))

instance (h : GroupedHistory T) : Decidable (DisjointIntervals h) :=
  inferInstanceAs (Decidable (List.Pairwise
    (fun a b : GroupedHistoryEntry T => a.LastAddr < b.FirstAddr) h.mEntryByAddr))

instance (h : GroupedHistory T) : Decidable (PartitionInvariant h) :=
  inferInstanceAs (Decidable (_ ∧ _ ∧ _))

/-- The key and pointer under which the time index holds an entry. -/
def timeKey (e : GroupedHistoryEntry T) : Int × Nat := (e.LastAccess, e.FirstAddr)

/-- The two indices hold the same entries: the time index is a rearrangement of the
(key, pointer) pairs of the entries of the address index. -/
def Consistent (h : GroupedHistory T) : Prop :=
  h.mEntryByTime.Perm (h.mEntryByAddr.map timeKey)

instance (h : GroupedHistory T) : Decidable (Consistent h) :=
  inferInstanceAs (Decidable (h.mEntryByTime.Perm (h.mEntryByAddr.map timeKey)))

/-- The time index is in ascending key order, as every `std::multimap`. -/
def TimeSorted (h : GroupedHistory T) : Prop :=
  h.mEntryByTime.Pairwise (fun a b => a.1 ≤ b.1)

instance (h : GroupedHistory T) : Decidable (TimeSorted h) :=
  inferInstanceAs (Decidable (List.Pairwise (fun a b : Int × Nat => a.1 ≤ b.1) h.mEntryByTime))

/-- The representation invariant of the store: the two indices hold the same entries, the
address index is in strictly ascending key order and the time index in ascending key order. -/
def StoreInvariant (h : GroupedHistory T) : Prop :=
  Consistent h ∧ SortedByFirstAddr h ∧ TimeSorted h

instance (h : GroupedHistory T) : Decidable (StoreInvariant h) :=
  inferInstanceAs (Decidable (_ ∧ _ ∧ _))

/-- A call `UpdateLastAccess(firstAddr, _)` or `RemoveEntry(firstAddr)` on the store takes
neither of its two "Entry not found" branches: the key is in the address index and the entry
found there is in the time index. -/
def EntryFound (h : GroupedHistory T) (firstAddr : Nat) : Prop :=
  ∃ entry, h.mEntryByAddr[addrFind h.mEntryByAddr firstAddr]? = some entry ∧
    FindEntryByTimeIterator h entry ≠ h.mEntryByTime.length

end GroupedHistory

/-- The merge predicate of `test_grouped_history.cc`: equal payloads. -/
def testCanMerge (a b : GroupedHistoryEntry Int) : Bool := decide (a.Data = b.Data)

/-! ## `interface.hh`

The header of the simulator is absent from the repository. Its constants `BLOCK_SIZE` and
`MAX_PHYS_MEM_ADDR` and its queries `in_cache` and `in_mshr_queue` are parameters of the
functions that use them. -/

/-- Modelled from the spec: the record `AccessStat` of `interface.hh` (the access event: program
counter, memory address, timestamp, miss flag), with the fields that `prefetch_access` reads. -/
structure AccessStat where
  pc : Nat
  mem_addr : Nat
  time : Int
  miss : Int
deriving DecidableEq, Repr

/-! ## `joseph97-with-grouped-history/prefetcher.cc` -/

namespace DeltaCorrelation

/-- The constant `MAX_HISTORY`. -/
def MAX_HISTORY : Int := 2 * 1024

/-- The method `Callbacks::CanMerge`; `BLOCK_SIZE` is the constant of `interface.hh`. -/
def CanMerge (BLOCK_SIZE : Int) (a b : GroupedHistoryEntry Int) : Bool :=
  if a.Data ≠ b.Data then false
  else if addrAdd a.LastAddr BLOCK_SIZE < b.FirstAddr then false
  else true

/-- The globals `history` and `prev_addr`. -/
structure State where
  history : GroupedHistory Int
  prev_addr : Nat
deriving DecidableEq, Repr

/-- The globals after their construction and `prefetch_init`. -/
def prefetch_init (BLOCK_SIZE : Int) : State :=
  { history := GroupedHistory.new BLOCK_SIZE MAX_HISTORY, prev_addr := 0 }

/-- Lines 87-91 of `prefetch_access`: the value of `pf_addr` for a miss at block address
`addr`. -/
def prefetch_target (BLOCK_SIZE : Int) (MAX_PHYS_MEM_ADDR : Nat) (history : GroupedHistory Int)
    (addr : Nat) : Nat :=
  match history.Get addr with
  | some entry =>
    if addrAdd addr entry.Data > 0 ∧ addrAdd addr entry.Data ≤ MAX_PHYS_MEM_ADDR then
      addrAdd addr entry.Data
    else addrAdd addr BLOCK_SIZE
  | none => addrAdd addr BLOCK_SIZE

/-- The function `prefetch_access`: the new globals and the prefetch issued, if any.
`in_cache` is the query of the simulator. -/
def prefetch_access (BLOCK_SIZE : Int) (MAX_PHYS_MEM_ADDR : Nat) (in_cache : Nat → Bool)
    (fuel : Nat) (σ : State) (stat : AccessStat) : Except Fault (State × Option Nat) :=
  let addr := blockMask stat.mem_addr BLOCK_SIZE
  if stat.miss ≠ 0 then
    let updated : Except Fault (GroupedHistory Int) :=
      if σ.prev_addr ≠ 0 then
        let delta : Int := toInt64 (toADDR (toInt64 addr - toInt64 σ.prev_addr))
        σ.history.Update fuel (CanMerge BLOCK_SIZE) stat.time σ.prev_addr delta
      else .ok σ.history
    match updated with
    | .error f => .error f
    | .ok history =>
      let prev_addr := if σ.prev_addr ≠ addr then addr else σ.prev_addr
      let pf_addr := prefetch_target BLOCK_SIZE MAX_PHYS_MEM_ADDR history addr
      .ok ({ history := history, prev_addr := prev_addr },
           if !in_cache pf_addr then some pf_addr else none)
  else .ok (σ, none)

end DeltaCorrelation

/-! ## `joseph97/prefetcher.cc` -/

namespace Joseph97

/-- The constant `MAX_NODE`. -/
def MAX_NODE : Nat := 32768

/-- The constant `MAX_FANOUT`. -/
def MAX_FANOUT : Nat := 4

/-- The record `node_t`; `next_misses` is the deque, front first. -/
structure node_t where
  addr : Nat
  count : Int
  next_misses : List Nat
deriving DecidableEq, Repr

/-- The value-initialised node that `nodes[k]` creates for a missing key. -/
def node_t.zero : node_t := { addr := 0, count := 0, next_misses := [] }

/-- The globals: `miss_history` is the queue, front first; `nodes` is the `std::map`, which
the program only ever searches, indexes and erases by key, as a finite partial function. -/
structure Model where
  miss_history : List Nat
  nodes : Nat → Option node_t

/-- The globals at program start. -/
def Model.empty : Model := { miss_history := [], nodes := fun _ => none }

/-- The value of `nodes[k]` (the node created for a missing key is value-initialised). -/
def nodesAt (nodes : Nat → Option node_t) (k : Nat) : node_t := (nodes k).getD node_t.zero

/-- The write `nodes[k] = v`. -/
def nodesSet (nodes : Nat → Option node_t) (k : Nat) (v : node_t) : Nat → Option node_t :=
  fun a => if a = k then some v else nodes a

/-- The call `nodes.erase(k)`. -/
def nodesErase (nodes : Nat → Option node_t) (k : Nat) : Nat → Option node_t :=
  fun a => if a = k then none else nodes a

/-- Lines 98-107 of `model_add_miss`: the update of the deque of successors. -/
def push_next_miss (next_misses : List Nat) (addr : Nat) : List Nat :=
  let erased := if addr ∈ next_misses then next_misses.erase addr else next_misses
  let popped := if erased.length = MAX_FANOUT then erased.tail else erased
  popped ++ [addr]

/-- The function `model_add_miss`. -/
def model_add_miss (m : Model) (addr : Nat) : Model :=
  let last_miss_addr := if m.miss_history.length > 0 then m.miss_history.getLast?.getD 0 else 0
  let m1 : Model :=
    if m.miss_history.length = MAX_NODE then
      let outdated_addr := m.miss_history.head?.getD 0
      let node := nodesAt m.nodes outdated_addr
      let node1 := { node with count := node.count - 1 }
      { miss_history := m.miss_history.tail
        nodes := if node1.count = 0 then nodesErase m.nodes outdated_addr
                 else nodesSet m.nodes outdated_addr node1 }
    else m
  let history := m1.miss_history ++ [addr]
  let nodes2 :=
    match m1.nodes addr with
    | none => nodesSet m1.nodes addr { addr := addr, count := 1, next_misses := [] }
    | some node => nodesSet m1.nodes addr { node with count := node.count + 1 }
  if last_miss_addr ≠ 0 then
    let last_node := nodesAt nodes2 last_miss_addr
    { miss_history := history
      nodes := nodesSet nodes2 last_miss_addr
        { last_node with next_misses := push_next_miss last_node.next_misses addr } }
  else { miss_history := history, nodes := nodes2 }

/-- The function `model_prefetch`: the prefetch issued, if any. `in_cache` and
`in_mshr_queue` are the queries of the simulator. -/
def model_prefetch (m : Model) (in_cache in_mshr_queue : Nat → Bool) (addr : Nat) :
    Option Nat :=
  match m.nodes addr with
  | none => none
  | some node =>
    match node.next_misses.getLast? with
    | some pf_addr => if !in_cache pf_addr && !in_mshr_queue pf_addr then some pf_addr else none
    | none => none

/-- The model after a stream of misses fed to `model_add_miss`, first miss first. -/
def feed (m : Model) (misses : List Nat) : Model := misses.foldl model_add_miss m

/-- A node whose deque of successors has at most `MAX_FANOUT` elements, all distinct. -/
def node_t.Bounded (n : node_t) : Prop :=
  n.next_misses.length ≤ MAX_FANOUT ∧ n.next_misses.Nodup

/-- Every node of the model has a bounded, duplicate-free deque of successors. -/
def FanoutInvariant (nodes : Nat → Option node_t) : Prop :=
  ∀ a n, nodes a = some n → n.Bounded

/-- The nodes match the queue of misses: an address has a node exactly when it occurs in the
queue, the `count` of its node is the number of its occurrences there, and the queue holds at
most `MAX_NODE` addresses. -/
def HistoryInvariant (m : Model) : Prop :=
  (∀ a, m.nodes a = none ↔ a ∉ m.miss_history) ∧
  (∀ a n, m.nodes a = some n → n.count = (m.miss_history.count a : Int)) ∧
  m.miss_history.length ≤ MAX_NODE

/-- The function `prefetch_access`: the new globals and the prefetch issued, if any. -/
def prefetch_access (BLOCK_SIZE : Int) (in_cache in_mshr_queue : Nat → Bool) (m : Model)
    (stat : AccessStat) : Model × Option Nat :=
  let addr := blockMask stat.mem_addr BLOCK_SIZE
  if stat.miss ≠ 0 then
    let m1 := model_add_miss m addr
    (m1, model_prefetch m1 in_cache in_mshr_queue addr)
  else (m, none)

end Joseph97

/-! ## `baer91/prefetcher.cc` -/

/-- A `std::map<K, V>`: the pairs in ascending key order. An iterator is a position in the
list; `end()` is the length. -/
abbrev StdMap (K V : Type) := List (K × V)

namespace StdMap

variable {K V : Type} [LT K] [DecidableRel (fun a b : K => a < b)] [DecidableEq K]

/-- Position given by `find(k)` (the length when there is no such key). -/
def findIdx : StdMap K V → K → Nat
  | [], _ => 0
  | x :: xs, k => if x.1 = k then 0 else findIdx xs k + 1

/-- The value stored under `k`, if any. -/
def lookup : StdMap K V → K → Option V
  | [], _ => none
  | x :: xs, k => if x.1 = k then some x.2 else lookup xs k

/-- The write `m[k] = v`: overwrites the value of an existing key, inserts in order
otherwise. -/
def insert (k : K) (v : V) : StdMap K V → StdMap K V
  | [] => [(k, v)]
  | x :: xs =>
    if k < x.1 then (k, v) :: x :: xs
    else if k = x.1 then (k, v) :: xs
    else x :: insert k v xs

/-- The call `erase(k)`. -/
def erase (k : K) : StdMap K V → StdMap K V
  | [] => []
  | x :: xs => if x.1 = k then xs else x :: erase k xs

/-- The pairs are in strictly ascending key order, as in every `std::map`. -/
def Sorted (m : StdMap K V) : Prop := List.Pairwise (fun a b : K × V => a.1 < b.1) m

instance (m : StdMap K V) : Decidable (Sorted m) :=
  inferInstanceAs (Decidable (List.Pairwise (fun a b : K × V => a.1 < b.1) m))

end StdMap

namespace Baer91

/-- The constant `MAX_HISTORY`. -/
def MAX_HISTORY : Nat := 16384

/-- The enumerator `RPT_STATE_INIT`. -/
def RPT_STATE_INIT : Int := 0
/-- The enumerator `RPT_STATE_TRANSIENT`. -/
def RPT_STATE_TRANSIENT : Int := 1
/-- The enumerator `RPT_STATE_STEADY`. -/
def RPT_STATE_STEADY : Int := 2
/-- The enumerator `RPT_STATE_NO_PRED`. -/
def RPT_STATE_NO_PRED : Int := 3

/-- The record `inst_t`. -/
structure inst_t where
  pc : Nat
  last_time : Int
  is_forward : Int
  prev_addr : Nat
  stride : Int
  state : Int
deriving DecidableEq, Repr

/-- The value-initialised entry that `insts[pc]` creates for a missing key. -/
def inst_t.zero : inst_t :=
  { pc := 0, last_time := 0, is_forward := 0, prev_addr := 0, stride := 0, state := 0 }

/-- The globals `insts` and `pc_history`. -/
structure Table where
  insts : StdMap Nat inst_t
  pc_history : StdMap Int Nat
deriving DecidableEq, Repr

/-- The globals at program start. -/
def Table.empty : Table := { insts := [], pc_history := [] }

/-- The value of `insts[pc]`. -/
def instsAt (insts : StdMap Nat inst_t) (pc : Nat) : inst_t :=
  (StdMap.lookup insts pc).getD inst_t.zero

/-- The function `inst_execute`. Reading `pc_history.begin()` of an empty history is
undefined behaviour. -/
def inst_execute (σ : Table) (pc : Nat) (time : Int) : Except Fault Table :=
  let last_pc : Nat :=
    if σ.pc_history.length > 0 then (σ.pc_history.getLast?.map Prod.snd).getD 0 else 0
  let recorded : Except Fault Table :=
    if StdMap.findIdx σ.insts pc ≠ σ.insts.length then
      let prev_time := (instsAt σ.insts pc).last_time
      .ok { insts := StdMap.insert pc { instsAt σ.insts pc with last_time := time } σ.insts
            pc_history := StdMap.insert time pc (StdMap.erase prev_time σ.pc_history) }
    else
      let evicted : Except Fault Table :=
        if σ.insts.length = MAX_HISTORY then
          match σ.pc_history with
          | [] => .error Fault.undefinedBehaviour
          | (_, oldest_pc) :: rest =>
            .ok { insts := StdMap.erase oldest_pc σ.insts, pc_history := rest }
        else .ok σ
      match evicted with
      | .error f => .error f
      | .ok σ1 =>
        let inst : inst_t :=
          { pc := pc, last_time := time, is_forward := 1, prev_addr := 0, stride := 0,
            state := RPT_STATE_INIT }
        .ok { insts := StdMap.insert pc inst σ1.insts
              pc_history := StdMap.insert time pc σ1.pc_history }
  match recorded with
  | .error f => .error f
  | .ok σ2 =>
    if last_pc ≠ 0 then
      .ok { σ2 with
            insts := StdMap.insert last_pc
              { instsAt σ2.insts last_pc with is_forward := if pc > last_pc then 1 else 0 }
              σ2.insts }
    else .ok σ2

/-- Runs a sequence of `inst_execute` calls `(pc, time)`. -/
def executeSeq (σ : Table) : List (Nat × Int) → Except Fault Table
  | [] => .ok σ
  | (pc, time) :: rest =>
    match inst_execute σ pc time with
    | .ok σ1 => executeSeq σ1 rest
    | .error f => .error f

/-- The key and value under which `pc_history` holds the entry of a PC. -/
def historyKey (p : Nat × inst_t) : Int × Nat := (p.2.last_time, p.1)

/-- The time-ordered index matches the table: both maps are in key order and `pc_history`
holds, for each entry of `insts`, its PC under its `last_time`, and nothing else. -/
def HistoryMatches (σ : Table) : Prop :=
  StdMap.Sorted σ.insts ∧ StdMap.Sorted σ.pc_history ∧
  σ.pc_history.Perm (σ.insts.map historyKey)

/-- Lines 121-163 of `mem_access`: the update of the entry `inst` refers to. -/
def rpt_update (inst : inst_t) (addr : Nat) : inst_t :=
  let correct : Bool := decide (wadd inst.prev_addr (toADDR inst.stride) = addr)
  let prev_addr := inst.prev_addr
  let inst1 := { inst with prev_addr := addr }
  if inst1.state = RPT_STATE_INIT then
    if correct then { inst1 with state := RPT_STATE_STEADY }
    else { inst1 with state := RPT_STATE_TRANSIENT, stride := toInt64 (wsub addr prev_addr) }
  else if inst1.state = RPT_STATE_TRANSIENT then
    if correct then { inst1 with state := RPT_STATE_STEADY }
    else { inst1 with state := RPT_STATE_NO_PRED, stride := toInt64 (wsub addr prev_addr) }
  else if inst1.state = RPT_STATE_NO_PRED then
    if correct then { inst1 with state := RPT_STATE_TRANSIENT }
    else { inst1 with state := RPT_STATE_TRANSIENT, stride := toInt64 (wsub addr prev_addr) }
  else if inst1.state = RPT_STATE_STEADY then
    if !correct then { inst1 with state := RPT_STATE_INIT } else inst1
  else inst1

/-- The function `mem_access`. -/
def mem_access (σ : Table) (pc addr : Nat) (_miss : Int) : Table :=
  { σ with insts := StdMap.insert pc (rpt_update (instsAt σ.insts pc) addr) σ.insts }

/-- Runs `mem_access(pc, addr, miss)` for each address of a list, in order. -/
def accessSeq (σ : Table) (pc : Nat) (miss : Int) (addrs : List Nat) : Table :=
  addrs.foldl (fun σ1 addr => mem_access σ1 pc addr miss) σ

/-- The first `n` addresses of the stream that starts at `a` and advances by `s` per access,
in 64-bit arithmetic: `a`, `a + s`, `a + 2 s`, ... -/
def stridedAddrs (a : Nat) (s : Int) (n : Nat) : List Nat :=
  (List.range n).map (fun (i : Nat) => toADDR ((a : Int) + (i : Int) * s))

/-- The function `stride_prefetch`: the new globals (`insts[pc]` creates a missing entry) and
the prefetch issued, if any. `in_cache` and `in_mshr_queue` are the queries of the
simulator. -/
def stride_prefetch (σ : Table) (in_cache in_mshr_queue : Nat → Bool) (pc : Nat) :
    Table × Option Nat :=
  let inst := instsAt σ.insts pc
  let σ1 : Table := { σ with insts := StdMap.insert pc inst σ.insts }
  if inst.is_forward = 0 then (σ1, none)
  else
    match σ1.insts[StdMap.findIdx σ1.insts pc + 1]? with
    | none => (σ1, none)
    | some (_, next_inst) =>
      if next_inst.state = RPT_STATE_STEADY then
        let pf_addr := wadd next_inst.prev_addr (toADDR next_inst.stride)
        if !in_cache pf_addr && !in_mshr_queue pf_addr then (σ1, some pf_addr)
        else (σ1, none)
      else (σ1, none)

/-- The entry `next` of key `k` is the one that follows `pc` in program-counter order: `k` is
the least key of the table above `pc`. -/
def IsNextEntry (insts : StdMap Nat inst_t) (pc k : Nat) (next : inst_t) : Prop :=
  (k, next) ∈ insts ∧ pc < k ∧ ∀ p ∈ insts, pc < p.1 → k ≤ p.1

/-- The function `prefetch_access`: the new globals and the prefetch issued, if any. -/
def prefetch_access (BLOCK_SIZE : Int) (in_cache in_mshr_queue : Nat → Bool) (σ : Table)
    (stat : AccessStat) : Except Fault (Table × Option Nat) :=
  let addr := blockMask (addrAdd stat.mem_addr BLOCK_SIZE) BLOCK_SIZE
  match inst_execute σ stat.pc stat.time with
  | .error f => .error f
  | .ok σ1 => .ok (stride_prefetch (mem_access σ1 stat.pc addr stat.miss) in_cache in_mshr_queue
      stat.pc)

end Baer91

/-! # Theorems -/

/-! ## The regression fixture and the split of an interval, evaluated -/

namespace GroupedHistory

/-- C1 (defect of the code): with block size 1, capacity 4 and the merge predicate "equal
payloads", the calls `Update(0,10,0)`, `Update(1,11,0)`, `Update(2,12,0)`, `Update(3,11,1)`
from the empty store succeed and leave the entries `[10,1]`, `[11,11]`, `[12,12]`: the first has
`FirstAddr > LastAddr` (line 111 stores `mBlockSize` in `LastAddr`), so the partition invariant
does not hold after the fourth call. -/
theorem Update_breaks_partition_invariant :
    ∃ h : GroupedHistory Int,
      UpdateSeq 0 testCanMerge (GroupedHistory.new 1 4)
        [(0, 10, 0), (1, 11, 0), (2, 12, 0), (3, 11, 1)] = .ok h ∧
      h.mEntryByAddr = [⟨10, 1, 2, 0⟩, ⟨11, 11, 3, 1⟩, ⟨12, 12, 2, 0⟩] ∧
      ¬ WellFormedIntervals h ∧ ¬ PartitionInvariant h := by
  refine ⟨{ mBlockSize := 1, mCapacity := 4, mEntryByTime := [(2, 10), (2, 12), (3, 11)],
            mEntryByAddr := [⟨10, 1, 2, 0⟩, ⟨11, 11, 3, 1⟩, ⟨12, 12, 2, 0⟩] }, rfl, rfl, ?_, ?_⟩
  · decide
  · decide

/-- C5 (defect of the code): the store of block size 4 holds the single interval `[100,140]`
with payload 7 and recency 5; the merge predicate "equal payloads" rejects payload 9.
`Update(6, 120, 9)` leaves `[100,4]`, `[120,120]` and `[124,140]`: the left part ends at
`mBlockSize = 4`, not at `addr - mBlockSize = 116`. -/
theorem Update_split_left_part_ends_at_blockSize :
    100 ≤ addrSub 120 4 ∧ addrAdd 120 4 ≤ 140 ∧
    Update 0 testCanMerge
      { mBlockSize := 4, mCapacity := 8, mEntryByTime := [(5, 100)],
        mEntryByAddr := [⟨100, 140, 5, 7⟩] } 6 120 9 =
    .ok { mBlockSize := 4, mCapacity := 8, mEntryByTime := [(5, 100), (5, 124), (6, 120)],
          mEntryByAddr := [⟨100, 4, 5, 7⟩, ⟨120, 120, 6, 9⟩, ⟨124, 140, 5, 7⟩] } := by
  refine ⟨by decide, by decide, rfl⟩

/-- C10: with block size 1, capacity 2 and the merge predicate of the test, the six calls of
`test_grouped_history.cc` succeed one after the other, and after each of them the store holds
at most 2 entries, in both indices, whose intervals are sorted by `FirstAddr`, well-formed and
pairwise disjoint. -/
theorem Update_regression_fixture :
    ∃ s1 s2 s3 s4 s5 s6 : GroupedHistory Int,
      Update 1 testCanMerge (GroupedHistory.new 1 2) 0 3 0 = .ok s1 ∧
      Update 1 testCanMerge s1 1 5 0 = .ok s2 ∧
      Update 1 testCanMerge s2 2 7 1 = .ok s3 ∧
      Update 1 testCanMerge s3 3 9 2 = .ok s4 ∧
      Update 1 testCanMerge s4 4 6 1 = .ok s5 ∧
      Update 1 testCanMerge s5 5 6 0 = .ok s6 ∧
      ∀ s ∈ [s1, s2, s3, s4, s5, s6],
        s.mEntryByAddr.length ≤ 2 ∧ s.mEntryByTime.length ≤ 2 ∧ PartitionInvariant s := by
  refine ⟨_, _, _, _, _, _, rfl, rfl, rfl, rfl, rfl, rfl, ?_⟩
  decide

end GroupedHistory

/-! ## The two indices stay consistent; the eviction loop terminates -/

namespace GroupedHistory

variable {T : Type}

theorem timeInsert_perm (p : Int × Nat) (l : List (Int × Nat)) :
    (timeInsert p l).Perm (p :: l) := by
  induction l with
  | nil => simp [timeInsert]
  | cons x xs ih =>
    unfold timeInsert
    split
    · exact List.Perm.refl _
    · exact (List.Perm.cons x ih).trans (List.Perm.swap p x xs)

theorem addrFind_le (l : List (GroupedHistoryEntry T)) (k : Nat) : addrFind l k ≤ l.length := by
  induction l with
  | nil => simp [addrFind]
  | cons x xs ih =>
    unfold addrFind
    split
    · simp
    · simp; omega

theorem addrFind_getElem? (l : List (GroupedHistoryEntry T)) (k : Nat)
    (e : GroupedHistoryEntry T) (h : l[addrFind l k]? = some e) : e.FirstAddr = k := by
  induction l with
  | nil => simp at h
  | cons x xs ih =>
    unfold addrFind at h
    split at h
    · simp at h; subst h; assumption
    · simp at h; exact ih h

theorem addrFind_eq_length (l : List (GroupedHistoryEntry T)) (k : Nat)
    (h : addrFind l k = l.length) : ∀ e ∈ l, e.FirstAddr ≠ k := by
  induction l with
  | nil => simp
  | cons x xs ih =>
    unfold addrFind at h
    split at h
    · simp at h
    · intro e he
      simp at h
      rcases List.mem_cons.1 he with rfl | he
      · assumption
      · exact ih h e he

theorem addrFind_lt_of_mem (l : List (GroupedHistoryEntry T)) (e : GroupedHistoryEntry T)
    (he : e ∈ l) : addrFind l e.FirstAddr < l.length := by
  rcases Nat.lt_or_ge (addrFind l e.FirstAddr) l.length with h | h
  · exact h
  · exact absurd rfl (addrFind_eq_length l _ (Nat.le_antisymm (addrFind_le l _) h) e he)

theorem addrInsert_perm (e : GroupedHistoryEntry T) (l : List (GroupedHistoryEntry T))
    (h : ∀ x ∈ l, x.FirstAddr ≠ e.FirstAddr) : (addrInsert e l).Perm (e :: l) := by
  induction l with
  | nil => simp [addrInsert]
  | cons x xs ih =>
    unfold addrInsert
    split
    · exact List.Perm.refl _
    · split
      · rename_i heq
        exact absurd heq.symm (h x (List.mem_cons_self _ _))
      · exact (List.Perm.cons x (ih (fun y hy => h y (List.mem_cons_of_mem _ hy)))).trans
          (List.Perm.swap e x xs)

theorem perm_cons_eraseIdx {α : Type} (l : List α) (i : Nat) (x : α) (h : l[i]? = some x) :
    l.Perm (x :: l.eraseIdx i) := by
  induction l generalizing i with
  | nil => simp at h
  | cons y ys ih =>
    cases i with
    | zero => simp at h; subst h; simp
    | succ n =>
      simp at h
      simp only [List.eraseIdx_cons_succ]
      exact (List.Perm.cons y (ih n h)).trans (List.Perm.swap x y _)

theorem addrModify_perm (f : GroupedHistoryEntry T → GroupedHistoryEntry T)
    (l : List (GroupedHistoryEntry T)) (k : Nat) (e : GroupedHistoryEntry T)
    (h : l[addrFind l k]? = some e) :
    (addrModify f l k).Perm (f e :: l.eraseIdx (addrFind l k)) := by
  induction l with
  | nil => simp at h
  | cons y ys ih =>
    unfold addrFind at h ⊢
    unfold addrModify
    split
    · rename_i hy
      simp only [hy, if_true] at h ⊢
      simp at h; subst h; simp
    · rename_i hy
      simp only [hy, if_false] at h ⊢
      simp at h
      simp only [List.eraseIdx_cons_succ]
      exact (List.Perm.cons y (ih h)).trans (List.Perm.swap (f e) y _)

theorem addrModify_map {β : Type} (f : GroupedHistoryEntry T → GroupedHistoryEntry T)
    (g : GroupedHistoryEntry T → β) (l : List (GroupedHistoryEntry T)) (k : Nat)
    (hg : ∀ e, g (f e) = g e) : (addrModify f l k).map g = l.map g := by
  induction l with
  | nil => simp [addrModify]
  | cons y ys ih =>
    unfold addrModify
    split
    · simp [hg]
    · simp [ih]

theorem timeFind_le (l : List (Int × Nat)) (p : Int × Nat) : timeFind l p ≤ l.length := by
  induction l with
  | nil => simp [timeFind]
  | cons x xs ih =>
    unfold timeFind
    split
    · simp
    · simp; omega

theorem timeFind_getElem? (l : List (Int × Nat)) (p : Int × Nat)
    (h : timeFind l p ≠ l.length) : l[timeFind l p]? = some p := by
  induction l with
  | nil => simp [timeFind] at h
  | cons x xs ih =>
    unfold timeFind at h ⊢
    split
    · rename_i hx; simp [hx]
    · rename_i hx
      simp [hx] at h
      simp [ih h]

theorem timeFind_ne_length_of_mem (l : List (Int × Nat)) (p : Int × Nat) (hp : p ∈ l) :
    timeFind l p ≠ l.length := by
  induction l with
  | nil => simp at hp
  | cons x xs ih =>
    unfold timeFind
    split
    · simp
    · rename_i hx
      rcases List.mem_cons.1 hp with rfl | hp
      · exact absurd rfl hx
      · simpa using ih hp

@[simp] theorem AddNewEntry_mCapacity (h : GroupedHistory T) (a b : Nat) (t : Int) (d : T) :
    (AddNewEntry h a b t d).mCapacity = h.mCapacity := by
  unfold AddNewEntry; split_ifs <;> rfl

@[simp] theorem UpdateLastAccess_mCapacity (h : GroupedHistory T) (a : Nat) (t : Int) :
    (UpdateLastAccess h a t).mCapacity = h.mCapacity := by
  unfold UpdateLastAccess; split
  · rfl
  · dsimp only; split_ifs <;> rfl

@[simp] theorem RemoveEntry_mCapacity (h : GroupedHistory T) (a : Nat) :
    (RemoveEntry h a).mCapacity = h.mCapacity := by
  unfold RemoveEntry; dsimp only; split
  · rfl
  · split_ifs <;> rfl

@[simp] theorem setLastAddr_mCapacity (h : GroupedHistory T) (k v : Nat) :
    (setLastAddr h k v).mCapacity = h.mCapacity := rfl

theorem Consistent_AddNewEntry (h : GroupedHistory T) (hc : Consistent h) (a b : Nat) (t : Int)
    (d : T) : Consistent (AddNewEntry h a b t d) := by
  unfold AddNewEntry
  split_ifs with h1 h2
  · exact hc
  · exact hc
  · have hfind : addrFind h.mEntryByAddr a = h.mEntryByAddr.length := by
      by_contra hne; exact h2 hne
    unfold Consistent at hc ⊢
    dsimp only
    have hp := addrInsert_perm (⟨a, b, t, d⟩ : GroupedHistoryEntry T) h.mEntryByAddr
      (addrFind_eq_length _ _ hfind)
    refine (timeInsert_perm _ _).trans ?_
    refine List.Perm.trans ?_ (hp.map timeKey).symm
    simpa [timeKey] using hc

theorem Consistent_setLastAddr (h : GroupedHistory T) (hc : Consistent h) (k v : Nat) :
    Consistent (setLastAddr h k v) := by
  unfold Consistent setLastAddr at *
  dsimp only
  have e := addrModify_map (fun e : GroupedHistoryEntry T => { e with LastAddr := v }) timeKey
    h.mEntryByAddr k (fun e => rfl)
  rw [e]
  exact hc

theorem Consistent_UpdateLastAccess (h : GroupedHistory T) (hc : Consistent h) (a : Nat)
    (t : Int) : Consistent (UpdateLastAccess h a t) := by
  unfold UpdateLastAccess
  split
  · exact hc
  · rename_i entry hentry
    dsimp only
    split_ifs with hti
    · exact hc
    · have hk : entry.FirstAddr = a := addrFind_getElem? _ _ _ hentry
      unfold Consistent at hc ⊢
      dsimp only
      unfold FindEntryByTimeIterator at hti ⊢
      have h1 := perm_cons_eraseIdx _ _ _ (timeFind_getElem? _ _ hti)
      have h2 := perm_cons_eraseIdx _ _ _ hentry
      have h3 : (h.mEntryByTime.eraseIdx
          (timeFind h.mEntryByTime (entry.LastAccess, entry.FirstAddr))).Perm
          ((h.mEntryByAddr.eraseIdx (addrFind h.mEntryByAddr a)).map timeKey) := by
        have := (h1.symm.trans hc).trans (h2.map timeKey)
        simpa [timeKey] using this
      rw [hk]
      have h4 := (addrModify_perm (fun e => { e with LastAccess := t }) _ _ _ hentry).map timeKey
      refine (timeInsert_perm _ _).trans ?_
      refine List.Perm.trans ?_ h4.symm
      simpa [timeKey, hk] using h3

theorem Consistent_RemoveEntry (h : GroupedHistory T) (hc : Consistent h) (a : Nat) :
    Consistent (RemoveEntry h a) := by
  unfold RemoveEntry
  dsimp only
  split
  · exact hc
  · rename_i entry hentry
    split_ifs with hti
    · exact hc
    · unfold Consistent at hc ⊢
      dsimp only
      unfold FindEntryByTimeIterator at hti ⊢
      have h1 := perm_cons_eraseIdx _ _ _ (timeFind_getElem? _ _ hti)
      have h2 := perm_cons_eraseIdx _ _ _ hentry
      have := (h1.symm.trans hc).trans (h2.map timeKey)
      simpa [timeKey] using this

theorem Consistent_UpdateSplit (CanMerge : GroupedHistoryEntry T → GroupedHistoryEntry T → Bool)
    (h : GroupedHistory T) (hc : Consistent h) (t : Int) (addr : Nat) (d : T) :
    Consistent (UpdateSplit CanMerge h t addr d) := by
  unfold UpdateSplit
  split
  · exact hc
  · dsimp only
    split_ifs <;>
      first
      | exact Consistent_UpdateLastAccess _ hc _ _
      | exact Consistent_setLastAddr _ (Consistent_AddNewEntry _ hc _ _ _ _) _ _
      | exact Consistent_RemoveEntry _ (Consistent_AddNewEntry _ hc _ _ _ _) _
      | exact Consistent_setLastAddr _ hc _ _
      | exact Consistent_RemoveEntry _ hc _

@[simp] theorem UpdateSplit_mCapacity
    (CanMerge : GroupedHistoryEntry T → GroupedHistoryEntry T → Bool)
    (h : GroupedHistory T) (t : Int) (addr : Nat) (d : T) :
    (UpdateSplit CanMerge h t addr d).mCapacity = h.mCapacity := by
  unfold UpdateSplit
  split
  · rfl
  · dsimp only
    split_ifs <;> simp

theorem Consistent_mergeAt (CanMerge : GroupedHistoryEntry T → GroupedHistoryEntry T → Bool)
    (h h1 : GroupedHistory T) (hc : Consistent h) (t : Int) (i j : Nat)
    (hm : mergeAt CanMerge h t i j = .ok h1) :
    Consistent h1 ∧ h1.mCapacity = h.mCapacity := by
  unfold mergeAt at hm
  split at hm
  · split_ifs at hm
    · cases hm
      exact ⟨Consistent_RemoveEntry _
        (Consistent_UpdateLastAccess _ (Consistent_setLastAddr _ hc _ _) _ _) _, by simp⟩
    · cases hm; exact ⟨hc, rfl⟩
  · cases hm

theorem Consistent_mergeWithPrevious
    (CanMerge : GroupedHistoryEntry T → GroupedHistoryEntry T → Bool)
    (h h1 : GroupedHistory T) (hc : Consistent h) (t : Int) (addr : Nat)
    (hu : mergeWithPrevious CanMerge h t addr = .ok h1) :
    Consistent h1 ∧ h1.mCapacity = h.mCapacity := by
  unfold mergeWithPrevious at hu
  dsimp only at hu
  split_ifs at hu
  · exact Consistent_mergeAt CanMerge _ _ hc _ _ _ hu
  · cases hu; exact ⟨hc, rfl⟩

theorem Consistent_mergeWithNext
    (CanMerge : GroupedHistoryEntry T → GroupedHistoryEntry T → Bool)
    (h h1 : GroupedHistory T) (hc : Consistent h) (t : Int) (addr : Nat)
    (hu : mergeWithNext CanMerge h t addr = .ok h1) :
    Consistent h1 ∧ h1.mCapacity = h.mCapacity := by
  unfold mergeWithNext at hu
  dsimp only at hu
  split_ifs at hu
  · exact Consistent_mergeAt CanMerge _ _ hc _ _ _ hu
  · cases hu; exact ⟨hc, rfl⟩

theorem Consistent_UpdateInsert (CanMerge : GroupedHistoryEntry T → GroupedHistoryEntry T → Bool)
    (h h1 : GroupedHistory T) (hc : Consistent h) (t : Int) (addr : Nat) (d : T)
    (hu : UpdateInsert CanMerge h t addr d = .ok h1) :
    Consistent h1 ∧ h1.mCapacity = h.mCapacity := by
  unfold UpdateInsert at hu
  split_ifs at hu with hfind
  · have hadd := Consistent_AddNewEntry h hc addr addr t d
    split at hu
    · cases hu
    · rename_i h2 hh2
      have h2c := Consistent_mergeWithPrevious CanMerge _ _ hadd _ _ hh2
      have h3c := Consistent_mergeWithNext CanMerge _ _ h2c.1 _ _ hu
      exact ⟨h3c.1, by rw [h3c.2, h2c.2]; simp⟩
  · cases hu; exact ⟨hc, rfl⟩

theorem Consistent_UpdateBody (CanMerge : GroupedHistoryEntry T → GroupedHistoryEntry T → Bool)
    (h h1 : GroupedHistory T) (hc : Consistent h) (t : Int) (addr : Nat) (d : T)
    (hu : UpdateBody CanMerge h t addr d = .ok h1) :
    Consistent h1 ∧ h1.mCapacity = h.mCapacity := by
  unfold UpdateBody at hu
  have := Consistent_UpdateInsert CanMerge _ _ (Consistent_UpdateSplit CanMerge h hc t addr d)
    _ _ _ hu
  exact ⟨this.1, by simpa using this.2⟩

theorem toADDR_le (x : Int) (hx : 0 ≤ x) : (toADDR x : Int) ≤ x := by
  unfold toADDR
  have h1 : (0 : Int) ≤ x % 2 ^ 64 := Int.emod_nonneg _ (by norm_num)
  rw [Int.toNat_of_nonneg h1]
  omega

theorem RemoveEntry_head_length (h : GroupedHistory T) (hc : Consistent h) (k : Int) (p : Nat)
    (rest : List (Int × Nat)) (hh : h.mEntryByTime = (k, p) :: rest) :
    (RemoveEntry h p).mEntryByTime.length = rest.length := by
  have hmem : (k, p) ∈ h.mEntryByAddr.map timeKey := by
    have : (k, p) ∈ h.mEntryByTime := by rw [hh]; exact List.mem_cons_self _ _
    exact (List.Perm.mem_iff hc).1 this
  obtain ⟨e, he, hek⟩ := List.mem_map.1 hmem
  have hep : e.FirstAddr = p := by
    have := congrArg Prod.snd hek
    simpa [timeKey] using this
  have hlt : addrFind h.mEntryByAddr p < h.mEntryByAddr.length := by
    rw [← hep]; exact addrFind_lt_of_mem _ _ he
  unfold RemoveEntry
  dsimp only
  split
  · rename_i hnone
    rw [List.getElem?_eq_none_iff] at hnone
    omega
  · rename_i entry hentry
    have hmem2 : timeKey entry ∈ h.mEntryByTime := by
      refine (List.Perm.mem_iff hc).2 (List.mem_map.2 ⟨entry, ?_, rfl⟩)
      exact List.getElem?_mem hentry
    have hti := timeFind_ne_length_of_mem _ _ hmem2
    unfold FindEntryByTimeIterator
    unfold timeKey at hti
    have hlt2 : timeFind h.mEntryByTime (entry.LastAccess, entry.FirstAddr) <
        h.mEntryByTime.length :=
      Nat.lt_of_le_of_ne (timeFind_le _ _) hti
    rw [if_neg hti]
    dsimp only
    rw [List.length_eraseIdx_of_lt hlt2, hh]
    simp

theorem evictLoop_terminates (n : Nat) :
    ∀ h : GroupedHistory T, Consistent h → h.mEntryByTime.length ≤ n + toADDR h.mCapacity →
      ∃ h1, evictLoop n h = .ok h1 ∧ Consistent h1 ∧ h1.mCapacity = h.mCapacity ∧
        h1.mEntryByTime.length ≤ toADDR h.mCapacity := by
  induction n with
  | zero =>
    intro h hc hlen
    refine ⟨h, ?_, hc, rfl, by omega⟩
    unfold evictLoop
    rw [if_neg (by omega)]
  | succ n ih =>
    intro h hc hlen
    unfold evictLoop
    split_ifs with hgt
    · dsimp only
      split
      · rename_i hnil
        rw [hnil] at hgt
        simp at hgt
      · rename_i k p rest hh
        have hl := RemoveEntry_head_length h hc k p rest hh
        have hlen2 : (RemoveEntry h p).mEntryByTime.length ≤
            n + toADDR (RemoveEntry h p).mCapacity := by
          rw [hl, RemoveEntry_mCapacity]
          rw [hh] at hlen
          simp at hlen
          omega
        obtain ⟨h1, e1, c1, m1, l1⟩ := ih _ (Consistent_RemoveEntry h hc p) hlen2
        exact ⟨h1, e1, c1, by rw [m1]; simp, by rw [RemoveEntry_mCapacity] at l1; exact l1⟩
    · exact ⟨h, rfl, hc, rfl, by omega⟩

theorem Consistent_evictLoop (n : Nat) :
    ∀ h h1 : GroupedHistory T, Consistent h → evictLoop n h = .ok h1 → Consistent h1 := by
  induction n with
  | zero =>
    intro h h1 hc he
    unfold evictLoop at he
    split_ifs at he
    cases he
    exact hc
  | succ n ih =>
    intro h h1 hc he
    unfold evictLoop at he
    split_ifs at he
    · dsimp only at he
      split at he
      · cases he
      · exact ih _ _ (Consistent_RemoveEntry h hc _) he
    · cases he; exact hc

theorem Consistent_Update (fuel : Nat)
    (CanMerge : GroupedHistoryEntry T → GroupedHistoryEntry T → Bool)
    (h h1 : GroupedHistory T) (hc : Consistent h) (t : Int) (addr : Nat) (d : T)
    (hu : Update fuel CanMerge h t addr d = .ok h1) : Consistent h1 := by
  unfold Update at hu
  split at hu
  · rename_i h2 hbody
    exact Consistent_evictLoop fuel _ _ (Consistent_UpdateBody CanMerge h h2 hc t addr d hbody).1 hu
  · cases hu

theorem Consistent_UpdateSeq (fuel : Nat)
    (CanMerge : GroupedHistoryEntry T → GroupedHistoryEntry T → Bool)
    (calls : List (Int × Nat × T)) :
    ∀ h h1 : GroupedHistory T, Consistent h → UpdateSeq fuel CanMerge h calls = .ok h1 →
      Consistent h1 := by
  induction calls with
  | nil =>
    intro h h1 hc hu
    unfold UpdateSeq at hu
    cases hu
    exact hc
  | cons c rest ih =>
    intro h h1 hc hu
    obtain ⟨t, a, d⟩ := c
    unfold UpdateSeq at hu
    split at hu
    · rename_i h2 hh2
      exact ih _ _ (Consistent_Update fuel CanMerge h h2 hc t a d hh2) hu
    · cases hu

/-- C2: on every store whose two indices hold the same entries (as they do in the empty store
and after every call) and whose capacity is not negative, whenever the part of `Update`
before the eviction loop completes, the eviction loop terminates (some amount of fuel makes
`Update` return a store), and the store returned holds at most `mCapacity` entries, in the
time index as in the address index, its indices again holding the same entries. -/
theorem Update_within_capacity (CanMerge : GroupedHistoryEntry T → GroupedHistoryEntry T → Bool)
    (h : GroupedHistory T) (hc : Consistent h) (hcap : 0 ≤ h.mCapacity)
    (accessTime : Int) (addr : Nat) (data : T) (h1 : GroupedHistory T)
    (hbody : UpdateBody CanMerge h accessTime addr data = .ok h1) :
    ∃ fuel h2, evictLoop fuel h1 = .ok h2 ∧
      Update fuel CanMerge h accessTime addr data = .ok h2 ∧
      (h2.mEntryByTime.length : Int) ≤ h.mCapacity ∧
      (h2.mEntryByAddr.length : Int) ≤ h.mCapacity ∧
      h2.mCapacity = h.mCapacity ∧ Consistent h2 := by
  obtain ⟨hc1, hm1⟩ := Consistent_UpdateBody CanMerge h h1 hc accessTime addr data hbody
  obtain ⟨h2, e2, c2, m2, l2⟩ :=
    evictLoop_terminates h1.mEntryByTime.length h1 hc1 (Nat.le_add_right _ _)
  have hle := toADDR_le h.mCapacity hcap
  rw [hm1] at l2 m2
  have hlen : h2.mEntryByAddr.length = h2.mEntryByTime.length := by
    have := List.Perm.length_eq c2
    simpa using this.symm
  refine ⟨h1.mEntryByTime.length, h2, e2, ?_, ?_, ?_, m2, c2⟩
  · unfold Update
    rw [hbody]
    exact e2
  · have : (h2.mEntryByTime.length : Int) ≤ (toADDR h.mCapacity : Int) := by exact_mod_cast l2
    omega
  · rw [hlen]
    have : (h2.mEntryByTime.length : Int) ≤ (toADDR h.mCapacity : Int) := by exact_mod_cast l2
    omega

/-- C2, at the fourth call of the regression fixture, where the loop evicts an entry. -/
theorem Update_within_capacity_witness :
    ∃ fuel h2,
      evictLoop fuel
        ({ mBlockSize := 1, mCapacity := 2, mEntryByTime := [(1, 3), (2, 7), (3, 9)],
           mEntryByAddr := [⟨3, 5, 1, 0⟩, ⟨7, 7, 2, 1⟩, ⟨9, 9, 3, 2⟩] } : GroupedHistory Int) =
        .ok h2 ∧
      Update fuel testCanMerge
        ({ mBlockSize := 1, mCapacity := 2, mEntryByTime := [(1, 3), (2, 7)],
           mEntryByAddr := [⟨3, 5, 1, 0⟩, ⟨7, 7, 2, 1⟩] } : GroupedHistory Int) 3 9 2 = .ok h2 ∧
      (h2.mEntryByTime.length : Int) ≤ 2 ∧ (h2.mEntryByAddr.length : Int) ≤ 2 ∧
      h2.mCapacity = 2 ∧ Consistent h2 :=
  Update_within_capacity testCanMerge
    { mBlockSize := 1, mCapacity := 2, mEntryByTime := [(1, 3), (2, 7)],
      mEntryByAddr := [⟨3, 5, 1, 0⟩, ⟨7, 7, 2, 1⟩] } (by decide) (by decide) 3 9 2 _ rfl

end GroupedHistory

/-! ## The reference prediction table -/

namespace StdMap

variable {K V : Type} [LT K] [DecidableRel (fun a b : K => a < b)] [DecidableEq K]

theorem lookup_insert_self (m : StdMap K V) (k : K) (v : V) :
    lookup (insert k v m) k = some v := by
  induction m with
  | nil => simp [insert, lookup]
  | cons x xs ih =>
    unfold insert
    split_ifs with h1 h2
    · simp [lookup]
    · simp [lookup]
    · have : x.1 ≠ k := fun h => h2 h.symm
      simp [lookup, this, ih]

theorem lookup_insert_of_ne (m : StdMap K V) (k k1 : K) (v : V) (hne : k1 ≠ k) :
    lookup (insert k v m) k1 = lookup m k1 := by
  induction m with
  | nil => simp [insert, lookup, hne.symm]
  | cons x xs ih =>
    unfold insert
    split_ifs with h1 h2
    · simp [lookup, hne.symm]
    · have : x.1 ≠ k1 := fun h => hne (h ▸ h2).symm
      simp [lookup, hne.symm, this]
    · simp [lookup, ih]

end StdMap

namespace Baer91

/-- C3: `mem_access(pc, address, miss)` leaves every other entry of the table alone and, in the
entry of `pc` (value-initialised when the table had none), sets `prev_addr` to `address` and
moves `state` and `stride` as the four-state table says, `correct` being
`old prev_addr + old stride == address` in 64-bit arithmetic: INIT goes to STEADY if correct
else TRANSIENT, TRANSIENT to STEADY if correct else NO_PRED, NO_PRED to TRANSIENT in both
cases, STEADY stays if correct else goes to INIT; `stride` becomes `address - old prev_addr`
exactly in the incorrect cases of INIT, TRANSIENT and NO_PRED; `pc`, `last_time` and
`is_forward` are unchanged. -/
theorem mem_access_follows_table (σ : Table) (pc addr : Nat) (miss : Int) :
    (∀ pc1, pc1 ≠ pc →
      StdMap.lookup (mem_access σ pc addr miss).insts pc1 = StdMap.lookup σ.insts pc1) ∧
    (mem_access σ pc addr miss).pc_history = σ.pc_history ∧
    ∃ inst, StdMap.lookup (mem_access σ pc addr miss).insts pc = some inst ∧
      inst.prev_addr = addr ∧
      inst.pc = (instsAt σ.insts pc).pc ∧
      inst.last_time = (instsAt σ.insts pc).last_time ∧
      inst.is_forward = (instsAt σ.insts pc).is_forward ∧
      ((instsAt σ.insts pc).state = RPT_STATE_INIT →
        inst.state = (if wadd (instsAt σ.insts pc).prev_addr (toADDR (instsAt σ.insts pc).stride)
          = addr then RPT_STATE_STEADY else RPT_STATE_TRANSIENT) ∧
        inst.stride = (if wadd (instsAt σ.insts pc).prev_addr (toADDR (instsAt σ.insts pc).stride)
          = addr then (instsAt σ.insts pc).stride
          else toInt64 (wsub addr (instsAt σ.insts pc).prev_addr))) ∧
      ((instsAt σ.insts pc).state = RPT_STATE_TRANSIENT →
        inst.state = (if wadd (instsAt σ.insts pc).prev_addr (toADDR (instsAt σ.insts pc).stride)
          = addr then RPT_STATE_STEADY else RPT_STATE_NO_PRED) ∧
        inst.stride = (if wadd (instsAt σ.insts pc).prev_addr (toADDR (instsAt σ.insts pc).stride)
          = addr then (instsAt σ.insts pc).stride
          else toInt64 (wsub addr (instsAt σ.insts pc).prev_addr))) ∧
      ((instsAt σ.insts pc).state = RPT_STATE_NO_PRED →
        inst.state = RPT_STATE_TRANSIENT ∧
        inst.stride = (if wadd (instsAt σ.insts pc).prev_addr (toADDR (instsAt σ.insts pc).stride)
          = addr then (instsAt σ.insts pc).stride
          else toInt64 (wsub addr (instsAt σ.insts pc).prev_addr))) ∧
      ((instsAt σ.insts pc).state = RPT_STATE_STEADY →
        inst.state = (if wadd (instsAt σ.insts pc).prev_addr (toADDR (instsAt σ.insts pc).stride)
          = addr then RPT_STATE_STEADY else RPT_STATE_INIT) ∧
        inst.stride = (instsAt σ.insts pc).stride) := by
  refine ⟨fun pc1 hne => ?_, rfl, rpt_update (instsAt σ.insts pc) addr, ?_, ?_⟩
  · exact StdMap.lookup_insert_of_ne _ _ _ _ hne
  · exact StdMap.lookup_insert_self _ _ _
  · generalize instsAt σ.insts pc = old
    unfold rpt_update
    simp only [RPT_STATE_INIT, RPT_STATE_TRANSIENT, RPT_STATE_STEADY, RPT_STATE_NO_PRED]
    by_cases hc : wadd old.prev_addr (toADDR old.stride) = addr
    · refine ⟨?_, ?_, ?_, ?_, ?_, ?_, ?_, ?_⟩ <;>
        (try intro hs) <;> simp_all <;> split_ifs <;> simp_all
    · refine ⟨?_, ?_, ?_, ?_, ?_, ?_, ?_, ?_⟩ <;>
        (try intro hs) <;> simp_all <;> split_ifs <;> simp_all

end Baer91

/-! ## The Markov miss graph -/

namespace Joseph97

theorem push_next_miss_bounded (l : List Nat) (a : Nat) (hl : l.length ≤ MAX_FANOUT)
    (hn : l.Nodup) :
    (push_next_miss l a).length ≤ MAX_FANOUT ∧ (push_next_miss l a).Nodup := by
  unfold push_next_miss
  dsimp only
  have he : ∃ e : List Nat, (if a ∈ l then l.erase a else l) = e ∧ e.length ≤ MAX_FANOUT ∧
      e.Nodup ∧ a ∉ e := by
    split_ifs with hmem
    · refine ⟨_, rfl, ?_, hn.erase a, ?_⟩
      · exact le_trans (List.length_erase_le a l) hl
      · exact fun h => (List.Nodup.mem_erase_iff hn).1 h |>.1 rfl
    · exact ⟨_, rfl, hl, hn, hmem⟩
  obtain ⟨e, heq, hel, hen, hea⟩ := he
  rw [heq]
  have hp : ∃ p : List Nat, (if e.length = MAX_FANOUT then e.tail else e) = p ∧
      p.length + 1 ≤ MAX_FANOUT ∧ p.Nodup ∧ a ∉ p := by
    split_ifs with hfull
    · refine ⟨_, rfl, ?_, hen.sublist (List.tail_sublist e), ?_⟩
      · rw [List.length_tail, hfull]; decide
      · exact fun h => hea (List.mem_of_mem_tail h)
    · exact ⟨_, rfl, by omega, hen, hea⟩
  obtain ⟨p, hpeq, hpl, hpn, hpa⟩ := hp
  rw [hpeq]
  refine ⟨by simpa using hpl, ?_⟩
  rw [List.nodup_append]
  refine ⟨hpn, List.nodup_singleton a, ?_⟩
  intro x hx hx1
  simp at hx1
  subst hx1
  exact hpa hx

theorem node_t.zero_bounded : node_t.zero.Bounded := by
  simp [node_t.Bounded, node_t.zero]

theorem nodesAt_bounded (nodes : Nat → Option node_t) (h : FanoutInvariant nodes) (k : Nat) :
    (nodesAt nodes k).Bounded := by
  unfold nodesAt
  cases hk : nodes k with
  | none => exact node_t.zero_bounded
  | some n => exact h k n hk

theorem FanoutInvariant_nodesSet (nodes : Nat → Option node_t) (h : FanoutInvariant nodes)
    (k : Nat) (v : node_t) (hv : v.Bounded) : FanoutInvariant (nodesSet nodes k v) := by
  intro a n hn
  unfold nodesSet at hn
  split_ifs at hn
  · cases hn; exact hv
  · exact h a n hn

theorem FanoutInvariant_nodesErase (nodes : Nat → Option node_t) (h : FanoutInvariant nodes)
    (k : Nat) : FanoutInvariant (nodesErase nodes k) := by
  intro a n hn
  unfold nodesErase at hn
  split_ifs at hn
  exact h a n hn

theorem FanoutInvariant_model_add_miss (m : Model) (h : FanoutInvariant m.nodes) (addr : Nat) :
    FanoutInvariant (model_add_miss m addr).nodes := by
  unfold model_add_miss
  dsimp only
  have h1 : FanoutInvariant
      (if m.miss_history.length = MAX_NODE then
        ({ miss_history := m.miss_history.tail
           nodes := if (nodesAt m.nodes (m.miss_history.head?.getD 0)).count - 1 = 0 then
               nodesErase m.nodes (m.miss_history.head?.getD 0)
             else nodesSet m.nodes (m.miss_history.head?.getD 0)
               { nodesAt m.nodes (m.miss_history.head?.getD 0) with
                 count := (nodesAt m.nodes (m.miss_history.head?.getD 0)).count - 1 } } : Model)
      else m).nodes := by
    split_ifs
    · exact FanoutInvariant_nodesErase _ h _
    · exact FanoutInvariant_nodesSet _ h _ _ (nodesAt_bounded _ h _)
    · exact h
  generalize (if m.miss_history.length = MAX_NODE then _ else m : Model) = m1 at h1 ⊢
  have h2 : FanoutInvariant
      (match m1.nodes addr with
       | none => nodesSet m1.nodes addr { addr := addr, count := 1, next_misses := [] }
       | some node => nodesSet m1.nodes addr { node with count := node.count + 1 }) := by
    split
    · exact FanoutInvariant_nodesSet _ h1 _ _ (by simp [node_t.Bounded])
    · rename_i node hnode
      exact FanoutInvariant_nodesSet _ h1 _ _ (h1 addr node hnode)
  generalize (match m1.nodes addr with
       | none => nodesSet m1.nodes addr { addr := addr, count := 1, next_misses := [] }
       | some node => nodesSet m1.nodes addr { node with count := node.count + 1 }) = nodes2
    at h2 ⊢
  generalize (if m.miss_history.length > 0 then m.miss_history.getLast?.getD 0 else 0) = last
  split_ifs
  · refine FanoutInvariant_nodesSet _ h2 _ _ ?_
    have hb := nodesAt_bounded nodes2 h2 last
    exact push_next_miss_bounded _ addr hb.1 hb.2
  · exact h2

theorem FanoutInvariant_feed (misses : List Nat) :
    ∀ m : Model, FanoutInvariant m.nodes → FanoutInvariant (feed m misses).nodes := by
  induction misses with
  | nil => intro m h; exact h
  | cons a rest ih =>
    intro m h
    exact ih _ (FanoutInvariant_model_add_miss m h a)

/-- C4: after every stream of miss addresses fed to `model_add_miss` from the empty model,
every node's `next_misses` has at most `MAX_FANOUT = 4` elements and holds no address
twice. -/
theorem fanout_bounded (misses : List Nat) (a : Nat) (n : node_t)
    (hn : (feed Model.empty misses).nodes a = some n) :
    n.next_misses.length ≤ 4 ∧ n.next_misses.Nodup :=
  FanoutInvariant_feed misses Model.empty (fun _ _ h => by simp [Model.empty] at h) a n hn

/-- C4, at the node of 128 after the misses 64, 128, 192, 128, 256. -/
theorem fanout_bounded_witness :
    (feed Model.empty [64, 128, 192, 128, 256]).nodes 128 =
      some { addr := 128, count := 2, next_misses := [192, 256] } ∧
    ([192, 256] : List Nat).length ≤ 4 ∧ ([192, 256] : List Nat).Nodup :=
  ⟨rfl, fanout_bounded [64, 128, 192, 128, 256] 128
    { addr := 128, count := 2, next_misses := [192, 256] } rfl⟩

end Joseph97

namespace Joseph97

/-- C9 (as stated, refuted): after the misses 64, 128, 192, 128, 256 (A, B, C, B, D) the node
of A = 64 has the single successor B = 128, so the prediction for A is B, not D = 256. -/
theorem prediction_for_A_is_not_D :
    (feed Model.empty [64, 128, 192, 128, 256]).nodes 64 =
      some { addr := 64, count := 1, next_misses := [128] } ∧
    model_prefetch (feed Model.empty [64, 128, 192, 128, 256]) (fun _ => false) (fun _ => false)
      64 = some 128 ∧
    model_prefetch (feed Model.empty [64, 128, 192, 128, 256]) (fun _ => false) (fun _ => false)
      64 ≠ some 256 := by
  refine ⟨rfl, rfl, ?_⟩
  decide

/-- C9 (amended): for pairwise distinct miss addresses A, B, C, D with A and B not zero, after
the misses A, B, C, B, D fed to the empty model the successors of B are C then D, so the
prediction for B is D; the only successor of A is B, so the prediction for A is B. -/
theorem prediction_after_ABCBD (A B C D : Nat) (hA : A ≠ 0) (hB : B ≠ 0)
    (hAB : A ≠ B) (hAC : A ≠ C) (hAD : A ≠ D) (hBC : B ≠ C) (hBD : B ≠ D) (hCD : C ≠ D) :
    (feed Model.empty [A, B, C, B, D]).nodes B =
      some { addr := B, count := 2, next_misses := [C, D] } ∧
    (feed Model.empty [A, B, C, B, D]).nodes A =
      some { addr := A, count := 1, next_misses := [B] } ∧
    model_prefetch (feed Model.empty [A, B, C, B, D]) (fun _ => false) (fun _ => false) B =
      some D ∧
    model_prefetch (feed Model.empty [A, B, C, B, D]) (fun _ => false) (fun _ => false) A =
      some B := by
  have hBA : B ≠ A := fun h => hAB h.symm
  have hCA : C ≠ A := fun h => hAC h.symm
  have hDA : D ≠ A := fun h => hAD h.symm
  have hCB : C ≠ B := fun h => hBC h.symm
  have hDB : D ≠ B := fun h => hBD h.symm
  have hDC : D ≠ C := fun h => hCD h.symm
  have hA0 : (0 : Nat) ≠ A := fun h => hA h.symm
  have hB0 : (0 : Nat) ≠ B := fun h => hB h.symm
  have e1 : (feed Model.empty [A, B, C, B, D]).nodes B =
      some { addr := B, count := 2, next_misses := [C, D] } := by
    by_cases hC : C = 0
    · subst hC
      simp [feed, model_add_miss, nodesSet, nodesAt, push_next_miss, MAX_NODE, MAX_FANOUT,
        Model.empty, *]
    · have hC0 : (0 : Nat) ≠ C := fun h => hC h.symm
      simp [feed, model_add_miss, nodesSet, nodesAt, push_next_miss, MAX_NODE, MAX_FANOUT,
        Model.empty, *]
  have e2 : (feed Model.empty [A, B, C, B, D]).nodes A =
      some { addr := A, count := 1, next_misses := [B] } := by
    by_cases hC : C = 0
    · subst hC
      simp [feed, model_add_miss, nodesSet, nodesAt, push_next_miss, MAX_NODE, MAX_FANOUT,
        Model.empty, *]
    · have hC0 : (0 : Nat) ≠ C := fun h => hC h.symm
      simp [feed, model_add_miss, nodesSet, nodesAt, push_next_miss, MAX_NODE, MAX_FANOUT,
        Model.empty, *]
  refine ⟨e1, e2, ?_, ?_⟩
  · unfold model_prefetch
    rw [e1]
    simp
  · unfold model_prefetch
    rw [e2]
    simp

/-- C9 (amended), at A = 64, B = 128, C = 192, D = 256. -/
theorem prediction_after_ABCBD_witness :
    (feed Model.empty [64, 128, 192, 128, 256]).nodes 128 =
      some { addr := 128, count := 2, next_misses := [192, 256] } ∧
    (feed Model.empty [64, 128, 192, 128, 256]).nodes 64 =
      some { addr := 64, count := 1, next_misses := [128] } ∧
    model_prefetch (feed Model.empty [64, 128, 192, 128, 256]) (fun _ => false) (fun _ => false)
      128 = some 256 ∧
    model_prefetch (feed Model.empty [64, 128, 192, 128, 256]) (fun _ => false) (fun _ => false)
      64 = some 128 :=
  prediction_after_ABCBD 64 128 192 256 (by decide) (by decide) (by decide) (by decide)
    (by decide) (by decide) (by decide) (by decide)

end Joseph97

/-! ## Lookup in the interval store -/

namespace GroupedHistory

variable {T : Type}

theorem FindEntryByAddr_cases (h : GroupedHistory T) (addr : Nat) :
    FindEntryByAddr h addr = h.mEntryByAddr.length ∨
    ∃ e, h.mEntryByAddr[FindEntryByAddr h addr]? = some e ∧ e.FirstAddr ≤ addr ∧
      addr ≤ e.LastAddr := by
  unfold FindEntryByAddr
  dsimp only
  split_ifs with h1
  · split
    · rename_i e he
      split_ifs with h2
      · exact Or.inr ⟨e, he, h2.1, h2.2⟩
      · exact Or.inl rfl
    · exact Or.inl rfl
  · exact Or.inl rfl

theorem addrUpperBound_eq_zero (l : List (GroupedHistoryEntry T)) (addr : Nat)
    (h : ∀ y ∈ l, addr < y.FirstAddr) : addrUpperBound l addr = 0 := by
  cases l with
  | nil => rfl
  | cons y ys =>
    unfold addrUpperBound
    rw [if_pos (h y (List.mem_cons_self _ _))]

theorem addrUpperBound_hit (l : List (GroupedHistoryEntry T)) (addr : Nat)
    (e : GroupedHistoryEntry T)
    (hs : l.Pairwise (fun a b => a.FirstAddr < b.FirstAddr))
    (hd : l.Pairwise (fun a b => a.LastAddr < b.FirstAddr))
    (he : e ∈ l) (h1 : e.FirstAddr ≤ addr) (h2 : addr ≤ e.LastAddr) :
    addrUpperBound l addr ≠ 0 ∧ l[addrUpperBound l addr - 1]? = some e := by
  induction l with
  | nil => simp at he
  | cons x xs ih =>
    rw [List.pairwise_cons] at hs hd
    unfold addrUpperBound
    rcases List.mem_cons.1 he with rfl | hmem
    · rw [if_neg (by omega)]
      have hz : addrUpperBound xs addr = 0 :=
        addrUpperBound_eq_zero xs addr (fun y hy => lt_of_le_of_lt h2 (hd.1 y hy))
      simp [hz]
    · have hx : x.FirstAddr < e.FirstAddr := hs.1 e hmem
      rw [if_neg (by omega)]
      obtain ⟨hne, hget⟩ := ih hs.2 hd.2 hmem
      refine ⟨by omega, ?_⟩
      obtain ⟨n, hn⟩ := Nat.exists_eq_succ_of_ne_zero hne
      rw [hn] at hget ⊢
      simpa using hget

/-- C6: `Get(addr)` returns an entry only if the entry is stored and satisfies
`FirstAddr ≤ addr ≤ LastAddr`; and on every store whose intervals are sorted, well-formed and
pairwise disjoint, `Get(addr)` returns the entry that contains `addr` whenever there is one,
and `NULL` when there is none. -/
theorem Get_returns_covering_entry (h : GroupedHistory T) (addr : Nat) :
    (∀ e, Get h addr = some e →
      e ∈ h.mEntryByAddr ∧ e.FirstAddr ≤ addr ∧ addr ≤ e.LastAddr) ∧
    (PartitionInvariant h →
      (∀ e ∈ h.mEntryByAddr, e.FirstAddr ≤ addr → addr ≤ e.LastAddr → Get h addr = some e) ∧
      ((∀ e ∈ h.mEntryByAddr, ¬ (e.FirstAddr ≤ addr ∧ addr ≤ e.LastAddr)) →
        Get h addr = none)) := by
  have sound : ∀ e, Get h addr = some e →
      e ∈ h.mEntryByAddr ∧ e.FirstAddr ≤ addr ∧ addr ≤ e.LastAddr := by
    intro e hget
    unfold Get at hget
    dsimp only at hget
    split_ifs at hget with hne
    rcases FindEntryByAddr_cases h addr with hc | ⟨e1, he1, hf, hl⟩
    · exact absurd hc hne
    · rw [he1] at hget
      cases hget
      exact ⟨List.getElem?_mem he1, hf, hl⟩
  refine ⟨sound, fun hinv => ⟨?_, ?_⟩⟩
  · intro e he h1 h2
    obtain ⟨hne, hget⟩ := addrUpperBound_hit h.mEntryByAddr addr e hinv.1 hinv.2.2 he h1 h2
    have hlt : addrUpperBound h.mEntryByAddr addr - 1 < h.mEntryByAddr.length := by
      by_contra hge
      rw [List.getElem?_eq_none (by omega)] at hget
      cases hget
    have hfind : FindEntryByAddr h addr = addrUpperBound h.mEntryByAddr addr - 1 := by
      unfold FindEntryByAddr
      dsimp only
      rw [if_pos ⟨by omega, hne⟩, hget]
      dsimp only
      rw [if_pos ⟨h1, h2⟩]
    unfold Get
    dsimp only
    rw [hfind, if_pos (by omega), hget]
  · intro hnone
    cases hg : Get h addr with
    | none => rfl
    | some e =>
      obtain ⟨hm, hf, hl⟩ := sound e hg
      exact absurd ⟨hf, hl⟩ (hnone e hm)

end GroupedHistory

/-! ## The prediction of the delta-correlation prefetcher -/

namespace DeltaCorrelation

/-- C7 (as stated, refuted): with `BLOCK_SIZE = 64` and `MAX_PHYS_MEM_ADDR = 2^28 - 1`, the
misses at 64, at 0 and at 64 again leave an entry for address 64 with payload -64. At the third
miss `Get(64)` returns it and `64 + (-64) = 0` lies in `[0, MAX_PHYS_MEM_ADDR]`, yet the
prefetch issued is for `64 + BLOCK_SIZE = 128`, not for `0`. -/
theorem prefetch_target_zero_sum_falls_back :
    ∃ σ1 σ2 σ3 : State, ∃ i1 i2 : Option Nat,
      prefetch_access 64 268435455 (fun _ => false) 0 (prefetch_init 64) ⟨0, 64, 1, 1⟩ =
        .ok (σ1, i1) ∧
      prefetch_access 64 268435455 (fun _ => false) 0 σ1 ⟨0, 0, 2, 1⟩ = .ok (σ2, i2) ∧
      prefetch_access 64 268435455 (fun _ => false) 0 σ2 ⟨0, 64, 3, 1⟩ = .ok (σ3, some 128) ∧
      σ3.history.Get 64 = some ⟨64, 64, 2, -64⟩ ∧
      (0 : Int) ≤ 64 + (-64) ∧ (64 : Int) + (-64) ≤ 268435455 ∧
      prefetch_target 64 268435455 σ3.history 64 = 128 ∧
      addrAdd 64 (-64) = 0 := by
  refine ⟨_, _, _, _, _, rfl, rfl, rfl, ?_, ?_, ?_, ?_, ?_⟩
  · rfl
  · decide
  · decide
  · rfl
  · rfl

theorem addrAdd_eq_of_range (addr : Nat) (d : Int) (MAX : Nat) (hmax : MAX < 2 ^ 64)
    (h1 : 1 ≤ (addr : Int) + d) (h2 : (addr : Int) + d ≤ MAX) :
    ((addrAdd addr d : Nat) : Int) = addr + d := by
  unfold addrAdd wadd toADDR
  have hm : (2 : Int) ^ 64 = 18446744073709551616 := by norm_num
  have hn : (2 : Nat) ^ 64 = 18446744073709551616 := by norm_num
  rw [hm, hn]
  rw [hn] at hmax
  omega

/-- C7 (amended): at every miss, at block address `addr`, for which `prefetch_access` returns,
the prefetch issued is for the target `pf_addr`, unless `pf_addr` is in the cache (then none
is issued). With `Get` read on the history after the update: if `Get(addr)` returns an entry
and `addr + entry.Data`, computed on 64 bits, lies in `[1, MAX_PHYS_MEM_ADDR]`, the target is
`addr + entry.Data`; in every other case (no entry, the sum 0, or the sum above
`MAX_PHYS_MEM_ADDR`) the target is `addr + BLOCK_SIZE`. When the integer `addr + entry.Data`
itself lies in `[1, MAX_PHYS_MEM_ADDR]` the target is that integer. -/
theorem prefetch_access_target (BLOCK_SIZE : Int) (MAX_PHYS_MEM_ADDR : Nat)
    (in_cache : Nat → Bool) (fuel : Nat) (σ σ1 : State) (stat : AccessStat)
    (issued : Option Nat) (hmiss : stat.miss ≠ 0)
    (hrun : prefetch_access BLOCK_SIZE MAX_PHYS_MEM_ADDR in_cache fuel σ stat =
      .ok (σ1, issued)) :
    (issued =
      if in_cache (prefetch_target BLOCK_SIZE MAX_PHYS_MEM_ADDR σ1.history
          (blockMask stat.mem_addr BLOCK_SIZE)) then none
      else some (prefetch_target BLOCK_SIZE MAX_PHYS_MEM_ADDR σ1.history
          (blockMask stat.mem_addr BLOCK_SIZE))) ∧
    (∀ e, σ1.history.Get (blockMask stat.mem_addr BLOCK_SIZE) = some e →
      1 ≤ addrAdd (blockMask stat.mem_addr BLOCK_SIZE) e.Data →
      addrAdd (blockMask stat.mem_addr BLOCK_SIZE) e.Data ≤ MAX_PHYS_MEM_ADDR →
      prefetch_target BLOCK_SIZE MAX_PHYS_MEM_ADDR σ1.history
          (blockMask stat.mem_addr BLOCK_SIZE) =
        addrAdd (blockMask stat.mem_addr BLOCK_SIZE) e.Data) ∧
    (∀ e, σ1.history.Get (blockMask stat.mem_addr BLOCK_SIZE) = some e →
      (addrAdd (blockMask stat.mem_addr BLOCK_SIZE) e.Data = 0 ∨
        MAX_PHYS_MEM_ADDR < addrAdd (blockMask stat.mem_addr BLOCK_SIZE) e.Data) →
      prefetch_target BLOCK_SIZE MAX_PHYS_MEM_ADDR σ1.history
          (blockMask stat.mem_addr BLOCK_SIZE) =
        addrAdd (blockMask stat.mem_addr BLOCK_SIZE) BLOCK_SIZE) ∧
    (σ1.history.Get (blockMask stat.mem_addr BLOCK_SIZE) = none →
      prefetch_target BLOCK_SIZE MAX_PHYS_MEM_ADDR σ1.history
          (blockMask stat.mem_addr BLOCK_SIZE) =
        addrAdd (blockMask stat.mem_addr BLOCK_SIZE) BLOCK_SIZE) ∧
    (∀ e, σ1.history.Get (blockMask stat.mem_addr BLOCK_SIZE) = some e →
      MAX_PHYS_MEM_ADDR < 2 ^ 64 →
      1 ≤ ((blockMask stat.mem_addr BLOCK_SIZE : Nat) : Int) + e.Data →
      ((blockMask stat.mem_addr BLOCK_SIZE : Nat) : Int) + e.Data ≤ MAX_PHYS_MEM_ADDR →
      ((prefetch_target BLOCK_SIZE MAX_PHYS_MEM_ADDR σ1.history
          (blockMask stat.mem_addr BLOCK_SIZE) : Nat) : Int) =
        ((blockMask stat.mem_addr BLOCK_SIZE : Nat) : Int) + e.Data) := by
  generalize hA : blockMask stat.mem_addr BLOCK_SIZE = addr at *
  have key : ∀ e, σ1.history.Get addr = some e →
      1 ≤ addrAdd addr e.Data → addrAdd addr e.Data ≤ MAX_PHYS_MEM_ADDR →
      prefetch_target BLOCK_SIZE MAX_PHYS_MEM_ADDR σ1.history addr = addrAdd addr e.Data := by
    intro e he h1 h2
    unfold prefetch_target
    rw [he]
    dsimp only
    rw [if_pos ⟨by omega, h2⟩]
  refine ⟨?_, key, ?_, ?_, ?_⟩
  · unfold prefetch_access at hrun
    rw [hA] at hrun
    dsimp only at hrun
    rw [if_pos hmiss] at hrun
    split at hrun
    · cases hrun
    · cases hrun
      dsimp only
      cases in_cache (prefetch_target BLOCK_SIZE MAX_PHYS_MEM_ADDR _ addr) <;> simp
  · intro e he hor
    unfold prefetch_target
    rw [he]
    dsimp only
    rw [if_neg (by omega)]
  · intro hnone
    unfold prefetch_target
    rw [hnone]
  · intro e he hmax h1 h2
    have hcast := addrAdd_eq_of_range addr e.Data MAX_PHYS_MEM_ADDR hmax h1 h2
    have h3 : 1 ≤ addrAdd addr e.Data := by omega
    have h4 : addrAdd addr e.Data ≤ MAX_PHYS_MEM_ADDR := by omega
    rw [key e he h3 h4, hcast]

/-- C7 (amended), at a miss at 64 after the misses at 64 and at 256: the entry of 64 has payload
192 and the prefetch issued is for 256. -/
theorem prefetch_access_target_witness :
    (some 256 =
      if (fun _ : Nat => false) (prefetch_target 64 268435455
          ({ mBlockSize := 64, mCapacity := 2048, mEntryByTime := [(2, 64), (3, 256)],
             mEntryByAddr := [⟨64, 64, 2, 192⟩, ⟨256, 256, 3, -192⟩] } : GroupedHistory Int)
          (blockMask 64 64)) then none
      else some (prefetch_target 64 268435455
          ({ mBlockSize := 64, mCapacity := 2048, mEntryByTime := [(2, 64), (3, 256)],
             mEntryByAddr := [⟨64, 64, 2, 192⟩, ⟨256, 256, 3, -192⟩] } : GroupedHistory Int)
          (blockMask 64 64))) ∧
    prefetch_target 64 268435455
      ({ mBlockSize := 64, mCapacity := 2048, mEntryByTime := [(2, 64), (3, 256)],
         mEntryByAddr := [⟨64, 64, 2, 192⟩, ⟨256, 256, 3, -192⟩] } : GroupedHistory Int)
      (blockMask 64 64) = 256 :=
  ⟨(prefetch_access_target 64 268435455 (fun _ => false) 0
      { history := { mBlockSize := 64, mCapacity := 2048, mEntryByTime := [(2, 64)],
                     mEntryByAddr := [⟨64, 64, 2, 192⟩] }, prev_addr := 256 }
      { history := { mBlockSize := 64, mCapacity := 2048, mEntryByTime := [(2, 64), (3, 256)],
                     mEntryByAddr := [⟨64, 64, 2, 192⟩, ⟨256, 256, 3, -192⟩] }, prev_addr := 64 }
      ⟨0, 64, 3, 1⟩ (some 256) (by decide) rfl).1, rfl⟩

end DeltaCorrelation

/-! ## The prediction of the stride prefetcher -/

namespace Baer91

theorem next_after_insert (m : StdMap Nat inst_t) (hs : StdMap.Sorted m) (pc : Nat)
    (v : inst_t) :
    (StdMap.insert pc v m)[StdMap.findIdx (StdMap.insert pc v m) pc + 1]? =
      m.find? (fun p => decide (pc < p.1)) := by
  induction m with
  | nil => simp [StdMap.insert, StdMap.findIdx]
  | cons x xs ih =>
    unfold StdMap.Sorted at hs
    rw [List.pairwise_cons] at hs
    unfold StdMap.insert
    split_ifs with h1 h2
    · simp [StdMap.findIdx, h1]
    · have hall : ∀ y ∈ xs, pc < y.1 := fun y hy => h2 ▸ hs.1 y hy
      have hx : ¬ pc < x.1 := by omega
      simp only [StdMap.findIdx, if_true, List.find?_cons, hx, decide_False]
      cases xs with
      | nil => simp
      | cons y ys => simp [hall y (List.mem_cons_self _ _)]
    · have hx : x.1 ≠ pc := fun h => h2 h.symm
      have hlt : ¬ pc < x.1 := h1
      simp only [StdMap.findIdx, hx, if_false, List.find?_cons, hlt, decide_False]
      simpa using ih hs.2

theorem find_next_iff (m : StdMap Nat inst_t) (hs : StdMap.Sorted m) (pc k : Nat)
    (next : inst_t) :
    m.find? (fun p => decide (pc < p.1)) = some (k, next) ↔ IsNextEntry m pc k next := by
  induction m with
  | nil => simp [IsNextEntry]
  | cons x xs ih =>
    unfold StdMap.Sorted at hs
    rw [List.pairwise_cons] at hs
    by_cases hx : pc < x.1
    · simp only [List.find?_cons, hx, decide_True]
      constructor
      · intro h
        cases h
        refine ⟨List.mem_cons_self _ _, hx, ?_⟩
        intro p hp _
        rcases List.mem_cons.1 hp with rfl | hp
        · exact le_refl _
        · exact le_of_lt (hs.1 p hp)
      · rintro ⟨hmem, _, hmin⟩
        rcases List.mem_cons.1 hmem with heq | hmem
        · rw [heq]
        · have h1 := hs.1 _ hmem
          have h2 := hmin x (List.mem_cons_self _ _) hx
          simp at h1 h2
          omega
    · simp only [List.find?_cons, hx, decide_False]
      rw [ih hs.2]
      unfold IsNextEntry
      constructor
      · rintro ⟨hmem, hlt, hmin⟩
        refine ⟨List.mem_cons_of_mem _ hmem, hlt, ?_⟩
        intro p hp hpc
        rcases List.mem_cons.1 hp with rfl | hp
        · exact absurd hpc hx
        · exact hmin p hp hpc
      · rintro ⟨hmem, hlt, hmin⟩
        rcases List.mem_cons.1 hmem with heq | hmem
        · rw [← heq] at hx
          exact absurd hlt hx
        · exact ⟨hmem, hlt, fun p hp hpc => hmin p (List.mem_cons_of_mem _ hp) hpc⟩

/-- C8 (as stated, refuted): the table holds the entry of PC 5 with `is_forward` set and after
it the entry of PC 7, in state STEADY with `prev_addr = 400`, `stride = 100` and `is_forward`
clear. `stride_prefetch(5)` issues a prefetch for 500 although the hint of the following entry
is false: the hint tested is the one of PC 5 itself. -/
theorem stride_prefetch_tests_own_hint :
    stride_prefetch
      { insts := [(5, ⟨5, 1, 1, 0, 0, RPT_STATE_INIT⟩), (7, ⟨7, 0, 0, 400, 100, RPT_STATE_STEADY⟩)],
        pc_history := [(0, 7), (1, 5)] }
      (fun _ => false) (fun _ => false) 5 =
    ({ insts := [(5, ⟨5, 1, 1, 0, 0, RPT_STATE_INIT⟩), (7, ⟨7, 0, 0, 400, 100, RPT_STATE_STEADY⟩)],
       pc_history := [(0, 7), (1, 5)] }, some 500) ∧
    IsNextEntry [(5, ⟨5, 1, 1, 0, 0, RPT_STATE_INIT⟩), (7, ⟨7, 0, 0, 400, 100, RPT_STATE_STEADY⟩)]
      5 7 ⟨7, 0, 0, 400, 100, RPT_STATE_STEADY⟩ ∧
    (⟨7, 0, 0, 400, 100, RPT_STATE_STEADY⟩ : inst_t).is_forward = 0 := by
  refine ⟨rfl, ⟨by simp, by decide, ?_⟩, rfl⟩
  intro p hp hlt
  simp at hp
  rcases hp with rfl | rfl
  · simp at hlt
  · simp

/-- C8 (amended): on a table in key order, `stride_prefetch(pc)` issues a prefetch for `target`
exactly when the entry of `pc` itself (value-initialised when the table has none) has its
`is_forward` hint set, an entry immediately follows `pc` in program-counter order, that entry
is in state STEADY, `target` is its `prev_addr + stride`, and `target` is neither in the cache
nor in the MSHR queue; in every other case it issues nothing. -/
theorem stride_prefetch_issues_iff (σ : Table) (hs : StdMap.Sorted σ.insts)
    (in_cache in_mshr_queue : Nat → Bool) (pc target : Nat) :
    (stride_prefetch σ in_cache in_mshr_queue pc).2 = some target ↔
      (instsAt σ.insts pc).is_forward ≠ 0 ∧
      ∃ k next, IsNextEntry σ.insts pc k next ∧ next.state = RPT_STATE_STEADY ∧
        target = wadd next.prev_addr (toADDR next.stride) ∧
        in_cache target = false ∧ in_mshr_queue target = false := by
  unfold stride_prefetch
  dsimp only
  by_cases hf : (instsAt σ.insts pc).is_forward = 0
  · rw [if_pos hf]
    simp [hf]
  · rw [if_neg hf, next_after_insert σ.insts hs pc]
    cases hfind : σ.insts.find? (fun p => decide (pc < p.1)) with
    | none =>
      dsimp only
      constructor
      · intro h; cases h
      · rintro ⟨_, k, next, hnext, _⟩
        rw [← find_next_iff σ.insts hs] at hnext
        rw [hfind] at hnext
        cases hnext
    | some kn =>
      obtain ⟨k0, next0⟩ := kn
      have hnext0 := (find_next_iff σ.insts hs pc k0 next0).1 hfind
      dsimp only
      constructor
      · intro h
        refine ⟨hf, k0, next0, hnext0, ?_⟩
        split_ifs at h with h1 h2
        · cases h
          simp at h2
          exact ⟨h1, rfl, h2.1, h2.2⟩
      · rintro ⟨_, k, next, hnext, hst, ht, hc, hq⟩
        rw [← find_next_iff σ.insts hs] at hnext
        rw [hfind] at hnext
        cases hnext
        rw [if_pos hst]
        subst ht
        simp [hc, hq]

/-- C8 (amended), at the table of PC 5 and PC 7. -/
theorem stride_prefetch_issues_iff_witness :
    (stride_prefetch
      { insts := [(5, ⟨5, 1, 1, 0, 0, RPT_STATE_INIT⟩), (7, ⟨7, 0, 0, 400, 100, RPT_STATE_STEADY⟩)],
        pc_history := [(0, 7), (1, 5)] }
      (fun _ => false) (fun _ => false) 5).2 = some 500 ↔
      (instsAt [(5, ⟨5, 1, 1, 0, 0, RPT_STATE_INIT⟩), (7, ⟨7, 0, 0, 400, 100, RPT_STATE_STEADY⟩)]
        5).is_forward ≠ 0 ∧
      ∃ k next,
        IsNextEntry
          [(5, ⟨5, 1, 1, 0, 0, RPT_STATE_INIT⟩), (7, ⟨7, 0, 0, 400, 100, RPT_STATE_STEADY⟩)]
          5 k next ∧
        next.state = RPT_STATE_STEADY ∧
        500 = wadd next.prev_addr (toADDR next.stride) ∧
        (fun _ : Nat => false) 500 = false ∧ (fun _ : Nat => false) 500 = false :=
  stride_prefetch_issues_iff
    { insts := [(5, ⟨5, 1, 1, 0, 0, RPT_STATE_INIT⟩), (7, ⟨7, 0, 0, 400, 100, RPT_STATE_STEADY⟩)],
      pc_history := [(0, 7), (1, 5)] }
    (by decide) (fun _ => false) (fun _ => false) 5 500

end Baer91

/-! ## The forward hint and the stride scenario -/

namespace Baer91

/-- C13 (as stated, refuted): the table has recorded one fetch, of PC 0. After
`inst_execute(0, 1)` the entry of the previous PC, 0, still has `is_forward = 1`, although the
new PC, 0, is not greater than the previous PC: a previous PC of 0 is taken for "no previous
PC" and its hint is left alone. -/
theorem forward_hint_of_pc_zero_is_kept :
    ∃ σ0 σ1 : Table,
      inst_execute Table.empty 0 0 = .ok σ0 ∧
      σ0.pc_history.getLast? = some (0, 0) ∧
      inst_execute σ0 0 1 = .ok σ1 ∧
      StdMap.lookup σ1.insts 0 = some ⟨0, 1, 1, 0, 0, RPT_STATE_INIT⟩ ∧
      (⟨0, 1, 1, 0, 0, RPT_STATE_INIT⟩ : inst_t).is_forward ≠ 0 ∧ ¬ ((0 : Nat) < 0) := by
  refine ⟨_, _, rfl, rfl, rfl, rfl, ?_, ?_⟩
  · decide
  · decide

/-- C13 (amended): for every call `inst_execute(pc, time)` on a table whose history is not
empty and whose previously fetched PC (the PC stored under the latest timestamp) is not 0,
the call returns, and afterwards the entry of that previous PC has `is_forward` set if and
only if `pc` is numerically greater than the previous PC. -/
theorem inst_execute_sets_forward_hint (σ : Table) (pc : Nat) (time : Int) (t_last : Int)
    (last_pc : Nat) (hlast : σ.pc_history.getLast? = some (t_last, last_pc))
    (hne : last_pc ≠ 0) :
    ∃ σ1 inst, inst_execute σ pc time = .ok σ1 ∧
      StdMap.lookup σ1.insts last_pc = some inst ∧
      (inst.is_forward ≠ 0 ↔ last_pc < pc) := by
  have hlen : σ.pc_history.length > 0 := by
    cases hh : σ.pc_history with
    | nil => rw [hh] at hlast; simp at hlast
    | cons x xs => simp
  have hrec : ∃ σ2 : Table,
      (if StdMap.findIdx σ.insts pc ≠ σ.insts.length then
        (.ok { insts := StdMap.insert pc { instsAt σ.insts pc with last_time := time } σ.insts
               pc_history := StdMap.insert time pc
                 (StdMap.erase (instsAt σ.insts pc).last_time σ.pc_history) } :
          Except Fault Table)
      else
        match (if σ.insts.length = MAX_HISTORY then
            match σ.pc_history with
            | [] => .error Fault.undefinedBehaviour
            | (_, oldest_pc) :: rest =>
              .ok { insts := StdMap.erase oldest_pc σ.insts, pc_history := rest }
          else .ok σ : Except Fault Table) with
        | .error f => .error f
        | .ok σ1 =>
          .ok { insts := StdMap.insert pc
                  { pc := pc, last_time := time, is_forward := 1, prev_addr := 0, stride := 0,
                    state := RPT_STATE_INIT } σ1.insts
                pc_history := StdMap.insert time pc σ1.pc_history }) = .ok σ2 := by
    split_ifs with h1 h2
    · exact ⟨_, rfl⟩
    · cases hh : σ.pc_history with
      | nil => rw [hh] at hlen; simp at hlen
      | cons x xs => exact ⟨_, rfl⟩
    · exact ⟨_, rfl⟩
  obtain ⟨σ2, h2⟩ := hrec
  unfold inst_execute
  dsimp only
  rw [h2]
  dsimp only
  rw [if_pos hlen, hlast]
  simp only [Option.map_some', Option.getD_some]
  rw [if_pos hne]
  refine ⟨_, _, rfl, StdMap.lookup_insert_self _ _ _, ?_⟩
  dsimp only
  split_ifs with hgt
  · simp; exact hgt
  · simp; omega

/-- C13 (amended), at the table that recorded PC 7 at time 0, for the fetch of PC 5. -/
theorem inst_execute_sets_forward_hint_witness :
    ∃ σ1 inst,
      inst_execute { insts := [(7, ⟨7, 0, 1, 400, 100, RPT_STATE_STEADY⟩)],
                     pc_history := [(0, 7)] } 5 1 = .ok σ1 ∧
      StdMap.lookup σ1.insts 7 = some inst ∧ (inst.is_forward ≠ 0 ↔ 7 < 5) :=
  inst_execute_sets_forward_hint
    { insts := [(7, ⟨7, 0, 1, 400, 100, RPT_STATE_STEADY⟩)], pc_history := [(0, 7)] }
    5 1 0 7 rfl (by decide)

/-- C14: a fresh entry is created for PC 7 (state INIT, `prev_addr` 0, `stride` 0); the calls
`mem_access` for PC 7 with the addresses 100, 200, 300, 400 find it in the states INIT,
TRANSIENT, STEADY, STEADY and leave it STEADY with `prev_addr = 400` and `stride = 100`. PC 5
is then fetched, so that it precedes PC 7 in the table with its forward hint set, and
`stride_prefetch(5)` issues a prefetch for 500 whenever 500 is neither in the cache nor in the
MSHR queue (and nothing otherwise). -/
theorem stride_scenario (in_cache in_mshr_queue : Nat → Bool) :
    ∃ σ0 σ5 : Table,
      inst_execute Table.empty 7 0 = .ok σ0 ∧
      StdMap.lookup σ0.insts 7 = some ⟨7, 0, 1, 0, 0, RPT_STATE_INIT⟩ ∧
      (instsAt (mem_access σ0 7 100 1).insts 7).state = RPT_STATE_TRANSIENT ∧
      (instsAt (mem_access (mem_access σ0 7 100 1) 7 200 1).insts 7).state = RPT_STATE_STEADY ∧
      (instsAt (mem_access (mem_access (mem_access σ0 7 100 1) 7 200 1) 7 300 1).insts 7).state
        = RPT_STATE_STEADY ∧
      StdMap.lookup
        (mem_access (mem_access (mem_access (mem_access σ0 7 100 1) 7 200 1) 7 300 1) 7 400
          1).insts 7 = some ⟨7, 0, 1, 400, 100, RPT_STATE_STEADY⟩ ∧
      inst_execute
        (mem_access (mem_access (mem_access (mem_access σ0 7 100 1) 7 200 1) 7 300 1) 7 400 1)
        5 1 = .ok σ5 ∧
      (instsAt σ5.insts 5).is_forward = 1 ∧
      IsNextEntry σ5.insts 5 7 ⟨7, 0, 0, 400, 100, RPT_STATE_STEADY⟩ ∧
      (stride_prefetch σ5 in_cache in_mshr_queue 5).2 =
        if !in_cache 500 && !in_mshr_queue 500 then some 500 else none := by
  refine ⟨{ insts := [(7, ⟨7, 0, 1, 0, 0, RPT_STATE_INIT⟩)], pc_history := [(0, 7)] },
    { insts := [(5, ⟨5, 1, 1, 0, 0, RPT_STATE_INIT⟩), (7, ⟨7, 0, 0, 400, 100, RPT_STATE_STEADY⟩)],
      pc_history := [(0, 7), (1, 5)] },
    rfl, rfl, rfl, rfl, rfl, rfl, rfl, rfl, ?_, ?_⟩
  · refine ⟨by simp, by decide, ?_⟩
    intro p hp hlt
    simp at hp
    rcases hp with rfl | rfl
    · simp at hlt
    · simp
  · simp [stride_prefetch, instsAt, StdMap.lookup, StdMap.insert, StdMap.findIdx,
      RPT_STATE_STEADY, wadd, toADDR]
    cases in_cache 500 <;> cases in_mshr_queue 500 <;> simp

end Baer91

/-! ## Consequences of the defect of the split -/

namespace GroupedHistory

/-- C15 (defect of the code): with the delta-correlation predicate, block size 64 and capacity
2048, the calls `Update(1,0,5)`, `Update(2,64,5)` leave the single entry `[0,64]` with payload
5; `Update(3,64,7)`, whose timestamp is greater than every stored one, leaves the store as it
was, and `Get(64)` returns the entry with payload 5, not 7 (line 111 stores `mBlockSize = 64`
in `LastAddr`, so the left part of the split still covers 64). With block-aligned addresses
above 0, the calls `Update(1,128,5)`, `(2,192,5)`, `(3,256,5)`, `(4,320,5)`, `(5,256,7)` leave
the entry `[128,64]`, and `Update(6,128,9)` then increments `end()`. -/
theorem Update_keeps_old_delta :
    (∃ h2 h3 : GroupedHistory Int,
      UpdateSeq 0 (DeltaCorrelation.CanMerge 64) (GroupedHistory.new 64 2048)
        [(1, 0, 5), (2, 64, 5)] = .ok h2 ∧
      h2.mEntryByAddr = [⟨0, 64, 2, 5⟩] ∧
      Update 0 (DeltaCorrelation.CanMerge 64) h2 3 64 7 = .ok h3 ∧
      h3.Get 64 = some ⟨0, 64, 2, 5⟩) ∧
    (∃ h5 : GroupedHistory Int,
      UpdateSeq 0 (DeltaCorrelation.CanMerge 64) (GroupedHistory.new 64 2048)
        [(1, 128, 5), (2, 192, 5), (3, 256, 5), (4, 320, 5), (5, 256, 7)] = .ok h5 ∧
      h5.mEntryByAddr = [⟨128, 64, 4, 5⟩, ⟨256, 256, 5, 7⟩, ⟨320, 320, 4, 5⟩] ∧
      ∀ fuel, Update fuel (DeltaCorrelation.CanMerge 64) h5 6 128 9 =
        .error Fault.undefinedBehaviour) := by
  refine ⟨⟨_, _, rfl, rfl, rfl, rfl⟩, ⟨_, rfl, rfl, ?_⟩⟩
  intro fuel
  rfl

/-- C16 (defect of the code): with block size 1, capacity 4 and the predicate "equal payloads",
the calls `Update(0,10,0)`, `Update(1,11,0)`, `Update(2,12,0)`, `Update(3,11,1)` leave the entry
`[10,1]`. In `Update(4,10,5)` no entry covers 10, so `AddNewEntry(10,10,4,5)` is called; the
key 10 is in the address index, and the call takes its "Duplicate entry" branch: it returns
without adding anything. -/
theorem AddNewEntry_duplicate_reached :
    ∃ h : GroupedHistory Int,
      UpdateSeq 0 testCanMerge (GroupedHistory.new 1 4)
        [(0, 10, 0), (1, 11, 0), (2, 12, 0), (3, 11, 1)] = .ok h ∧
      UpdateSplit testCanMerge h 4 10 5 = h ∧
      FindEntryByAddr h 10 = h.mEntryByAddr.length ∧
      ¬ (10 > 10) ∧
      addrFind h.mEntryByAddr 10 ≠ h.mEntryByAddr.length ∧
      AddNewEntry h 10 10 4 5 = h := by
  refine ⟨_, rfl, rfl, rfl, ?_, ?_, rfl⟩
  · decide
  · decide

end GroupedHistory

/-! ## The representation invariant of the interval store -/

namespace GroupedHistory

variable {T : Type}

theorem timeInsert_sorted (p : Int × Nat) (l : List (Int × Nat))
    (hl : l.Pairwise (fun a b => a.1 ≤ b.1)) :
    (timeInsert p l).Pairwise (fun a b => a.1 ≤ b.1) := by
  induction l with
  | nil => simp [timeInsert]
  | cons x xs ih =>
    rw [List.pairwise_cons] at hl
    unfold timeInsert
    split
    · rename_i hlt
      rw [List.pairwise_cons]
      refine ⟨?_, List.pairwise_cons.2 hl⟩
      intro y hy
      rcases List.mem_cons.1 hy with rfl | hy
      · exact le_of_lt hlt
      · exact le_trans (le_of_lt hlt) (hl.1 y hy)
    · rename_i hge
      rw [List.pairwise_cons]
      refine ⟨?_, ih hl.2⟩
      intro y hy
      rcases List.mem_cons.1 ((timeInsert_perm p xs).mem_iff.1 hy) with rfl | hy
      · exact not_lt.1 hge
      · exact hl.1 y hy

theorem addrInsert_mem (e y : GroupedHistoryEntry T) (l : List (GroupedHistoryEntry T))
    (hy : y ∈ addrInsert e l) : y = e ∨ y ∈ l := by
  induction l with
  | nil => simpa [addrInsert] using hy
  | cons x xs ih =>
    unfold addrInsert at hy
    split_ifs at hy
    · rcases List.mem_cons.1 hy with rfl | hy
      · exact Or.inl rfl
      · exact Or.inr hy
    · rcases List.mem_cons.1 hy with rfl | hy
      · exact Or.inl rfl
      · exact Or.inr (List.mem_cons_of_mem _ hy)
    · rcases List.mem_cons.1 hy with rfl | hy
      · exact Or.inr (List.mem_cons_self _ _)
      · rcases ih hy with rfl | hy
        · exact Or.inl rfl
        · exact Or.inr (List.mem_cons_of_mem _ hy)

theorem addrInsert_sorted (e : GroupedHistoryEntry T) (l : List (GroupedHistoryEntry T))
    (hl : l.Pairwise (fun a b => a.FirstAddr < b.FirstAddr)) :
    (addrInsert e l).Pairwise (fun a b => a.FirstAddr < b.FirstAddr) := by
  induction l with
  | nil => simp [addrInsert]
  | cons x xs ih =>
    rw [List.pairwise_cons] at hl
    unfold addrInsert
    split_ifs with h1 h2
    · rw [List.pairwise_cons]
      refine ⟨?_, List.pairwise_cons.2 hl⟩
      intro y hy
      rcases List.mem_cons.1 hy with rfl | hy
      · exact h1
      · exact lt_trans h1 (hl.1 y hy)
    · rw [List.pairwise_cons]
      exact ⟨fun y hy => h2 ▸ hl.1 y hy, hl.2⟩
    · rw [List.pairwise_cons]
      refine ⟨?_, ih hl.2⟩
      intro y hy
      rcases addrInsert_mem e y xs hy with rfl | hy
      · omega
      · exact hl.1 y hy

theorem addrModify_sorted (f : GroupedHistoryEntry T → GroupedHistoryEntry T)
    (hf : ∀ e, (f e).FirstAddr = e.FirstAddr) (l : List (GroupedHistoryEntry T)) (k : Nat)
    (hl : l.Pairwise (fun a b => a.FirstAddr < b.FirstAddr)) :
    (addrModify f l k).Pairwise (fun a b => a.FirstAddr < b.FirstAddr) := by
  have hmap := addrModify_map f (fun e => e.FirstAddr) l k hf
  have h1 : (l.map (fun e => e.FirstAddr)).Pairwise (fun a b => a < b) :=
    List.pairwise_map.2 hl
  rw [← hmap] at h1
  exact List.pairwise_map.1 h1

/-- The two order conditions of the representation invariant. -/
theorem IndexSorted_AddNewEntry (h : GroupedHistory T)
    (hs : SortedByFirstAddr h ∧ TimeSorted h) (a b : Nat) (t : Int) (d : T) :
    SortedByFirstAddr (AddNewEntry h a b t d) ∧ TimeSorted (AddNewEntry h a b t d) := by
  unfold AddNewEntry
  split_ifs
  · exact hs
  · exact hs
  · exact ⟨addrInsert_sorted _ _ hs.1, timeInsert_sorted _ _ hs.2⟩

theorem IndexSorted_setLastAddr (h : GroupedHistory T)
    (hs : SortedByFirstAddr h ∧ TimeSorted h) (k v : Nat) :
    SortedByFirstAddr (setLastAddr h k v) ∧ TimeSorted (setLastAddr h k v) :=
  ⟨addrModify_sorted (fun e => { e with LastAddr := v }) (fun _ => rfl) h.mEntryByAddr k hs.1,
    hs.2⟩

theorem IndexSorted_UpdateLastAccess (h : GroupedHistory T)
    (hs : SortedByFirstAddr h ∧ TimeSorted h) (a : Nat) (t : Int) :
    SortedByFirstAddr (UpdateLastAccess h a t) ∧ TimeSorted (UpdateLastAccess h a t) := by
  unfold UpdateLastAccess
  split
  · exact hs
  · dsimp only
    split_ifs
    · exact hs
    · exact ⟨addrModify_sorted (fun e => { e with LastAccess := t }) (fun _ => rfl) _ _ hs.1,
        timeInsert_sorted _ _ (List.Pairwise.eraseIdx _ hs.2)⟩

theorem IndexSorted_RemoveEntry (h : GroupedHistory T)
    (hs : SortedByFirstAddr h ∧ TimeSorted h) (a : Nat) :
    SortedByFirstAddr (RemoveEntry h a) ∧ TimeSorted (RemoveEntry h a) := by
  unfold RemoveEntry
  dsimp only
  split
  · exact hs
  · split_ifs
    · exact hs
    · exact ⟨List.Pairwise.eraseIdx _ hs.1, List.Pairwise.eraseIdx _ hs.2⟩

theorem StoreInvariant_new (blockSize capacity : Int) :
    StoreInvariant (GroupedHistory.new blockSize capacity : GroupedHistory T) := by
  simp [StoreInvariant, Consistent, SortedByFirstAddr, TimeSorted, GroupedHistory.new]

theorem StoreInvariant_AddNewEntry (h : GroupedHistory T) (hi : StoreInvariant h) (a b : Nat)
    (t : Int) (d : T) : StoreInvariant (AddNewEntry h a b t d) :=
  ⟨Consistent_AddNewEntry h hi.1 a b t d, IndexSorted_AddNewEntry h hi.2 a b t d⟩

theorem StoreInvariant_setLastAddr (h : GroupedHistory T) (hi : StoreInvariant h) (k v : Nat) :
    StoreInvariant (setLastAddr h k v) :=
  ⟨Consistent_setLastAddr h hi.1 k v, IndexSorted_setLastAddr h hi.2 k v⟩

theorem StoreInvariant_UpdateLastAccess (h : GroupedHistory T) (hi : StoreInvariant h) (a : Nat)
    (t : Int) : StoreInvariant (UpdateLastAccess h a t) :=
  ⟨Consistent_UpdateLastAccess h hi.1 a t, IndexSorted_UpdateLastAccess h hi.2 a t⟩

theorem StoreInvariant_RemoveEntry (h : GroupedHistory T) (hi : StoreInvariant h) (a : Nat) :
    StoreInvariant (RemoveEntry h a) :=
  ⟨Consistent_RemoveEntry h hi.1 a, IndexSorted_RemoveEntry h hi.2 a⟩

theorem StoreInvariant_UpdateSplit
    (CanMerge : GroupedHistoryEntry T → GroupedHistoryEntry T → Bool)
    (h : GroupedHistory T) (hi : StoreInvariant h) (t : Int) (addr : Nat) (d : T) :
    StoreInvariant (UpdateSplit CanMerge h t addr d) := by
  unfold UpdateSplit
  split
  · exact hi
  · dsimp only
    split_ifs <;>
      first
      | exact StoreInvariant_UpdateLastAccess _ hi _ _
      | exact StoreInvariant_setLastAddr _ (StoreInvariant_AddNewEntry _ hi _ _ _ _) _ _
      | exact StoreInvariant_RemoveEntry _ (StoreInvariant_AddNewEntry _ hi _ _ _ _) _
      | exact StoreInvariant_setLastAddr _ hi _ _
      | exact StoreInvariant_RemoveEntry _ hi _

theorem StoreInvariant_mergeAt
    (CanMerge : GroupedHistoryEntry T → GroupedHistoryEntry T → Bool)
    (h h1 : GroupedHistory T) (hi : StoreInvariant h) (t : Int) (i j : Nat)
    (hm : mergeAt CanMerge h t i j = .ok h1) : StoreInvariant h1 := by
  unfold mergeAt at hm
  split at hm
  · split_ifs at hm
    · cases hm
      exact StoreInvariant_RemoveEntry _
        (StoreInvariant_UpdateLastAccess _ (StoreInvariant_setLastAddr _ hi _ _) _ _) _
    · cases hm; exact hi
  · cases hm

theorem StoreInvariant_UpdateBody
    (CanMerge : GroupedHistoryEntry T → GroupedHistoryEntry T → Bool)
    (h h1 : GroupedHistory T) (hi : StoreInvariant h) (t : Int) (addr : Nat) (d : T)
    (hu : UpdateBody CanMerge h t addr d = .ok h1) : StoreInvariant h1 := by
  unfold UpdateBody UpdateInsert at hu
  have h0 := StoreInvariant_UpdateSplit CanMerge h hi t addr d
  split_ifs at hu with hfind
  · have hadd := StoreInvariant_AddNewEntry _ h0 addr addr t d
    split at hu
    · cases hu
    · rename_i h2 hh2
      have h2i : StoreInvariant h2 := by
        unfold mergeWithPrevious at hh2
        dsimp only at hh2
        split_ifs at hh2
        · exact StoreInvariant_mergeAt CanMerge _ _ hadd _ _ _ hh2
        · cases hh2; exact hadd
      unfold mergeWithNext at hu
      dsimp only at hu
      split_ifs at hu
      · exact StoreInvariant_mergeAt CanMerge _ _ h2i _ _ _ hu
      · cases hu; exact h2i
  · cases hu; exact h0

theorem StoreInvariant_evictLoop (n : Nat) :
    ∀ h h1 : GroupedHistory T, StoreInvariant h → evictLoop n h = .ok h1 →
      StoreInvariant h1 := by
  induction n with
  | zero =>
    intro h h1 hi he
    unfold evictLoop at he
    split_ifs at he
    cases he
    exact hi
  | succ n ih =>
    intro h h1 hi he
    unfold evictLoop at he
    split_ifs at he
    · dsimp only at he
      split at he
      · cases he
      · exact ih _ _ (StoreInvariant_RemoveEntry h hi _) he
    · cases he; exact hi

theorem StoreInvariant_Update (fuel : Nat)
    (CanMerge : GroupedHistoryEntry T → GroupedHistoryEntry T → Bool)
    (h h1 : GroupedHistory T) (hi : StoreInvariant h) (t : Int) (addr : Nat) (d : T)
    (hu : Update fuel CanMerge h t addr d = .ok h1) : StoreInvariant h1 := by
  unfold Update at hu
  split at hu
  · rename_i h2 hbody
    exact StoreInvariant_evictLoop fuel _ _ (StoreInvariant_UpdateBody CanMerge h h2 hi t addr d hbody) hu
  · cases hu

theorem eq_of_FirstAddr_eq (l : List (GroupedHistoryEntry T))
    (hl : l.Pairwise (fun a b => a.FirstAddr < b.FirstAddr)) (e1 e2 : GroupedHistoryEntry T)
    (h1 : e1 ∈ l) (h2 : e2 ∈ l) (heq : e1.FirstAddr = e2.FirstAddr) : e1 = e2 := by
  induction l with
  | nil => simp at h1
  | cons x xs ih =>
    rw [List.pairwise_cons] at hl
    rcases List.mem_cons.1 h1 with ha | ha <;> rcases List.mem_cons.1 h2 with hb | hb
    · rw [ha, hb]
    · have := hl.1 e2 hb; rw [← ha] at this; omega
    · have := hl.1 e1 ha; rw [← hb] at this; omega
    · exact ih hl.2 ha hb

theorem EntryFound_of_key (h : GroupedHistory T) (hc : Consistent h) (k : Nat)
    (hk : k ∈ h.mEntryByAddr.map (fun e => e.FirstAddr)) : EntryFound h k := by
  obtain ⟨e, he, rfl⟩ := List.mem_map.1 hk
  have hlt := addrFind_lt_of_mem _ _ he
  refine ⟨h.mEntryByAddr[addrFind h.mEntryByAddr e.FirstAddr], ?_, ?_⟩
  · exact List.getElem?_eq_getElem hlt
  · unfold FindEntryByTimeIterator
    apply timeFind_ne_length_of_mem
    refine (List.Perm.mem_iff hc).2 (List.mem_map.2 ⟨_, List.getElem_mem _, rfl⟩)

end GroupedHistory

namespace GroupedHistory

variable {T : Type}

theorem RemoveEntry_of_found (h : GroupedHistory T) (k : Nat) (e : GroupedHistoryEntry T)
    (he : h.mEntryByAddr[addrFind h.mEntryByAddr k]? = some e)
    (ht : FindEntryByTimeIterator h e ≠ h.mEntryByTime.length) :
    RemoveEntry h k =
      { h with
        mEntryByTime := h.mEntryByTime.eraseIdx (FindEntryByTimeIterator h e)
        mEntryByAddr := h.mEntryByAddr.eraseIdx (addrFind h.mEntryByAddr k) } := by
  unfold RemoveEntry
  dsimp only
  rw [he]
  dsimp only
  rw [if_neg ht]

theorem evict_step_removes_oldest (h : GroupedHistory T) (hi : StoreInvariant h) (k : Int)
    (p : Nat) (rest : List (Int × Nat)) (hh : h.mEntryByTime = (k, p) :: rest) :
    ∃ e, h.mEntryByAddr[addrFind h.mEntryByAddr p]? = some e ∧ e.FirstAddr = p ∧
      e.LastAccess = k ∧ (∀ e1 ∈ h.mEntryByAddr, e.LastAccess ≤ e1.LastAccess) ∧
      RemoveEntry h p =
        { h with
          mEntryByTime := rest
          mEntryByAddr := h.mEntryByAddr.eraseIdx (addrFind h.mEntryByAddr p) } := by
  obtain ⟨hc, hs, ht⟩ := hi
  have hmem : (k, p) ∈ h.mEntryByAddr.map timeKey := by
    have : (k, p) ∈ h.mEntryByTime := by rw [hh]; exact List.mem_cons_self _ _
    exact (List.Perm.mem_iff hc).1 this
  obtain ⟨e0, he0, hek⟩ := List.mem_map.1 hmem
  have hep : e0.FirstAddr = p := by
    have := congrArg Prod.snd hek
    simpa [timeKey] using this
  have hea : e0.LastAccess = k := by
    have := congrArg Prod.fst hek
    simpa [timeKey] using this
  have hlt : addrFind h.mEntryByAddr p < h.mEntryByAddr.length := by
    rw [← hep]; exact addrFind_lt_of_mem _ _ he0
  have hget : h.mEntryByAddr[addrFind h.mEntryByAddr p]? =
      some h.mEntryByAddr[addrFind h.mEntryByAddr p] := List.getElem?_eq_getElem hlt
  have hfirst := addrFind_getElem? _ _ _ hget
  have heq : h.mEntryByAddr[addrFind h.mEntryByAddr p] = e0 :=
    eq_of_FirstAddr_eq _ hs _ _ (List.getElem_mem _) he0 (by rw [hfirst, hep])
  rw [heq] at hget
  refine ⟨e0, hget, hep, hea, ?_, ?_⟩
  · intro e1 he1
    have h1 : timeKey e1 ∈ h.mEntryByTime :=
      (List.Perm.mem_iff hc).2 (List.mem_map.2 ⟨e1, he1, rfl⟩)
    unfold TimeSorted at ht
    rw [hh] at h1 ht
    rw [List.pairwise_cons] at ht
    rcases List.mem_cons.1 h1 with h2 | h2
    · have := congrArg Prod.fst h2
      simp [timeKey] at this
      omega
    · have := ht.1 _ h2
      simp [timeKey] at this
      omega
  · have hti : FindEntryByTimeIterator h e0 = 0 := by
      unfold FindEntryByTimeIterator
      rw [hh, hea, hep]
      simp [timeFind]
    rw [RemoveEntry_of_found h p e0 hget (by rw [hti, hh]; simp), hti, hh]
    rfl

/-- C17: the representation invariant holds in the empty store and after every `Update` that
returns, called on a store that has it. Under it the two indices have the same length, every
entry of the address index is in the time index under its current `LastAccess`, every element
of the time index points to an entry of the address index with that `LastAccess`, and no key
of the address index and no element of the time index occurs twice. Every call of
`UpdateLastAccess` and `RemoveEntry` that `Update` makes (on the entry found by
`FindEntryByAddr`, before or after `AddNewEntry`; on the two entries of a merge; on the first
element of the time index) finds its entry in both indices, and a `RemoveEntry` that finds its
entry erases it from both indices. -/
theorem indices_hold_same_entries :
    (∀ blockSize capacity : Int,
      StoreInvariant (GroupedHistory.new blockSize capacity : GroupedHistory T)) ∧
    (∀ (fuel : Nat) (CanMerge : GroupedHistoryEntry T → GroupedHistoryEntry T → Bool)
      (h h1 : GroupedHistory T) (t : Int) (addr : Nat) (d : T),
      StoreInvariant h → Update fuel CanMerge h t addr d = .ok h1 → StoreInvariant h1) ∧
    (∀ h : GroupedHistory T, StoreInvariant h →
      h.mEntryByTime.length = h.mEntryByAddr.length ∧
      (∀ e ∈ h.mEntryByAddr, (e.LastAccess, e.FirstAddr) ∈ h.mEntryByTime) ∧
      (∀ p ∈ h.mEntryByTime, ∃ e ∈ h.mEntryByAddr, e.LastAccess = p.1 ∧ e.FirstAddr = p.2) ∧
      (h.mEntryByAddr.map (fun e => e.FirstAddr)).Nodup ∧ h.mEntryByTime.Nodup ∧
      (∀ e ∈ h.mEntryByAddr, EntryFound h e.FirstAddr)) ∧
    (∀ (h : GroupedHistory T) (addr : Nat) (prevEntry : GroupedHistoryEntry T),
      StoreInvariant h → h.mEntryByAddr[FindEntryByAddr h addr]? = some prevEntry →
      EntryFound h prevEntry.FirstAddr ∧
      ∀ (a b : Nat) (t : Int) (d : T), EntryFound (AddNewEntry h a b t d) prevEntry.FirstAddr) ∧
    (∀ (h : GroupedHistory T) (i j : Nat) (prev cur : GroupedHistoryEntry T) (v : Nat)
      (t : Int), StoreInvariant h →
      h.mEntryByAddr[i]? = some prev → h.mEntryByAddr[j]? = some cur →
      EntryFound (setLastAddr h prev.FirstAddr v) prev.FirstAddr ∧
      EntryFound (UpdateLastAccess (setLastAddr h prev.FirstAddr v) prev.FirstAddr t)
        cur.FirstAddr) ∧
    (∀ (h : GroupedHistory T) (k : Int) (p : Nat) (rest : List (Int × Nat)),
      StoreInvariant h → h.mEntryByTime = (k, p) :: rest → EntryFound h p) ∧
    (∀ (h : GroupedHistory T) (k : Nat), EntryFound h k →
      (RemoveEntry h k).mEntryByAddr.length + 1 = h.mEntryByAddr.length ∧
      (RemoveEntry h k).mEntryByTime.length + 1 = h.mEntryByTime.length ∧
      (RemoveEntry h k).mEntryByAddr = h.mEntryByAddr.eraseIdx (addrFind h.mEntryByAddr k)) := by
  have keys_setLastAddr : ∀ (h : GroupedHistory T) (k v : Nat),
      (setLastAddr h k v).mEntryByAddr.map (fun e => e.FirstAddr) =
        h.mEntryByAddr.map (fun e => e.FirstAddr) := by
    intro h k v
    exact addrModify_map (fun e => { e with LastAddr := v }) (fun e => e.FirstAddr) _ _
      (fun _ => rfl)
  have keys_UpdateLastAccess : ∀ (h : GroupedHistory T) (k : Nat) (t : Int),
      (UpdateLastAccess h k t).mEntryByAddr.map (fun e => e.FirstAddr) =
        h.mEntryByAddr.map (fun e => e.FirstAddr) := by
    intro h k t
    unfold UpdateLastAccess
    split
    · rfl
    · dsimp only
      split_ifs
      · rfl
      · exact addrModify_map (fun e => { e with LastAccess := t }) (fun e => e.FirstAddr) _ _
          (fun _ => rfl)
  have keys_AddNewEntry : ∀ (h : GroupedHistory T) (a b : Nat) (t : Int) (d : T) (k : Nat),
      k ∈ h.mEntryByAddr.map (fun e => e.FirstAddr) →
      k ∈ (AddNewEntry h a b t d).mEntryByAddr.map (fun e => e.FirstAddr) := by
    intro h a b t d k hk
    unfold AddNewEntry
    split_ifs with h1 h2
    · exact hk
    · exact hk
    · have hfind : addrFind h.mEntryByAddr a = h.mEntryByAddr.length := by
        by_contra hne; exact h2 hne
      have hp := (addrInsert_perm (⟨a, b, t, d⟩ : GroupedHistoryEntry T) h.mEntryByAddr
        (addrFind_eq_length _ _ hfind)).map (fun e => e.FirstAddr)
      exact (List.Perm.mem_iff hp).2 (List.mem_cons_of_mem _ hk)
  refine ⟨StoreInvariant_new, ?_, ?_, ?_, ?_, ?_, ?_⟩
  · intro fuel CanMerge h h1 t addr d hi hu
    exact StoreInvariant_Update fuel CanMerge h h1 hi t addr d hu
  · intro h hi
    obtain ⟨hc, hs, _⟩ := hi
    have hkeys : (h.mEntryByAddr.map (fun e => e.FirstAddr)).Nodup := by
      have : (h.mEntryByAddr.map (fun e => e.FirstAddr)).Pairwise (fun a b => a < b) :=
        List.pairwise_map.2 hs
      exact this.imp (fun hab => Nat.ne_of_lt hab)
    have hpairs : (h.mEntryByAddr.map timeKey).Nodup := by
      have : (h.mEntryByAddr.map timeKey).Pairwise (fun a b => a.2 < b.2) :=
        List.pairwise_map.2 hs
      exact this.imp (fun hab heq => by rw [heq] at hab; exact Nat.lt_irrefl _ hab)
    refine ⟨?_, ?_, ?_, hkeys, (List.Perm.nodup_iff hc).2 hpairs, ?_⟩
    · simpa using List.Perm.length_eq hc
    · intro e he
      exact (List.Perm.mem_iff hc).2 (List.mem_map.2 ⟨e, he, rfl⟩)
    · intro p hp
      obtain ⟨e, he, hek⟩ := List.mem_map.1 ((List.Perm.mem_iff hc).1 hp)
      exact ⟨e, he, by rw [← hek]; rfl, by rw [← hek]; rfl⟩
    · intro e he
      exact EntryFound_of_key h hc _ (List.mem_map.2 ⟨e, he, rfl⟩)
  · intro h addr prevEntry hi hget
    have hk : prevEntry.FirstAddr ∈ h.mEntryByAddr.map (fun e => e.FirstAddr) :=
      List.mem_map.2 ⟨prevEntry, List.getElem?_mem hget, rfl⟩
    refine ⟨EntryFound_of_key h hi.1 _ hk, ?_⟩
    intro a b t d
    exact EntryFound_of_key _ (Consistent_AddNewEntry h hi.1 a b t d) _
      (keys_AddNewEntry h a b t d _ hk)
  · intro h i j prev cur v t hi hprev hcur
    have hkp : prev.FirstAddr ∈ h.mEntryByAddr.map (fun e => e.FirstAddr) :=
      List.mem_map.2 ⟨prev, List.getElem?_mem hprev, rfl⟩
    have hkc : cur.FirstAddr ∈ h.mEntryByAddr.map (fun e => e.FirstAddr) :=
      List.mem_map.2 ⟨cur, List.getElem?_mem hcur, rfl⟩
    have hc1 := Consistent_setLastAddr h hi.1 prev.FirstAddr v
    refine ⟨EntryFound_of_key _ hc1 _ (by rw [keys_setLastAddr]; exact hkp), ?_⟩
    refine EntryFound_of_key _ (Consistent_UpdateLastAccess _ hc1 _ _) _ ?_
    rw [keys_UpdateLastAccess, keys_setLastAddr]
    exact hkc
  · intro h k p rest hi hh
    obtain ⟨e, hget, hp, hk, _, _⟩ := evict_step_removes_oldest h hi k p rest hh
    refine ⟨e, hget, ?_⟩
    unfold FindEntryByTimeIterator
    rw [hh, hk, hp]
    simp [timeFind]
  · intro h k hf
    obtain ⟨e, hget, hti⟩ := hf
    rw [RemoveEntry_of_found h k e hget hti]
    dsimp only
    have hlt : addrFind h.mEntryByAddr k < h.mEntryByAddr.length := by
      by_contra hge
      rw [List.getElem?_eq_none (by omega)] at hget
      cases hget
    have hlt2 : FindEntryByTimeIterator h e < h.mEntryByTime.length :=
      Nat.lt_of_le_of_ne (timeFind_le _ _) hti
    rw [List.length_eraseIdx_of_lt hlt, List.length_eraseIdx_of_lt hlt2]
    exact ⟨by omega, by omega, rfl⟩

end GroupedHistory

/-! ## A merge predicate that always accepts -/

namespace GroupedHistory

variable {T : Type}

end GroupedHistory

/-! ## The nodes of the Markov model and the queue of misses -/

namespace Joseph97

theorem pop_step (hist : List Nat) (nodes : Nat → Option node_t)
    (hinv : HistoryInvariant ⟨hist, nodes⟩) :
    ∃ m1 : Model,
      (if hist.length = MAX_NODE then
        ({ miss_history := hist.tail
           nodes := if (nodesAt nodes (hist.head?.getD 0)).count - 1 = 0 then
               nodesErase nodes (hist.head?.getD 0)
             else nodesSet nodes (hist.head?.getD 0)
               { nodesAt nodes (hist.head?.getD 0) with
                 count := (nodesAt nodes (hist.head?.getD 0)).count - 1 } } : Model)
      else ⟨hist, nodes⟩) = m1 ∧
      (∀ a, m1.nodes a = none ↔ a ∉ m1.miss_history) ∧
      (∀ a n, m1.nodes a = some n → n.count = (m1.miss_history.count a : Int)) ∧
      m1.miss_history.length + 1 ≤ MAX_NODE ∧
      (∀ p, hist.getLast? = some p → p ∈ m1.miss_history ∧
        ∃ n0 n1, nodes p = some n0 ∧ m1.nodes p = some n1 ∧
          n1.next_misses = n0.next_misses) := by
  obtain ⟨hnone, hcount, hlen⟩ := hinv
  dsimp only at hnone hcount hlen
  have hlastmem : ∀ p, hist.getLast? = some p → p ∈ hist :=
    fun p hp => List.mem_of_getLast?_eq_some hp
  have hsome : ∀ p, p ∈ hist → ∃ n0, nodes p = some n0 := by
    intro p hp
    cases hn : nodes p with
    | none => exact absurd hp ((hnone p).1 hn)
    | some n0 => exact ⟨n0, rfl⟩
  by_cases hfull : hist.length = MAX_NODE
  · rw [if_pos hfull]
    cases hist with
    | nil => simp [MAX_NODE] at hfull
    | cons front tl =>
      obtain ⟨n0, hn0⟩ := hsome front (List.mem_cons_self _ _)
      have hc0 : n0.count = (tl.count front : Int) + 1 := by
        rw [hcount front n0 hn0]; simp
      have hat : nodesAt nodes front = n0 := by simp [nodesAt, hn0]
      have htl : tl.length + 1 = MAX_NODE := by simpa using hfull
      have htlne : tl ≠ [] := by
        intro h; rw [h] at htl; simp [MAX_NODE] at htl
      simp only [List.head?_cons, Option.getD_some, List.tail_cons, hat]
      have hlast : ∀ p, (front :: tl).getLast? = some p → p ∈ tl := by
        intro p hp
        cases tl with
        | nil => exact absurd rfl htlne
        | cons y ys =>
          rw [List.getLast?_cons_cons] at hp
          exact List.mem_of_getLast?_eq_some hp
      by_cases hz : n0.count - 1 = 0
      · have hcz : tl.count front = 0 := by omega
        have hnotin : front ∉ tl := List.count_eq_zero.1 hcz
        rw [if_pos hz]
        refine ⟨_, rfl, ?_, ?_, by dsimp only; omega, ?_⟩
        · intro a
          dsimp only [nodesErase]
          split_ifs with ha
          · subst ha; simp [hnotin]
          · rw [hnone a]; simp [ha]
        · intro a n hn
          dsimp only [nodesErase] at hn ⊢
          split_ifs at hn with ha
          rw [hcount a n hn, List.count_cons_of_ne ha]
        · intro p hp
          have hpt := hlast p hp
          have hpf : p ≠ front := fun h => hnotin (h ▸ hpt)
          obtain ⟨n, hn⟩ := hsome p (List.mem_cons_of_mem _ hpt)
          exact ⟨hpt, n, n, hn, by simp [nodesErase, hpf, hn], rfl⟩
      · have hcz : tl.count front ≠ 0 := by omega
        have hin : front ∈ tl := List.count_pos_iff.1 (Nat.pos_of_ne_zero hcz)
        rw [if_neg hz]
        refine ⟨_, rfl, ?_, ?_, by dsimp only; omega, ?_⟩
        · intro a
          dsimp only [nodesSet]
          split_ifs with ha
          · subst ha; simp [hin]
          · rw [hnone a]; simp [ha]
        · intro a n hn
          dsimp only [nodesSet] at hn ⊢
          split_ifs at hn with ha
          · cases hn
            subst ha
            dsimp only
            omega
          · rw [hcount a n hn, List.count_cons_of_ne ha]
        · intro p hp
          have hpt := hlast p hp
          by_cases hpf : p = front
          · subst hpf
            exact ⟨hpt, n0, { n0 with count := n0.count - 1 }, hn0, by simp [nodesSet], rfl⟩
          · obtain ⟨n, hn⟩ := hsome p (List.mem_cons_of_mem _ hpt)
            exact ⟨hpt, n, n, hn, by simp [nodesSet, hpf, hn], rfl⟩
  · rw [if_neg hfull]
    refine ⟨_, rfl, hnone, hcount, ?_, ?_⟩
    · dsimp only; omega
    · intro p hp
      obtain ⟨n, hn⟩ := hsome p (hlastmem p hp)
      exact ⟨hlastmem p hp, n, n, hn, hn, rfl⟩

theorem count_step (m1 : Model) (addr : Nat)
    (hnone : ∀ a, m1.nodes a = none ↔ a ∉ m1.miss_history)
    (hcount : ∀ a n, m1.nodes a = some n → n.count = (m1.miss_history.count a : Int)) :
    ∃ nodes2 : Nat → Option node_t,
      (match m1.nodes addr with
       | none => nodesSet m1.nodes addr { addr := addr, count := 1, next_misses := [] }
       | some node => nodesSet m1.nodes addr { node with count := node.count + 1 }) = nodes2 ∧
      (∀ a, nodes2 a = none ↔ a ∉ m1.miss_history ++ [addr]) ∧
      (∀ a n, nodes2 a = some n → n.count = ((m1.miss_history ++ [addr]).count a : Int)) ∧
      (∀ p n1, m1.nodes p = some n1 →
        ∃ n2, nodes2 p = some n2 ∧ n2.next_misses = n1.next_misses ∧ n2.addr = n1.addr) := by
  cases hn : m1.nodes addr with
  | none =>
    have hnot : addr ∉ m1.miss_history := (hnone addr).1 hn
    refine ⟨_, rfl, ?_, ?_, ?_⟩
    · intro a
      dsimp only [nodesSet]
      split_ifs with ha
      · subst ha; simp
      · rw [hnone a]; simp [ha]
    · intro a n hna
      dsimp only [nodesSet] at hna
      split_ifs at hna with ha
      · cases hna
        subst ha
        simp [List.count_eq_zero.2 hnot]
      · rw [hcount a n hna]
        simp [List.count_append, List.count_cons, ha]
    · intro p n1 hp
      have hpa : p ≠ addr := fun h => by rw [h, hn] at hp; cases hp
      exact ⟨n1, by simp [nodesSet, hpa, hp], rfl, rfl⟩
  | some node =>
    refine ⟨_, rfl, ?_, ?_, ?_⟩
    · intro a
      dsimp only [nodesSet]
      split_ifs with ha
      · subst ha; simp
      · rw [hnone a]; simp [ha]
    · intro a n hna
      dsimp only [nodesSet] at hna
      split_ifs at hna with ha
      · cases hna
        subst ha
        dsimp only
        rw [hcount a node hn]
        simp [List.count_append]
      · rw [hcount a n hna]
        simp [List.count_append, List.count_cons, ha]
    · intro p n1 hp
      by_cases hpa : p = addr
      · subst hpa
        rw [hn] at hp
        cases hp
        exact ⟨{ node with count := node.count + 1 }, by simp [nodesSet], rfl, rfl⟩
      · exact ⟨n1, by simp [nodesSet, hpa, hp], rfl, rfl⟩

theorem model_add_miss_spec (m : Model) (hinv : HistoryInvariant m) (addr : Nat) :
    HistoryInvariant (model_add_miss m addr) ∧
    (model_add_miss m addr).miss_history.getLast? = some addr ∧
    ∀ p, m.miss_history.getLast? = some p → p ≠ 0 →
      ∃ n0 n1, m.nodes p = some n0 ∧ (model_add_miss m addr).nodes p = some n1 ∧
        n1.next_misses = push_next_miss n0.next_misses addr := by
  obtain ⟨hist, nodes⟩ := m
  obtain ⟨m1, hm1, hnone1, hcount1, hlen1, hlast1⟩ := pop_step hist nodes hinv
  obtain ⟨nodes2, hn2, hnone2, hcount2, hkeep2⟩ := count_step m1 addr hnone1 hcount1
  unfold model_add_miss
  dsimp only
  rw [hm1, hn2]
  have hlast_val : ∀ p, hist.getLast? = some p →
      (if hist.length > 0 then hist.getLast?.getD 0 else 0) = p := by
    intro p hp
    have : hist.length > 0 := by
      cases hist with
      | nil => simp at hp
      | cons x xs => simp
    rw [if_pos this, hp]
    rfl
  by_cases hl : (if hist.length > 0 then hist.getLast?.getD 0 else 0) ≠ 0
  · rw [if_pos hl]
    have hex : ∃ p, hist.getLast? = some p := by
      cases hg : hist.getLast? with
      | none => rw [hg] at hl; simp at hl
      | some p => exact ⟨p, rfl⟩
    obtain ⟨p, hp⟩ := hex
    rw [hlast_val p hp] at hl ⊢
    obtain ⟨hmem, n0, n1, hn0, hn1, hnx1⟩ := hlast1 p hp
    obtain ⟨n2, hn2p, hnx2, _⟩ := hkeep2 p n1 hn1
    have hat : nodesAt nodes2 p = n2 := by simp [nodesAt, hn2p]
    rw [hat]
    refine ⟨⟨?_, ?_, ?_⟩, by simp, ?_⟩
    · intro a
      dsimp only [nodesSet]
      split_ifs with ha
      · subst ha
        simp [hmem]
      · exact hnone2 a
    · intro a n hna
      dsimp only [nodesSet] at hna
      split_ifs at hna with ha
      · cases hna
        subst ha
        exact hcount2 _ n2 hn2p
      · exact hcount2 a n hna
    · dsimp only
      rw [List.length_append]
      simpa using hlen1
    · intro q hq _
      rw [hp] at hq
      cases hq
      refine ⟨n0, { n2 with next_misses := push_next_miss n2.next_misses addr }, hn0,
        by simp [nodesSet], ?_⟩
      dsimp only
      rw [hnx2, hnx1]
  · rw [if_neg hl]
    refine ⟨⟨hnone2, hcount2, ?_⟩, by simp, ?_⟩
    · dsimp only
      rw [List.length_append]
      simpa using hlen1
    · intro q hq hq0
      rw [hlast_val q hq] at hl
      exact absurd hq0 hl

theorem HistoryInvariant_empty : HistoryInvariant Model.empty := by
  simp [HistoryInvariant, Model.empty]

theorem HistoryInvariant_feed (misses : List Nat) :
    ∀ m : Model, HistoryInvariant m → HistoryInvariant (feed m misses) := by
  induction misses with
  | nil => intro m h; exact h
  | cons a rest ih =>
    intro m h
    exact ih _ (model_add_miss_spec m h a).1

/-- C19: after every stream of miss addresses fed to `model_add_miss` from the empty model, an
address has a node exactly when it occurs in the queue `miss_history`, the `count` of the node
is the number of occurrences of the address in the queue (so it is at least 1), and the queue
holds at most `MAX_NODE = 32768` addresses. -/
theorem nodes_match_miss_history (misses : List Nat) :
    (∀ a, (∃ n, (feed Model.empty misses).nodes a = some n) ↔
      a ∈ (feed Model.empty misses).miss_history) ∧
    (∀ a n, (feed Model.empty misses).nodes a = some n →
      n.count = ((feed Model.empty misses).miss_history.count a : Int) ∧ 1 ≤ n.count) ∧
    (feed Model.empty misses).miss_history.length ≤ 32768 := by
  obtain ⟨hnone, hcount, hlen⟩ := HistoryInvariant_feed misses Model.empty HistoryInvariant_empty
  have hiff : ∀ a, (∃ n, (feed Model.empty misses).nodes a = some n) ↔
      a ∈ (feed Model.empty misses).miss_history := by
    intro a
    constructor
    · rintro ⟨n, hn⟩
      by_contra hnot
      rw [(hnone a).2 hnot] at hn
      cases hn
    · intro ha
      cases hn : (feed Model.empty misses).nodes a with
      | none => exact absurd ha ((hnone a).1 hn)
      | some n => exact ⟨n, rfl⟩
  refine ⟨hiff, ?_, hlen⟩
  intro a n hn
  have hc := hcount a n hn
  have hpos : 0 < (feed Model.empty misses).miss_history.count a :=
    List.count_pos_iff.2 ((hiff a).1 ⟨n, hn⟩)
  exact ⟨hc, by omega⟩

/-- C20 (as stated, refuted): after the single miss at address 0 the queue is not empty and its
most recent miss is `p = 0`; `model_add_miss(64)` leaves the node of 0 without successors, so
there is no prediction for 0: a last miss of 0 is taken for "no previous miss". -/
theorem successor_of_zero_not_recorded :
    (feed Model.empty [0]).miss_history.getLast? = some 0 ∧
    (model_add_miss (feed Model.empty [0]) 64).nodes 0 =
      some { addr := 0, count := 1, next_misses := [] } ∧
    model_prefetch (model_add_miss (feed Model.empty [0]) 64) (fun _ => false) (fun _ => false)
      0 = none := by
  refine ⟨rfl, rfl, rfl⟩

/-- C20 (amended): for every model state whose nodes match its queue of misses (as after every
stream of misses) and whose most recent miss is `p`, with `p` not 0, and every address `a`:
after `model_add_miss(a)` the deque `next_misses` of the node of `p` is the old deque with the
earlier occurrence of `a` removed, then its oldest element dropped if 4 elements remain,
followed by `a`; it ends with `a`, and `model_prefetch(p)` issues `a` whenever `a` is neither
in the cache nor in the MSHR queue. -/
theorem add_miss_records_successor (m : Model) (hinv : HistoryInvariant m) (p : Nat)
    (hlast : m.miss_history.getLast? = some p) (hp : p ≠ 0) (a : Nat) :
    ∃ n0 n1, m.nodes p = some n0 ∧ (model_add_miss m a).nodes p = some n1 ∧
      n1.next_misses =
        (if (n0.next_misses.erase a).length = 4 then (n0.next_misses.erase a).tail
         else n0.next_misses.erase a) ++ [a] ∧
      n1.next_misses.getLast? = some a ∧
      ∀ in_cache in_mshr_queue : Nat → Bool,
        model_prefetch (model_add_miss m a) in_cache in_mshr_queue p =
          if !in_cache a && !in_mshr_queue a then some a else none := by
  obtain ⟨n0, n1, hn0, hn1, hnx⟩ := (model_add_miss_spec m hinv a).2.2 p hlast hp
  have hshape : n1.next_misses =
      (if (n0.next_misses.erase a).length = 4 then (n0.next_misses.erase a).tail
       else n0.next_misses.erase a) ++ [a] := by
    rw [hnx]
    unfold push_next_miss
    dsimp only
    have he : (if a ∈ n0.next_misses then n0.next_misses.erase a else n0.next_misses) =
        n0.next_misses.erase a := by
      split_ifs with hmem
      · rfl
      · exact (List.erase_of_not_mem hmem).symm
    rw [he]
    rfl
  have hlastn : n1.next_misses.getLast? = some a := by
    rw [hshape]
    exact List.getLast?_concat _
  refine ⟨n0, n1, hn0, hn1, hshape, hlastn, ?_⟩
  intro in_cache in_mshr_queue
  unfold model_prefetch
  rw [hn1]
  dsimp only
  rw [hlastn]

/-- C20 (amended), at the model after the misses 64, 128, for the miss 192. -/
theorem add_miss_records_successor_witness :
    ∃ n0 n1, (feed Model.empty [64, 128]).nodes 128 = some n0 ∧
      (model_add_miss (feed Model.empty [64, 128]) 192).nodes 128 = some n1 ∧
      n1.next_misses =
        (if (n0.next_misses.erase 192).length = 4 then (n0.next_misses.erase 192).tail
         else n0.next_misses.erase 192) ++ [192] ∧
      n1.next_misses.getLast? = some 192 ∧
      ∀ in_cache in_mshr_queue : Nat → Bool,
        model_prefetch (model_add_miss (feed Model.empty [64, 128]) 192) in_cache in_mshr_queue
          128 = if !in_cache 192 && !in_mshr_queue 192 then some 192 else none :=
  add_miss_records_successor (feed Model.empty [64, 128])
    (HistoryInvariant_feed [64, 128] Model.empty HistoryInvariant_empty) 128 rfl (by decide) 192

end Joseph97

/-! ## The table of the stride prefetcher and its time-ordered index -/

namespace StdMap

variable {K V : Type} [LinearOrder K]

theorem insert_mem (k : K) (v : V) (m : StdMap K V) (y : K × V) (hy : y ∈ insert k v m) :
    y = (k, v) ∨ y ∈ m := by
  induction m with
  | nil => simpa [insert] using hy
  | cons x xs ih =>
    unfold insert at hy
    split_ifs at hy
    · rcases List.mem_cons.1 hy with h | h
      · exact Or.inl h
      · exact Or.inr h
    · rcases List.mem_cons.1 hy with h | h
      · exact Or.inl h
      · exact Or.inr (List.mem_cons_of_mem _ h)
    · rcases List.mem_cons.1 hy with h | h
      · exact Or.inr (h ▸ List.mem_cons_self _ _)
      · rcases ih h with h | h
        · exact Or.inl h
        · exact Or.inr (List.mem_cons_of_mem _ h)

theorem insert_sorted (k : K) (v : V) (m : StdMap K V) (hs : Sorted m) :
    Sorted (insert k v m) := by
  induction m with
  | nil => simp [insert, Sorted]
  | cons x xs ih =>
    unfold Sorted at hs ih ⊢
    rw [List.pairwise_cons] at hs
    unfold insert
    split_ifs with h1 h2
    · rw [List.pairwise_cons]
      refine ⟨?_, List.pairwise_cons.2 hs⟩
      intro y hy
      rcases List.mem_cons.1 hy with h | h
      · rw [h]; exact h1
      · exact lt_trans h1 (hs.1 y h)
    · rw [List.pairwise_cons]
      exact ⟨fun y hy => by rw [h2]; exact hs.1 y hy, hs.2⟩
    · rw [List.pairwise_cons]
      refine ⟨?_, ih hs.2⟩
      intro y hy
      rcases insert_mem k v xs y hy with h | h
      · rw [h]
        exact lt_of_le_of_ne (not_lt.1 h1) (fun h => h2 h.symm)
      · exact hs.1 y h

theorem erase_sublist (k : K) (m : StdMap K V) : (erase k m).Sublist m := by
  induction m with
  | nil => exact List.Sublist.refl _
  | cons x xs ih =>
    unfold erase
    split_ifs
    · exact List.sublist_cons_self _ _
    · exact ih.cons₂ _

theorem erase_sorted (k : K) (m : StdMap K V) (hs : Sorted m) : Sorted (erase k m) :=
  List.Pairwise.sublist (erase_sublist k m) hs

theorem erase_of_not_key (k : K) (m : StdMap K V) (h : ∀ y ∈ m, y.1 ≠ k) : erase k m = m := by
  induction m with
  | nil => rfl
  | cons x xs ih =>
    unfold erase
    rw [if_neg (h x (List.mem_cons_self _ _)), ih (fun y hy => h y (List.mem_cons_of_mem _ hy))]

theorem insert_perm (k : K) (v : V) (m : StdMap K V) (hs : Sorted m) :
    (insert k v m).Perm ((k, v) :: erase k m) := by
  induction m with
  | nil => simp [insert, erase]
  | cons x xs ih =>
    unfold Sorted at hs ih
    rw [List.pairwise_cons] at hs
    unfold insert
    split_ifs with h1 h2
    · have hall : ∀ y ∈ x :: xs, y.1 ≠ k := by
        intro y hy
        rcases List.mem_cons.1 hy with h | h
        · rw [h]; exact ne_of_gt h1
        · exact ne_of_gt (lt_trans h1 (hs.1 y h))
      rw [erase_of_not_key k (x :: xs) hall]
    · unfold erase
      rw [if_pos h2.symm]
    · unfold erase
      rw [if_neg (fun h => h2 h.symm)]
      exact (List.Perm.cons x (ih hs.2)).trans (List.Perm.swap _ _ _)

theorem erase_perm (k : K) (v : V) (m : StdMap K V) (h : lookup m k = some v) :
    m.Perm ((k, v) :: erase k m) := by
  induction m with
  | nil => simp [lookup] at h
  | cons x xs ih =>
    unfold lookup at h
    unfold erase
    split_ifs at h ⊢ with hx
    · cases h
      rw [← hx]
    · exact (List.Perm.cons x (ih h)).trans (List.Perm.swap _ _ _)

theorem lookup_mem (k : K) (v : V) (m : StdMap K V) (h : lookup m k = some v) : (k, v) ∈ m :=
  (erase_perm k v m h).mem_iff.2 (List.mem_cons_self _ _)

theorem mem_lookup (k : K) (v : V) (m : StdMap K V) (hs : Sorted m) (h : (k, v) ∈ m) :
    lookup m k = some v := by
  induction m with
  | nil => simp at h
  | cons x xs ih =>
    unfold Sorted at hs ih
    rw [List.pairwise_cons] at hs
    unfold lookup
    rcases List.mem_cons.1 h with h1 | h1
    · rw [← h1]; simp
    · have : x.1 ≠ k := ne_of_lt (hs.1 _ h1)
      rw [if_neg this]
      exact ih hs.2 h1

theorem lookup_erase_of_ne (k k1 : K) (m : StdMap K V) (hne : k1 ≠ k) :
    lookup (erase k m) k1 = lookup m k1 := by
  induction m with
  | nil => rfl
  | cons x xs ih =>
    unfold erase
    split_ifs with hx
    · have : x.1 ≠ k1 := fun h => hne (h ▸ hx)
      simp [lookup, this]
    · simp [lookup, ih]

theorem findIdx_le (m : StdMap K V) (k : K) : findIdx m k ≤ m.length := by
  induction m with
  | nil => simp [findIdx]
  | cons x xs ih =>
    unfold findIdx
    split_ifs
    · simp
    · simp; omega

theorem lookup_of_findIdx_ne (m : StdMap K V) (k : K) (h : findIdx m k ≠ m.length) :
    ∃ v, lookup m k = some v := by
  induction m with
  | nil => simp [findIdx] at h
  | cons x xs ih =>
    unfold findIdx at h
    unfold lookup
    split_ifs at h ⊢ with hx
    · exact ⟨_, rfl⟩
    · exact ih (by simpa using h)

theorem not_key_of_findIdx_eq (m : StdMap K V) (k : K) (h : findIdx m k = m.length) :
    ∀ y ∈ m, y.1 ≠ k := by
  induction m with
  | nil => simp
  | cons x xs ih =>
    unfold findIdx at h
    split_ifs at h with hx
    · simp at h
    · intro y hy
      rcases List.mem_cons.1 hy with h1 | h1
      · rw [h1]; exact hx
      · exact ih (by simpa using h) y h1

end StdMap

namespace Baer91

theorem instsAt_of_lookup (m : StdMap Nat inst_t) (k : Nat) (v : inst_t)
    (h : StdMap.lookup m k = some v) : instsAt m k = v := by
  simp [instsAt, h]

/-- Rewriting a field other than `last_time` in the entry of a key of the table keeps the
match between the table and the index. -/
theorem touch_entry_matches (insts : StdMap Nat inst_t) (hist : StdMap Int Nat)
    (hs : StdMap.Sorted insts) (hp : hist.Perm (insts.map historyKey)) (k : Nat)
    (v v1 : inst_t) (hk : StdMap.lookup insts k = some v) (hv : v1.last_time = v.last_time) :
    StdMap.Sorted (StdMap.insert k v1 insts) ∧
    hist.Perm ((StdMap.insert k v1 insts).map historyKey) := by
  refine ⟨StdMap.insert_sorted k v1 insts hs, ?_⟩
  have h1 := (StdMap.insert_perm k v1 insts hs).map historyKey
  have h2 := (StdMap.erase_perm k v insts hk).map historyKey
  refine hp.trans (h2.trans ?_)
  refine List.Perm.trans ?_ h1.symm
  simp [historyKey, hv]

theorem inst_execute_matches (σ : Table) (hm : HistoryMatches σ) (pc : Nat) (time : Int)
    (hfresh : ∀ k ∈ σ.pc_history, k.1 < time) :
    ∃ σ1, inst_execute σ pc time = .ok σ1 ∧ HistoryMatches σ1 ∧
      ∀ k ∈ σ1.pc_history, k.1 ≤ time := by
  obtain ⟨hsi, hsh, hperm⟩ := hm
  -- the table and the index after the fetch is recorded
  have hrec : ∃ σ2 : Table,
      (if StdMap.findIdx σ.insts pc ≠ σ.insts.length then
        (.ok { insts := StdMap.insert pc { instsAt σ.insts pc with last_time := time } σ.insts
               pc_history := StdMap.insert time pc
                 (StdMap.erase (instsAt σ.insts pc).last_time σ.pc_history) } :
          Except Fault Table)
      else
        match (if σ.insts.length = MAX_HISTORY then
            match σ.pc_history with
            | [] => .error Fault.undefinedBehaviour
            | (_, oldest_pc) :: rest =>
              .ok { insts := StdMap.erase oldest_pc σ.insts, pc_history := rest }
          else .ok σ : Except Fault Table) with
        | .error f => .error f
        | .ok σ1 =>
          .ok { insts := StdMap.insert pc
                  { pc := pc, last_time := time, is_forward := 1, prev_addr := 0, stride := 0,
                    state := RPT_STATE_INIT } σ1.insts
                pc_history := StdMap.insert time pc σ1.pc_history }) = .ok σ2 ∧
      HistoryMatches σ2 ∧ (∀ k ∈ σ2.pc_history, k.1 ≤ time) ∧
      ∀ t_last last_pc, σ.pc_history.getLast? = some (t_last, last_pc) →
        ∃ v, StdMap.lookup σ2.insts last_pc = some v := by
    by_cases hfind : StdMap.findIdx σ.insts pc ≠ σ.insts.length
    · rw [if_pos hfind]
      obtain ⟨inst0, hl0⟩ := StdMap.lookup_of_findIdx_ne _ _ hfind
      rw [instsAt_of_lookup _ _ _ hl0]
      have hi1 := (StdMap.insert_perm pc { inst0 with last_time := time } σ.insts hsi).map
        historyKey
      have hi0 := (StdMap.erase_perm pc inst0 σ.insts hl0).map historyKey
      have hmemh : (inst0.last_time, pc) ∈ σ.pc_history := by
        refine hperm.mem_iff.2 (hi0.mem_iff.2 ?_)
        simp [historyKey]
      have hlh := StdMap.mem_lookup _ _ _ hsh hmemh
      have hh0 := StdMap.erase_perm inst0.last_time pc σ.pc_history hlh
      have herase : (StdMap.erase inst0.last_time σ.pc_history).Perm
          ((StdMap.erase pc σ.insts).map historyKey) := by
        have := (hh0.symm.trans hperm).trans hi0
        simpa [historyKey] using this
      have hsub := StdMap.erase_sublist inst0.last_time σ.pc_history
      have hnokey : ∀ y ∈ StdMap.erase inst0.last_time σ.pc_history, y.1 ≠ time :=
        fun y hy => ne_of_lt (hfresh y (hsub.subset hy))
      have hh1 := StdMap.insert_perm time pc _ (StdMap.erase_sorted inst0.last_time _ hsh)
      rw [StdMap.erase_of_not_key time _ hnokey] at hh1
      refine ⟨_, rfl, ⟨StdMap.insert_sorted _ _ _ hsi,
        StdMap.insert_sorted _ _ _ (StdMap.erase_sorted _ _ hsh), ?_⟩, ?_, ?_⟩
      · dsimp only
        refine hh1.trans (List.Perm.trans ?_ hi1.symm)
        simpa [historyKey] using herase
      · intro k hk
        dsimp only at hk
        rcases List.mem_cons.1 (hh1.mem_iff.1 hk) with h | h
        · rw [h]
        · exact le_of_lt (hfresh k (hsub.subset h))
      · intro t_last last_pc hlast
        have hmem : (t_last, last_pc) ∈ σ.insts.map historyKey :=
          hperm.mem_iff.1 (List.mem_of_getLast?_eq_some hlast)
        obtain ⟨q, hq, hqk⟩ := List.mem_map.1 hmem
        obtain ⟨qpc, qinst⟩ := q
        have hqpc : qpc = last_pc := by
          have := congrArg Prod.snd hqk
          simpa [historyKey] using this
        subst hqpc
        have hlq := StdMap.mem_lookup _ _ _ hsi hq
        dsimp only
        by_cases hpq : qpc = pc
        · subst hpq
          exact ⟨_, StdMap.lookup_insert_self _ _ _⟩
        · exact ⟨qinst, by rw [StdMap.lookup_insert_of_ne _ _ _ _ hpq]; exact hlq⟩
    · rw [if_neg hfind]
      have hfind1 : StdMap.findIdx σ.insts pc = σ.insts.length := by
        by_contra h; exact hfind h
      have hnot := StdMap.not_key_of_findIdx_eq _ _ hfind1
      -- the state after the eviction, if any
      have hev : ∃ σ1 : Table,
          (if σ.insts.length = MAX_HISTORY then
            match σ.pc_history with
            | [] => .error Fault.undefinedBehaviour
            | (_, oldest_pc) :: rest =>
              .ok { insts := StdMap.erase oldest_pc σ.insts, pc_history := rest }
          else .ok σ : Except Fault Table) = .ok σ1 ∧
          HistoryMatches σ1 ∧ (∀ k ∈ σ1.pc_history, k.1 < time) ∧
          (∀ y ∈ σ1.insts, y.1 ≠ pc) ∧
          ∀ t_last last_pc, σ.pc_history.getLast? = some (t_last, last_pc) →
            ∃ v, StdMap.lookup σ1.insts last_pc = some v := by
        have hkeep : ∀ t_last last_pc, σ.pc_history.getLast? = some (t_last, last_pc) →
            ∃ v, StdMap.lookup σ.insts last_pc = some v ∧ v.last_time = t_last := by
          intro t_last last_pc hlast
          have hmem : (t_last, last_pc) ∈ σ.insts.map historyKey :=
            hperm.mem_iff.1 (List.mem_of_getLast?_eq_some hlast)
          obtain ⟨q, hq, hqk⟩ := List.mem_map.1 hmem
          obtain ⟨qpc, qinst⟩ := q
          have hqpc : qpc = last_pc := by
            have := congrArg Prod.snd hqk
            simpa [historyKey] using this
          have hqt : qinst.last_time = t_last := by
            have := congrArg Prod.fst hqk
            simpa [historyKey] using this
          subst hqpc
          exact ⟨qinst, StdMap.mem_lookup _ _ _ hsi hq, hqt⟩
        by_cases hfull : σ.insts.length = MAX_HISTORY
        · rw [if_pos hfull]
          have hlen : σ.pc_history.length = σ.insts.length := by
            simpa using hperm.length_eq
          cases hh : σ.pc_history with
          | nil => rw [hh] at hlen; rw [← hlen] at hfull; simp [MAX_HISTORY] at hfull
          | cons x rest =>
            obtain ⟨t0, oldest⟩ := x
            rw [hh] at hperm hsh hfresh hlen
            have hmem0 : (t0, oldest) ∈ σ.insts.map historyKey :=
              hperm.mem_iff.1 (List.mem_cons_self _ _)
            obtain ⟨q, hq, hqk⟩ := List.mem_map.1 hmem0
            obtain ⟨qpc, qinst⟩ := q
            have hqpc : qpc = oldest := by
              have := congrArg Prod.snd hqk
              simpa [historyKey] using this
            have hqt : qinst.last_time = t0 := by
              have := congrArg Prod.fst hqk
              simpa [historyKey] using this
            subst hqpc
            have hlq := StdMap.mem_lookup _ _ _ hsi hq
            have hi0 := (StdMap.erase_perm qpc qinst σ.insts hlq).map historyKey
            have hrest : rest.Perm ((StdMap.erase qpc σ.insts).map historyKey) := by
              have := hperm.trans hi0
              simp only [List.map_cons, historyKey, hqt] at this
              exact this.cons_inv
            unfold StdMap.Sorted at hsh
            rw [List.pairwise_cons] at hsh
            refine ⟨_, rfl, ⟨StdMap.erase_sorted _ _ hsi, hsh.2, hrest⟩, ?_, ?_, ?_⟩
            · intro k hk
              exact hfresh k (List.mem_cons_of_mem _ hk)
            · intro y hy
              exact hnot y ((StdMap.erase_sublist _ _).subset hy)
            · intro t_last last_pc hlast
              rw [hh] at hkeep
              obtain ⟨v, hv, hvt⟩ := hkeep t_last last_pc hlast
              have hrne : rest ≠ [] := by
                intro hr
                rw [hr] at hlen
                rw [← hlen] at hfull
                simp [MAX_HISTORY] at hfull
              have hlastmem : (t_last, last_pc) ∈ rest := by
                cases rest with
                | nil => exact absurd rfl hrne
                | cons y ys =>
                  rw [List.getLast?_cons_cons] at hlast
                  exact List.mem_of_getLast?_eq_some hlast
              have hlt : t0 < t_last := hsh.1 _ hlastmem
              have hne : last_pc ≠ qpc := by
                intro heq
                rw [heq, hlq] at hv
                cases hv
                omega
              exact ⟨v, by rw [StdMap.lookup_erase_of_ne _ _ _ hne]; exact hv⟩
        · rw [if_neg hfull]
          refine ⟨σ, rfl, ⟨hsi, hsh, hperm⟩, hfresh, hnot, ?_⟩
          intro t_last last_pc hlast
          obtain ⟨v, hv, _⟩ := hkeep t_last last_pc hlast
          exact ⟨v, hv⟩
      obtain ⟨σ1, hσ1, ⟨hsi1, hsh1, hperm1⟩, hfresh1, hnot1, hkeep1⟩ := hev
      rw [hσ1]
      dsimp only
      have hi1 := StdMap.insert_perm pc
        ({ pc := pc, last_time := time, is_forward := 1, prev_addr := 0, stride := 0,
           state := RPT_STATE_INIT } : inst_t) σ1.insts hsi1
      rw [StdMap.erase_of_not_key pc _ hnot1] at hi1
      have hh1 := StdMap.insert_perm time pc σ1.pc_history hsh1
      rw [StdMap.erase_of_not_key time _ (fun y hy => ne_of_lt (hfresh1 y hy))] at hh1
      refine ⟨_, rfl, ⟨StdMap.insert_sorted _ _ _ hsi1, StdMap.insert_sorted _ _ _ hsh1, ?_⟩,
        ?_, ?_⟩
      · dsimp only
        refine hh1.trans (List.Perm.trans ?_ (hi1.map historyKey).symm)
        simpa [historyKey] using hperm1
      · intro k hk
        dsimp only at hk
        rcases List.mem_cons.1 (hh1.mem_iff.1 hk) with h | h
        · rw [h]
        · exact le_of_lt (hfresh1 k h)
      · intro t_last last_pc hlast
        obtain ⟨v, hv⟩ := hkeep1 t_last last_pc hlast
        dsimp only
        by_cases hpq : last_pc = pc
        · subst hpq
          exact ⟨_, StdMap.lookup_insert_self _ _ _⟩
        · exact ⟨v, by rw [StdMap.lookup_insert_of_ne _ _ _ _ hpq]; exact hv⟩
  obtain ⟨σ2, hσ2, ⟨hsi2, hsh2, hperm2⟩, hle2, hkeep2⟩ := hrec
  unfold inst_execute
  dsimp only
  rw [hσ2]
  dsimp only
  by_cases hl : (if σ.pc_history.length > 0 then
      (σ.pc_history.getLast?.map Prod.snd).getD 0 else 0) ≠ 0
  · rw [if_pos hl]
    have hex : ∃ q, σ.pc_history.getLast? = some q := by
      cases hg : σ.pc_history.getLast? with
      | none => rw [hg] at hl; simp at hl
      | some q => exact ⟨q, rfl⟩
    obtain ⟨⟨t_last, last_pc⟩, hq⟩ := hex
    have hval : (if σ.pc_history.length > 0 then
        (σ.pc_history.getLast?.map Prod.snd).getD 0 else 0) = last_pc := by
      have : σ.pc_history.length > 0 := by
        cases hh : σ.pc_history with
        | nil => rw [hh] at hq; simp at hq
        | cons x xs => simp
      rw [if_pos this, hq]
      rfl
    rw [hval]
    obtain ⟨v, hv⟩ := hkeep2 t_last last_pc hq
    rw [instsAt_of_lookup _ _ _ hv]
    obtain ⟨hs3, hp3⟩ := touch_entry_matches σ2.insts σ2.pc_history hsi2 hperm2 last_pc v
      { v with is_forward := if pc > last_pc then 1 else 0 } hv rfl
    exact ⟨_, rfl, ⟨hs3, hsh2, hp3⟩, hle2⟩
  · rw [if_neg hl]
    exact ⟨σ2, rfl, ⟨hsi2, hsh2, hperm2⟩, hle2⟩

theorem executeSeq_matches (calls : List (Nat × Int)) :
    ∀ σ : Table, HistoryMatches σ → (∀ k ∈ σ.pc_history, ∀ c ∈ calls, k.1 < c.2) →
      (calls.map Prod.snd).Pairwise (fun a b => a < b) →
      ∃ σ1, executeSeq σ calls = .ok σ1 ∧ HistoryMatches σ1 := by
  induction calls with
  | nil =>
    intro σ hm _ _
    exact ⟨σ, rfl, hm⟩
  | cons c rest ih =>
    intro σ hm hfresh hinc
    obtain ⟨pc, time⟩ := c
    rw [List.map_cons, List.pairwise_cons] at hinc
    obtain ⟨σ1, h1, hm1, hle1⟩ := inst_execute_matches σ hm pc time
      (fun k hk => hfresh k hk (pc, time) (List.mem_cons_self _ _))
    have hfresh1 : ∀ k ∈ σ1.pc_history, ∀ c ∈ rest, k.1 < c.2 := by
      intro k hk c hc
      exact lt_of_le_of_lt (hle1 k hk) (hinc.1 c.2 (List.mem_map.2 ⟨c, hc, rfl⟩))
    obtain ⟨σ2, h2, hm2⟩ := ih σ1 hm1 hfresh1 hinc.2
    refine ⟨σ2, ?_, hm2⟩
    unfold executeSeq
    rw [h1]
    exact h2

/-- C18 (as stated, refuted): the calls `inst_execute(1, 5)`, `inst_execute(2, 5)` have
non-decreasing timestamps; after them the table `insts` has the keys 1 and 2, but
`pc_history` holds only PC 2: the second call overwrote the element of key 5. -/
theorem equal_timestamps_drop_a_pc :
    ([(1, 5), (2, 5)] : List (Nat × Int)).map Prod.snd = [5, 5] ∧
    ([5, 5] : List Int).Pairwise (fun a b => a ≤ b) ∧
    ∃ σ, executeSeq Table.empty [(1, 5), (2, 5)] = .ok σ ∧
      σ.insts.map Prod.fst = [1, 2] ∧ σ.pc_history = [(5, 2)] ∧
      1 ∈ σ.insts.map Prod.fst ∧ 1 ∉ σ.pc_history.map Prod.snd := by
  refine ⟨rfl, by decide, _, rfl, rfl, rfl, ?_, ?_⟩
  · decide
  · decide

/-- C18 (amended): for every sequence of `inst_execute` calls with strictly increasing
timestamps, started on the empty table, every call returns, and afterwards the PCs stored as
values of `pc_history` are exactly the keys of `insts`, each entry's `last_time` is the key
under which `pc_history` stores its PC, and the two maps have the same size. -/
theorem history_matches_table (calls : List (Nat × Int))
    (hinc : (calls.map Prod.snd).Pairwise (fun a b => a < b)) :
    ∃ σ, executeSeq Table.empty calls = .ok σ ∧
      (∀ pc, pc ∈ σ.pc_history.map Prod.snd ↔ pc ∈ σ.insts.map Prod.fst) ∧
      (∀ pc inst, (pc, inst) ∈ σ.insts →
        StdMap.lookup σ.pc_history inst.last_time = some pc) ∧
      σ.pc_history.length = σ.insts.length := by
  have h0 : HistoryMatches Table.empty := by
    simp [HistoryMatches, Table.empty, StdMap.Sorted]
  obtain ⟨σ, hrun, hsi, hsh, hperm⟩ := executeSeq_matches calls Table.empty h0
    (by intro k hk; simp [Table.empty] at hk) hinc
  refine ⟨σ, hrun, ?_, ?_, by simpa using hperm.length_eq⟩
  · intro pc
    have hvals : (σ.insts.map historyKey).map Prod.snd = σ.insts.map Prod.fst := by
      rw [List.map_map]
      rfl
    rw [← hvals]
    exact (hperm.map Prod.snd).mem_iff
  · intro pc inst hmem
    apply StdMap.mem_lookup _ _ _ hsh
    exact hperm.mem_iff.2 (List.mem_map.2 ⟨(pc, inst), hmem, rfl⟩)

/-- C18 (amended), at the fetches of PC 7 at time 0 and of PC 5 at time 1. -/
theorem history_matches_table_witness :
    ∃ σ, executeSeq Table.empty [(7, 0), (5, 1)] = .ok σ ∧
      (∀ pc, pc ∈ σ.pc_history.map Prod.snd ↔ pc ∈ σ.insts.map Prod.fst) ∧
      (∀ pc inst, (pc, inst) ∈ σ.insts →
        StdMap.lookup σ.pc_history inst.last_time = some pc) ∧
      σ.pc_history.length = σ.insts.length :=
  history_matches_table [(7, 0), (5, 1)] (by decide)

end Baer91

/-! ## The refresh of an entry that can merge with the access -/

namespace GroupedHistory

variable {T : Type}

theorem addrModify_eq_map (f : GroupedHistoryEntry T → GroupedHistoryEntry T)
    (l : List (GroupedHistoryEntry T)) (k : Nat)
    (hs : l.Pairwise (fun a b => a.FirstAddr < b.FirstAddr)) :
    addrModify f l k = l.map (fun x => if x.FirstAddr = k then f x else x) := by
  induction l with
  | nil => simp [addrModify]
  | cons y ys ih =>
    rw [List.pairwise_cons] at hs
    unfold addrModify
    split
    · rename_i hy
      have hrest : ys.map (fun x => if x.FirstAddr = k then f x else x) = ys := by
        conv_rhs => rw [← List.map_id ys]
        apply List.map_congr_left
        intro z hz
        have := hs.1 z hz
        rw [if_neg (by omega)]
        rfl
      simp only [List.map_cons, if_pos hy, hrest]
    · rename_i hy
      simp only [List.map_cons, if_neg hy, ih hs.2]

theorem addrUpperBound_map (g : GroupedHistoryEntry T → GroupedHistoryEntry T)
    (hg : ∀ x, (g x).FirstAddr = x.FirstAddr) (l : List (GroupedHistoryEntry T)) (addr : Nat) :
    addrUpperBound (l.map g) addr = addrUpperBound l addr := by
  induction l with
  | nil => rfl
  | cons y ys ih =>
    simp only [List.map_cons]
    unfold addrUpperBound
    rw [hg, ih]

theorem FindEntryByAddr_map (h h1 : GroupedHistory T)
    (g : GroupedHistoryEntry T → GroupedHistoryEntry T)
    (hg1 : ∀ x, (g x).FirstAddr = x.FirstAddr) (hg2 : ∀ x, (g x).LastAddr = x.LastAddr)
    (hmap : h1.mEntryByAddr = h.mEntryByAddr.map g) (addr : Nat) :
    FindEntryByAddr h1 addr = FindEntryByAddr h addr := by
  unfold FindEntryByAddr
  dsimp only
  rw [hmap, addrUpperBound_map g hg1, List.length_map, List.getElem?_map]
  cases h.mEntryByAddr[addrUpperBound h.mEntryByAddr addr - 1]? with
  | none => rfl
  | some x => simp only [Option.map_some', hg1, hg2]

theorem eraseIdx_timeFind (l : List (Int × Nat)) (p : Int × Nat) :
    l.eraseIdx (timeFind l p) = l.erase p := by
  induction l with
  | nil => rfl
  | cons x xs ih =>
    unfold timeFind
    by_cases hx : x = p
    · rw [if_pos hx, hx]
      simp
    · rw [if_neg hx]
      simp [List.erase_cons, hx, ih]

theorem timeInsert_length (p : Int × Nat) (l : List (Int × Nat)) :
    (timeInsert p l).length = l.length + 1 :=
  (timeInsert_perm p l).length_eq

/-- C21: on a store that satisfies its representation invariant and holds no more entries than
its capacity, when `Get(addr)` finds the entry `e` and `CanMerge(e, [addr, addr, time, data])`
holds, `Update(time, addr, data)` returns (whatever the fuel) the store in which only the
`LastAccess` of `e` changed, to `time`, and in which the pair of `e` was taken out of the time
index and inserted again under the key `time`: the address index holds the same entries in the
same order, with the same bounds and payloads, every entry other than `e` keeps its
`LastAccess`, and the block size and the capacity are unchanged. -/
theorem Update_refresh_changes_only_recency (fuel : Nat)
    (CanMerge : GroupedHistoryEntry T → GroupedHistoryEntry T → Bool)
    (h : GroupedHistory T) (hi : StoreInvariant h) (time : Int) (addr : Nat) (data : T)
    (e : GroupedHistoryEntry T) (hget : Get h addr = some e)
    (hmerge : CanMerge e
      { FirstAddr := addr, LastAddr := addr, LastAccess := time, Data := data } = true)
    (hcap : h.mEntryByTime.length ≤ toADDR h.mCapacity) :
    Update fuel CanMerge h time addr data = .ok
      { mBlockSize := h.mBlockSize
        mCapacity := h.mCapacity
        mEntryByTime := timeInsert (time, e.FirstAddr)
          (h.mEntryByTime.erase (e.LastAccess, e.FirstAddr))
        mEntryByAddr := h.mEntryByAddr.map
          (fun x => if x.FirstAddr = e.FirstAddr then { x with LastAccess := time } else x) } ∧
    e ∈ h.mEntryByAddr ∧ (∀ x ∈ h.mEntryByAddr, x.FirstAddr = e.FirstAddr → x = e) ∧
    (e.LastAccess, e.FirstAddr) ∈ h.mEntryByTime := by
  obtain ⟨hc, hs, _⟩ := hi
  -- what `Get` found
  have hfound : FindEntryByAddr h addr ≠ h.mEntryByAddr.length ∧
      h.mEntryByAddr[FindEntryByAddr h addr]? = some e := by
    unfold Get at hget
    dsimp only at hget
    split_ifs at hget with hne
    exact ⟨hne, hget⟩
  have hmem : e ∈ h.mEntryByAddr := List.getElem?_mem hfound.2
  have huniq : ∀ x ∈ h.mEntryByAddr, x.FirstAddr = e.FirstAddr → x = e :=
    fun x hx heq => eq_of_FirstAddr_eq _ hs x e hx hmem heq
  have htime : (e.LastAccess, e.FirstAddr) ∈ h.mEntryByTime :=
    (List.Perm.mem_iff hc).2 (List.mem_map.2 ⟨e, hmem, rfl⟩)
  refine ⟨?_, hmem, huniq, htime⟩
  -- the lookup of `UpdateLastAccess` finds `e` again
  have hlt := addrFind_lt_of_mem _ _ hmem
  have hkey : h.mEntryByAddr[addrFind h.mEntryByAddr e.FirstAddr]? = some e := by
    rw [List.getElem?_eq_getElem hlt]
    congr 1
    exact huniq _ (List.getElem_mem _)
      (addrFind_getElem? _ _ _ (List.getElem?_eq_getElem hlt))
  have hiter : FindEntryByTimeIterator h e ≠ h.mEntryByTime.length :=
    timeFind_ne_length_of_mem _ _ htime
  have hsplit : UpdateSplit CanMerge h time addr data =
      { mBlockSize := h.mBlockSize
        mCapacity := h.mCapacity
        mEntryByTime := timeInsert (time, e.FirstAddr)
          (h.mEntryByTime.erase (e.LastAccess, e.FirstAddr))
        mEntryByAddr := h.mEntryByAddr.map
          (fun x => if x.FirstAddr = e.FirstAddr then { x with LastAccess := time } else x) } := by
    unfold UpdateSplit
    rw [hfound.2]
    dsimp only
    rw [if_pos hmerge]
    unfold UpdateLastAccess
    rw [hkey]
    dsimp only
    rw [if_neg hiter]
    unfold FindEntryByTimeIterator
    rw [eraseIdx_timeFind, addrModify_eq_map _ _ _ hs]
  have hstill : FindEntryByAddr (UpdateSplit CanMerge h time addr data) addr ≠
      (UpdateSplit CanMerge h time addr data).mEntryByAddr.length := by
    rw [FindEntryByAddr_map h _
      (fun x => if x.FirstAddr = e.FirstAddr then { x with LastAccess := time } else x)
      (fun x => by dsimp only; split_ifs <;> rfl) (fun x => by dsimp only; split_ifs <;> rfl) (by rw [hsplit])]
    rw [hsplit]
    simpa using hfound.1
  have hlen : (timeInsert (time, e.FirstAddr)
      (h.mEntryByTime.erase (e.LastAccess, e.FirstAddr))).length = h.mEntryByTime.length := by
    rw [timeInsert_length, List.length_erase_of_mem htime]
    have : 0 < h.mEntryByTime.length := List.length_pos_of_mem htime
    omega
  unfold Update UpdateBody UpdateInsert
  rw [if_neg hstill]
  dsimp only
  rw [hsplit]
  cases fuel <;>
  · unfold evictLoop
    rw [if_neg (by dsimp only; rw [hlen]; omega)]

/-- C21, on a store of two entries: the access at address 4 falls into `[3, 5]`, whose payload
equals the payload of the access. -/
theorem Update_refresh_changes_only_recency_witness :
    StoreInvariant
      ({ mBlockSize := 1, mCapacity := 2, mEntryByTime := [(1, 3), (2, 7)],
         mEntryByAddr := [⟨3, 5, 1, 0⟩, ⟨7, 7, 2, 1⟩] } : GroupedHistory Int) ∧
    Update 0 testCanMerge
      ({ mBlockSize := 1, mCapacity := 2, mEntryByTime := [(1, 3), (2, 7)],
         mEntryByAddr := [⟨3, 5, 1, 0⟩, ⟨7, 7, 2, 1⟩] } : GroupedHistory Int) 5 4 0 =
      .ok { mBlockSize := 1, mCapacity := 2, mEntryByTime := [(2, 7), (5, 3)],
            mEntryByAddr := [⟨3, 5, 5, 0⟩, ⟨7, 7, 2, 1⟩] } :=
  ⟨by decide,
   (Update_refresh_changes_only_recency 0 testCanMerge
      { mBlockSize := 1, mCapacity := 2, mEntryByTime := [(1, 3), (2, 7)],
        mEntryByAddr := [⟨3, 5, 1, 0⟩, ⟨7, 7, 2, 1⟩] } (by decide) 5 4 0 ⟨3, 5, 1, 0⟩ rfl rfl
      (by decide)).1⟩

end GroupedHistory

/-! ## Strided accesses drive an entry of the reference prediction table to STEADY -/

theorem wadd_toADDR (x s : Int) : wadd (toADDR x) (toADDR s) = toADDR (x + s) := by
  unfold wadd toADDR
  omega

theorem toInt64_range (x : Nat) : -2 ^ 63 ≤ toInt64 x ∧ toInt64 x < 2 ^ 63 := by
  unfold toInt64
  split_ifs <;> omega

theorem toInt64_wsub (x s : Int) (hs : -2 ^ 63 ≤ s ∧ s < 2 ^ 63) :
    toInt64 (wsub (toADDR (x + s)) (toADDR x)) = s := by
  unfold toInt64 wsub toADDR
  split_ifs <;> omega

theorem wadd_stride_iff (x d s : Int) (hd : -2 ^ 63 ≤ d ∧ d < 2 ^ 63)
    (hs : -2 ^ 63 ≤ s ∧ s < 2 ^ 63) :
    wadd (toADDR x) (toADDR d) = toADDR (x + s) ↔ d = s := by
  unfold wadd toADDR
  omega

namespace Baer91

theorem rpt_update_first (e : inst_t) (x : Nat)
    (hq : e.state = RPT_STATE_INIT ∨ e.state = RPT_STATE_TRANSIENT ∨
      e.state = RPT_STATE_STEADY ∨ e.state = RPT_STATE_NO_PRED)
    (hd : -2 ^ 63 ≤ e.stride ∧ e.stride < 2 ^ 63) :
    ((rpt_update e x).state = RPT_STATE_INIT ∨ (rpt_update e x).state = RPT_STATE_TRANSIENT ∨
      (rpt_update e x).state = RPT_STATE_STEADY ∨ (rpt_update e x).state = RPT_STATE_NO_PRED) ∧
    (-2 ^ 63 ≤ (rpt_update e x).stride ∧ (rpt_update e x).stride < 2 ^ 63) ∧
    (rpt_update e x).prev_addr = x := by
  obtain ⟨pc, lt, fw, p, d, q⟩ := e
  have hr := toInt64_range (wsub x p)
  simp only [RPT_STATE_INIT, RPT_STATE_TRANSIENT, RPT_STATE_STEADY, RPT_STATE_NO_PRED] at hq ⊢
  dsimp only at hd hq
  by_cases hc : wadd p (toADDR d) = x <;>
  rcases hq with rfl | rfl | rfl | rfl <;>
  simp [rpt_update, hc, RPT_STATE_INIT, RPT_STATE_TRANSIENT, RPT_STATE_STEADY,
    RPT_STATE_NO_PRED] <;>
  omega

theorem rpt_update_steady (e : inst_t) (y s : Int)
    (hq : e.state = RPT_STATE_STEADY) (hd : e.stride = s) (hp : e.prev_addr = toADDR y) :
    rpt_update e (toADDR (y + s)) = { e with prev_addr := toADDR (y + s) } := by
  obtain ⟨pc, lt, fw, p, d, q⟩ := e
  dsimp only at hq hd hp
  subst hq hd hp
  simp [rpt_update, wadd_toADDR, RPT_STATE_INIT, RPT_STATE_TRANSIENT, RPT_STATE_STEADY,
    RPT_STATE_NO_PRED]

theorem rpt_update_three (e : inst_t) (y s : Int)
    (hq : e.state = RPT_STATE_INIT ∨ e.state = RPT_STATE_TRANSIENT ∨
      e.state = RPT_STATE_STEADY ∨ e.state = RPT_STATE_NO_PRED)
    (hd : -2 ^ 63 ≤ e.stride ∧ e.stride < 2 ^ 63) (hs : -2 ^ 63 ≤ s ∧ s < 2 ^ 63)
    (hp : e.prev_addr = toADDR y) :
    rpt_update (rpt_update (rpt_update e (toADDR (y + s))) (toADDR (y + s + s)))
        (toADDR (y + s + s + s)) =
      { e with prev_addr := toADDR (y + s + s + s), stride := s, state := RPT_STATE_STEADY } := by
  obtain ⟨pc, lt, fw, p, d, q⟩ := e
  dsimp only at hq hd hp
  subst hp
  have k1 := toInt64_wsub y s hs
  have k2 := toInt64_wsub (y + s) s hs
  have k3 := toInt64_wsub (y + s + s) s hs
  have w0 := wadd_toADDR y s
  have w1 := wadd_toADDR (y + s) s
  have w2 := wadd_toADDR (y + s + s) s
  by_cases hds : d = s
  · subst hds
    rcases hq with rfl | rfl | rfl | rfl <;>
    simp [rpt_update, RPT_STATE_INIT, RPT_STATE_TRANSIENT, RPT_STATE_STEADY,
      RPT_STATE_NO_PRED, k1, k2, k3, w0, w1, w2]
  · have n1 : ¬ wadd (toADDR y) (toADDR d) = toADDR (y + s) :=
      fun hw => hds ((wadd_stride_iff y d s hd hs).1 hw)
    have n2 : ¬ wadd (toADDR (y + s)) (toADDR d) = toADDR (y + s + s) :=
      fun hw => hds ((wadd_stride_iff (y + s) d s hd hs).1 hw)
    rcases hq with rfl | rfl | rfl | rfl <;>
    simp [rpt_update, RPT_STATE_INIT, RPT_STATE_TRANSIENT, RPT_STATE_STEADY,
      RPT_STATE_NO_PRED, k1, k2, k3, w0, w1, w2, n1, n2]

theorem instsAt_accessSeq (pc : Nat) (miss : Int) (addrs : List Nat) :
    ∀ σ : Table, instsAt (accessSeq σ pc miss addrs).insts pc =
      addrs.foldl rpt_update (instsAt σ.insts pc) := by
  induction addrs with
  | nil => intro σ; rfl
  | cons x xs ih =>
    intro σ
    have hstep : instsAt (mem_access σ pc x miss).insts pc = rpt_update (instsAt σ.insts pc) x := by
      unfold mem_access instsAt
      dsimp only
      rw [StdMap.lookup_insert_self]
      rfl
    unfold accessSeq at ih ⊢
    rw [List.foldl_cons, ih, hstep, List.foldl_cons]

theorem stridedAddrs_succ (a : Nat) (s : Int) (n : Nat) :
    stridedAddrs a s (n + 1) = stridedAddrs a s n ++ [toADDR ((a : Int) + (n : Int) * s)] := by
  unfold stridedAddrs
  rw [List.range_succ, List.map_append]
  rfl

theorem stridedAddrs_four (a : Nat) (s : Int) :
    stridedAddrs a s 4 = [toADDR (a : Int), toADDR ((a : Int) + s), toADDR ((a : Int) + s + s),
      toADDR ((a : Int) + s + s + s)] := by
  have e2 : (a : Int) + 2 * s = (a : Int) + s + s := by ring
  have e3 : (a : Int) + 3 * s = (a : Int) + s + s + s := by ring
  simp [stridedAddrs, List.range_succ, e2, e3]

/-- C23: take any entry of the table (also the value-initialised one of a PC the table does not
hold) whose state is one of the four enumerators and whose stride is an `int64_t`, whatever
its `prev_addr`. After `n ≥ 4` consecutive `mem_access` calls for its PC with the addresses
`a`, `a + s`, `a + 2 s`, ... (modulo `2^64`, `s` an `int64_t`) the entry is in state STEADY with
stride `s` and `prev_addr` the last address `a + (n - 1) s`: it is STEADY after the fourth
access and stays so for every further access that continues the stride. -/
theorem strided_accesses_reach_steady (σ : Table) (pc : Nat) (miss : Int) (a : Nat) (s : Int)
    (n : Nat)
    (hstate : (instsAt σ.insts pc).state = RPT_STATE_INIT ∨
      (instsAt σ.insts pc).state = RPT_STATE_TRANSIENT ∨
      (instsAt σ.insts pc).state = RPT_STATE_STEADY ∨
      (instsAt σ.insts pc).state = RPT_STATE_NO_PRED)
    (hstride : -2 ^ 63 ≤ (instsAt σ.insts pc).stride ∧ (instsAt σ.insts pc).stride < 2 ^ 63)
    (hs : -2 ^ 63 ≤ s ∧ s < 2 ^ 63) (hn : 4 ≤ n) :
    (instsAt (accessSeq σ pc miss (stridedAddrs a s n)).insts pc).state = RPT_STATE_STEADY ∧
    (instsAt (accessSeq σ pc miss (stridedAddrs a s n)).insts pc).stride = s ∧
    (instsAt (accessSeq σ pc miss (stridedAddrs a s n)).insts pc).prev_addr =
      toADDR ((a : Int) + ((n : Int) - 1) * s) := by
  rw [instsAt_accessSeq]
  induction n, hn using Nat.le_induction with
  | base =>
    obtain ⟨hq1, hd1, hp1⟩ := rpt_update_first (instsAt σ.insts pc) (toADDR (a : Int)) hstate hstride
    have h3 := rpt_update_three _ (a : Int) s hq1 hd1 hs hp1
    rw [stridedAddrs_four]
    simp only [List.foldl_cons, List.foldl_nil]
    rw [h3]
    refine ⟨rfl, rfl, ?_⟩
    show toADDR ((a : Int) + s + s + s) = _
    congr 1
    push_cast
    ring
  | succ m hm ih =>
    obtain ⟨hq, hd, hp⟩ := ih
    rw [stridedAddrs_succ, List.foldl_append]
    simp only [List.foldl_cons, List.foldl_nil]
    have hnext : (a : Int) + (m : Int) * s = (a : Int) + (((m : Nat) : Int) - 1) * s + s := by ring
    rw [hnext, rpt_update_steady _ _ s hq hd hp]
    refine ⟨hq, hd, ?_⟩
    show toADDR _ = _
    congr 1
    push_cast
    ring

/-- C23, for the entry of a PC that the empty table does not hold yet, the addresses 100, 200,
300, 400 and 500. -/
theorem strided_accesses_reach_steady_witness :
    (instsAt (accessSeq Table.empty 7 1 (stridedAddrs 100 100 5)).insts 7).state =
      RPT_STATE_STEADY ∧
    (instsAt (accessSeq Table.empty 7 1 (stridedAddrs 100 100 5)).insts 7).stride = 100 ∧
    (instsAt (accessSeq Table.empty 7 1 (stridedAddrs 100 100 5)).insts 7).prev_addr =
      toADDR (((100 : Nat) : Int) + (((5 : Nat) : Int) - 1) * 100) :=
  strided_accesses_reach_steady Table.empty 7 1 100 100 5 (Or.inl rfl) (by decide) (by decide)
    (by decide)

end Baer91

/-! ## The block address that `prefetch_access` hands to the predictor -/

theorem toADDR_two_pow_sub_one (k : Nat) (hk : k ≤ 64) :
    toADDR ((2 : Int) ^ k - 1) = 2 ^ k - 1 := by
  have hpos : 1 ≤ 2 ^ k := Nat.one_le_two_pow
  have hle : 2 ^ k ≤ 2 ^ 64 := Nat.pow_le_pow_right (by decide) hk
  have hcast : (2 : Int) ^ k - 1 = ((2 ^ k - 1 : Nat) : Int) := by
    rw [Nat.cast_sub hpos]
    push_cast
    rfl
  unfold toADDR
  rw [hcast]
  omega

theorem toADDR_two_pow (k : Nat) (hk : k < 64) : toADDR ((2 : Int) ^ k) = 2 ^ k := by
  have hlt : 2 ^ k < 2 ^ 64 := Nat.pow_lt_pow_right (by decide) hk
  have hcast : (2 : Int) ^ k = ((2 ^ k : Nat) : Int) := by push_cast; rfl
  unfold toADDR
  rw [hcast]
  generalize 2 ^ k = n at hlt ⊢
  omega

theorem blockMask_two_pow (a k : Nat) (ha : a < 2 ^ 64) (hk : k ≤ 64) :
    blockMask a ((2 : Int) ^ k) = a - a % 2 ^ k := by
  unfold blockMask
  rw [toADDR_two_pow_sub_one k hk]
  have hx : 2 ^ k - 1 < 2 ^ 64 :=
    lt_of_lt_of_le (Nat.sub_lt Nat.one_le_two_pow (by decide)) (Nat.pow_le_pow_right (by decide) hk)
  have hm : 2 ^ 64 - 1 - (2 ^ k - 1) = 2 ^ 64 - (2 ^ k - 1 + 1) := by omega
  have hr : a - a % 2 ^ k = 2 ^ k * (a / 2 ^ k) := by
    have := Nat.div_add_mod a (2 ^ k)
    omega
  rw [hm, hr]
  apply Nat.eq_of_testBit_eq
  intro i
  rw [Nat.testBit_and, Nat.testBit_two_pow_sub_succ hx, Nat.testBit_two_pow_sub_one,
    Nat.testBit_mul_pow_two, ← Nat.shiftRight_eq_div_pow, Nat.testBit_shiftRight]
  by_cases hik : i < k
  · simp [hik]
  · have hki : k + (i - k) = i := by omega
    rw [hki]
    by_cases hi : i < 64
    · simp [hik, hi, Nat.le_of_not_lt hik]
    · have hbig : a < 2 ^ i :=
        lt_of_lt_of_le ha (Nat.pow_le_pow_right (by decide) (by omega))
      simp [Nat.testBit_lt_two_pow hbig, hi]

/-- C22 fails for the stride predictor: with `BLOCK_SIZE = 64`, the access to address 100 lies
in the block of address 64, but `prefetch_access` hands 128 to `mem_access`, which records it
as the `prev_addr` of the entry; handing over 64 would have given another table. -/
theorem stride_predictor_is_given_next_block :
    blockMask 100 64 = 64 ∧
    Baer91.prefetch_access 64 (fun _ => false) (fun _ => false) Baer91.Table.empty
        { pc := 1, mem_addr := 100, time := 1, miss := 1 } =
      .ok (Baer91.stride_prefetch
        (Baer91.mem_access { insts := [(1, ⟨1, 1, 1, 0, 0, 0⟩)], pc_history := [(1, 1)] } 1 128 1)
        (fun _ => false) (fun _ => false) 1) ∧
    Baer91.prefetch_access 64 (fun _ => false) (fun _ => false) Baer91.Table.empty
        { pc := 1, mem_addr := 100, time := 1, miss := 1 } =
      .ok ({ insts := [(1, ⟨1, 1, 1, 128, 128, 1⟩)], pc_history := [(1, 1)] }, none) ∧
    Baer91.prefetch_access 64 (fun _ => false) (fun _ => false) Baer91.Table.empty
        { pc := 1, mem_addr := 100, time := 1, miss := 1 } ≠
      .ok (Baer91.stride_prefetch
        (Baer91.mem_access { insts := [(1, ⟨1, 1, 1, 0, 0, 0⟩)], pc_history := [(1, 1)] } 1
          (blockMask 100 64) 1)
        (fun _ => false) (fun _ => false) 1) := by
  refine ⟨by decide, rfl, rfl, ?_⟩
  intro heq
  have hcode : Baer91.prefetch_access 64 (fun _ => false) (fun _ => false) Baer91.Table.empty
      { pc := 1, mem_addr := 100, time := 1, miss := 1 } =
      .ok ({ insts := [(1, ⟨1, 1, 1, 128, 128, 1⟩)], pc_history := [(1, 1)] }, none) := rfl
  have hclaim : (Except.ok (Baer91.stride_prefetch
      (Baer91.mem_access { insts := [(1, ⟨1, 1, 1, 0, 0, 0⟩)], pc_history := [(1, 1)] } 1
        (blockMask 100 64) 1)
      (fun _ => false) (fun _ => false) 1) : Except Fault (Baer91.Table × Option Nat)) =
      .ok ({ insts := [(1, ⟨1, 1, 1, 64, 64, 1⟩)], pc_history := [(1, 1)] }, none) := rfl
  rw [hcode, hclaim] at heq
  exact absurd (Except.ok.inj heq) (by decide)

/-- C22, amended: let `BLOCK_SIZE = 2^k` with `k < 64` and `mem_addr` a 64-bit address, and
write `block` for the address of the block that contains `mem_addr`. The Markov predictor
hands `block` to `model_add_miss` and `model_prefetch`; the delta-correlation predictor
computes its delta, its `prev_addr` and its lookup from `block`; the stride predictor hands to
`mem_access` the address of the block that contains `mem_addr + BLOCK_SIZE` (modulo `2^64`),
which is `block + BLOCK_SIZE` whenever that sum does not wrap. -/
theorem prefetch_access_block_address (k : Nat) (hk : k < 64) (stat : AccessStat)
    (hm : stat.mem_addr < 2 ^ 64) :
    (∀ in_cache in_mshr_queue m,
      Joseph97.prefetch_access (2 ^ k) in_cache in_mshr_queue m stat =
        if stat.miss ≠ 0 then
          (Joseph97.model_add_miss m (stat.mem_addr - stat.mem_addr % 2 ^ k),
           Joseph97.model_prefetch
             (Joseph97.model_add_miss m (stat.mem_addr - stat.mem_addr % 2 ^ k))
             in_cache in_mshr_queue (stat.mem_addr - stat.mem_addr % 2 ^ k))
        else (m, none)) ∧
    (∀ MAX_PHYS_MEM_ADDR in_cache fuel σ,
      DeltaCorrelation.prefetch_access (2 ^ k) MAX_PHYS_MEM_ADDR in_cache fuel σ stat =
        if stat.miss ≠ 0 then
          match (if σ.prev_addr ≠ 0 then
              σ.history.Update fuel (DeltaCorrelation.CanMerge (2 ^ k)) stat.time σ.prev_addr
                (toInt64 (toADDR (toInt64 (stat.mem_addr - stat.mem_addr % 2 ^ k) -
                  toInt64 σ.prev_addr)))
            else .ok σ.history) with
          | .error f => .error f
          | .ok history =>
            .ok ({ history := history
                   prev_addr := if σ.prev_addr ≠ stat.mem_addr - stat.mem_addr % 2 ^ k
                     then stat.mem_addr - stat.mem_addr % 2 ^ k else σ.prev_addr },
                 if !in_cache (DeltaCorrelation.prefetch_target (2 ^ k) MAX_PHYS_MEM_ADDR history
                     (stat.mem_addr - stat.mem_addr % 2 ^ k))
                 then some (DeltaCorrelation.prefetch_target (2 ^ k) MAX_PHYS_MEM_ADDR history
                     (stat.mem_addr - stat.mem_addr % 2 ^ k))
                 else none)
        else .ok (σ, none)) ∧
    (∀ in_cache in_mshr_queue σ,
      Baer91.prefetch_access (2 ^ k) in_cache in_mshr_queue σ stat =
        match Baer91.inst_execute σ stat.pc stat.time with
        | .error f => .error f
        | .ok σ1 =>
          .ok (Baer91.stride_prefetch
            (Baer91.mem_access σ1 stat.pc
              ((stat.mem_addr + 2 ^ k) % 2 ^ 64 - (stat.mem_addr + 2 ^ k) % 2 ^ 64 % 2 ^ k)
              stat.miss)
            in_cache in_mshr_queue stat.pc)) ∧
    (stat.mem_addr + 2 ^ k < 2 ^ 64 →
      (stat.mem_addr + 2 ^ k) % 2 ^ 64 - (stat.mem_addr + 2 ^ k) % 2 ^ 64 % 2 ^ k =
        (stat.mem_addr - stat.mem_addr % 2 ^ k) + 2 ^ k) := by
  have hmask := blockMask_two_pow stat.mem_addr k hm (Nat.le_of_lt hk)
  have hnext : blockMask (addrAdd stat.mem_addr ((2 : Int) ^ k)) ((2 : Int) ^ k) =
      (stat.mem_addr + 2 ^ k) % 2 ^ 64 - (stat.mem_addr + 2 ^ k) % 2 ^ 64 % 2 ^ k := by
    have hadd : addrAdd stat.mem_addr ((2 : Int) ^ k) = (stat.mem_addr + 2 ^ k) % 2 ^ 64 := by
      unfold addrAdd wadd
      rw [toADDR_two_pow k hk]
    rw [hadd]
    exact blockMask_two_pow _ k (Nat.mod_lt _ (by decide)) (Nat.le_of_lt hk)
  refine ⟨?_, ?_, ?_, ?_⟩
  · intro in_cache in_mshr_queue m
    unfold Joseph97.prefetch_access
    rw [hmask]
  · intro MAX_PHYS_MEM_ADDR in_cache fuel σ
    unfold DeltaCorrelation.prefetch_access
    rw [hmask]
  · intro in_cache in_mshr_queue σ
    unfold Baer91.prefetch_access
    rw [hnext]
  · intro hno
    rw [Nat.mod_eq_of_lt hno, Nat.add_mod_right]
    have := Nat.mod_le stat.mem_addr (2 ^ k)
    omega

/-- C22, amended, at `BLOCK_SIZE = 64` and the access to address 100: the Markov predictor
records a miss of block 64, the stride predictor is handed block 128. -/
theorem prefetch_access_block_address_witness :
    (6 < 64 ∧ (100 : Nat) < 2 ^ 64) ∧
    Joseph97.prefetch_access 64 (fun _ => false) (fun _ => false) Joseph97.Model.empty
        { pc := 1, mem_addr := 100, time := 1, miss := 1 } =
      (Joseph97.model_add_miss Joseph97.Model.empty 64,
       Joseph97.model_prefetch (Joseph97.model_add_miss Joseph97.Model.empty 64)
         (fun _ => false) (fun _ => false) 64) ∧
    Baer91.prefetch_access 64 (fun _ => false) (fun _ => false) Baer91.Table.empty
        { pc := 1, mem_addr := 100, time := 1, miss := 1 } =
      .ok (Baer91.stride_prefetch
        (Baer91.mem_access { insts := [(1, ⟨1, 1, 1, 0, 0, 0⟩)], pc_history := [(1, 1)] } 1 128 1)
        (fun _ => false) (fun _ => false) 1) :=
  ⟨⟨by decide, by decide⟩,
   (prefetch_access_block_address 6 (by decide) ⟨1, 100, 1, 1⟩ (by decide)).1 _ _ _,
   (prefetch_access_block_address 6 (by decide) ⟨1, 100, 1, 1⟩ (by decide)).2.2.1 _ _ _⟩
